import Mathlib

/-!
The qc_simulator repository: a shallow embedding of the gate-application engines

The repository holds several variants of one statevector simulator.  Each
variant is embedded in a namespace named after its source directory:

* `TensorMult`        : `src/tensor_mult/statevector.c`
* `MatrixMult`        : `src/using matrix mult/statevector.c`
* `QubitManipulation` : `src/qubit_manipulation/statevector.c`
* `CMatrixMult`       : `src/C implementation/matrix_mult/statevector.c`

Modelling conventions.

* `double` is an abstract exact ring or field `α` (the real numbers in the
  statements that mention `sqrt`); rounding is outside the model.
* A `double*` buffer is a `List α`; `p[i]` reads `p.getD i 0` and
  `p[i] = x` is `p.set i x`.  A pointer that may be `NULL` is an `Option`.
* `int` values that are used as shift counts, loop counters and array
  indices are natural numbers, `1 << k` is `1 <<< k` (no wrap-around: the
  C code is only defined while `2 ^ k` fits an `int`, i.e. `k ≤ 30`).
  Qubit indices that are validated before use are `Int`, so that negative
  arguments are representable.
* The dense engines compute the matrix size `dim * dim` and the row-major
  indices `i * dim + j` in `int`; with 16 qubits these reach `2 ^ 32` and
  overflow.  Each dense routine `f` has a companion `f_int` that is `none`
  when an `int` computed by `f` overflows (undefined behaviour) and `some` of
  the result of `f` otherwise; the statements about the dense engines are
  about the `f_int`.
* In the definitions named after the source `calloc`/`malloc` succeed; the
  `NULL` branches of the source are kept.  The three routines whose `NULL`
  branch reports failure to the caller (`tensor_contract`,
  `apply_single_qubit_gate`, `apply_cnot_gate`) have companions `..._alloc`
  that take the outcome of the allocation as an argument.  The indeterminate
  content of a `malloc`ed buffer is an explicit argument (`scratch`, `heap`,
  or the caller's `matrix` buffer).
* Where a claim is about which array elements a routine touches, the routine
  has a companion `..._accesses` listing the indices it reads and writes in
  program order.
* Drivers are embedded without their `printf` calls and return the state that
  is printed last.
* A `for (int i = 0; i < n; i++)` loop is `forLoop n body`.
-/

namespace QcSim

/-- State after the first `n` iterations of `for (int i = 0; i < n; i++) body`,
started in state `s`. -/
def forLoop {σ : Type} : Nat → (Nat → σ → σ) → σ → σ
  | 0, _, s => s
  | k + 1, body, s => body k (forLoop k body s)

/-- The C expression `i & ~mask` on non-negative `int`s: `i` with the bits of
`mask` cleared. -/
def and_not (i mask : Nat) : Nat := i ^^^ (i &&& mask)

/-- The statement `p[idx] += x`. -/
def add_at {α : Type} [Zero α] [Add α] (p : List α) (idx : Nat) (x : α) : List α :=
  p.set idx (p.getD idx 0 + x)

/-- Model of `calloc(count, sizeof(double))`: a zeroed buffer; never `NULL`. -/
def calloc (α : Type) [Zero α] (count : Nat) : Option (List α) :=
  some (List.replicate count 0)

/-- Model of `memcpy(dst, src, count * sizeof(double))`. -/
def memcpy {α : Type} (dst src : List α) (count : Nat) : List α :=
  src.take count ++ dst.drop count

/-- Model of `memset(p, 0, count * sizeof(double))`. -/
def memset_zero {α : Type} [Zero α] (p : List α) (count : Nat) : List α :=
  List.replicate count 0 ++ p.drop count

/-- The sum of squared amplitudes of a state vector. -/
def norm_sq {α : Type} [Zero α] [Add α] [Mul α] (v : List α) : α :=
  (v.map (fun a => a * a)).sum

/-- The largest value of the 32-bit type `int`, the type of every dimension,
loop counter and array index of the repository. -/
def INT_MAX : Nat := 2147483647

/-- The result of a non-negative `int` expression whose exact value is `x`:
`some x` when `x` fits an `int`, `none` when the C arithmetic overflows (signed
overflow is undefined behaviour). -/
def int_value (x : Nat) : Option Nat :=
  if x ≤ INT_MAX then some x else none

/-- Model of a `calloc(count, sizeof(double))` call whose outcome is given:
`NULL` (`none`) when the heap cannot serve the request (`alloc_ok = false`), a
zeroed buffer otherwise. -/
def calloc_outcome (α : Type) [Zero α] (alloc_ok : Bool) (count : Nat) : Option (List α) :=
  if alloc_ok then some (List.replicate count 0) else none

/-! ## `src/C implementation/tensor_mult/quantum_simulator.h` and
`src/tensor_mult/statevector.c` -/

namespace TensorMult

/-- The constant `#define MAX_QUBITS 29`. -/
def MAX_QUBITS : Nat := 29

/-- The struct `QuantumGate`, `double elements[2][2]`; field `eRC` is
`elements[R][C]`. -/
structure QuantumGate (α : Type) where
  e00 : α
  e01 : α
  e10 : α
  e11 : α
deriving DecidableEq, Repr

/-- The entry `elements[r][c]` of a gate, the indices given as bits. -/
def QuantumGate.elements {α : Type} (g : QuantumGate α) (r c : Bool) : α :=
  if r then (if c then g.e11 else g.e10) else (if c then g.e01 else g.e00)

/-- The memory of a `QuantumGate` read as a row-major `double[4]`, the gate
format of the dense engines. -/
def QuantumGate.toList {α : Type} (g : QuantumGate α) : List α :=
  [g.e00, g.e01, g.e10, g.e11]

/-- The function `get_hadamard_gate`; `sqrt` is the libm square root. -/
def get_hadamard_gate {α : Type} [DivisionRing α] (sqrt : α → α) : QuantumGate α :=
  let inv_sqrt_2 := 1 / sqrt 2
  { e00 := inv_sqrt_2, e01 := inv_sqrt_2, e10 := inv_sqrt_2, e11 := -inv_sqrt_2 }

/-- The function `get_x_gate`. -/
def get_x_gate {α : Type} [Zero α] [One α] : QuantumGate α :=
  { e00 := 0, e01 := 1, e10 := 1, e11 := 0 }

/-- The function `validate_single_qubit`. -/
def validate_single_qubit (num_qubits qubit : Int) : Bool :=
  decide (qubit ≥ 0) && decide (qubit < num_qubits)

/-- The function `validate_qubit_indices` (the `fprintf` calls are dropped). -/
def validate_qubit_indices (num_qubits qubit1 qubit2 : Int) : Bool :=
  if !validate_single_qubit num_qubits qubit1 || !validate_single_qubit num_qubits qubit2 then
    false
  else if qubit1 = qubit2 then
    false
  else
    true

/-- The function `initialize_state_vector`: the returned flag and the final
content of the buffer. -/
def initialize_state_vector {α : Type} [Zero α] [One α]
    (state_vector : Option (List α)) (num_qubits : Nat) : Bool × Option (List α) :=
  match state_vector with
  | none => (false, none)
  | some sv =>
    let dim := 1 <<< num_qubits
    let sv := memset_zero sv dim
    let sv := sv.set 0 1
    (true, some sv)

/-- The function `tensor_contract`: the returned flag and the final content of
`state_vector`. -/
def tensor_contract {α : Type} [Zero α] [Add α] [Mul α]
    (state_vector : List α) (gate : QuantumGate α) (target_qubit num_qubits : Nat) :
    Bool × List α :=
  let dim := 1 <<< num_qubits
  match calloc α dim with
  | none => (false, state_vector)
  | some new_state =>
    let new_state := forLoop dim (fun i new_state =>
      let bit_mask := 1 <<< target_qubit
      let basis_0 := and_not i bit_mask
      let basis_1 := i ||| bit_mask
      if i &&& bit_mask = 0 then
        let new_state := add_at new_state basis_0 (gate.e00 * state_vector.getD i 0)
        add_at new_state basis_1 (gate.e10 * state_vector.getD i 0)
      else
        let new_state := add_at new_state basis_0 (gate.e01 * state_vector.getD i 0)
        add_at new_state basis_1 (gate.e11 * state_vector.getD i 0)) new_state
    (true, memcpy state_vector new_state dim)

/-- The function `apply_single_qubit_gate`: the returned flag and the final
content of the buffer. -/
def apply_single_qubit_gate {α : Type} [Zero α] [Add α] [Mul α]
    (state_vector : Option (List α)) (gate : QuantumGate α)
    (num_qubits target_qubit : Int) : Bool × Option (List α) :=
  match state_vector with
  | none => (false, none)
  | some sv =>
    if !validate_single_qubit num_qubits target_qubit then
      (false, some sv)
    else
      let r := tensor_contract sv gate target_qubit.toNat num_qubits.toNat
      (r.1, some r.2)

/-- The function `apply_cnot_gate`: the returned flag and the final content of
the buffer. -/
def apply_cnot_gate {α : Type} [Zero α]
    (state_vector : Option (List α)) (num_qubits control_qubit target_qubit : Int) :
    Bool × Option (List α) :=
  match state_vector with
  | none => (false, none)
  | some sv =>
    if !validate_qubit_indices num_qubits control_qubit target_qubit then
      (false, some sv)
    else
      let dim := 1 <<< num_qubits.toNat
      match calloc α dim with
      | none => (false, some sv)
      | some new_state =>
        let new_state := forLoop dim (fun i new_state =>
          let control_bit := (i >>> control_qubit.toNat) &&& 1
          if control_bit = 1 then
            let new_state_idx := i ^^^ (1 <<< target_qubit.toNat)
            new_state.set i (sv.getD new_state_idx 0)
          else
            new_state.set i (sv.getD i 0)) new_state
        (true, some (memcpy sv new_state dim))

/-- The function `tensor_contract` once more, the outcome of its `calloc` call
being the argument `alloc_ok`; `tensor_contract` above is the case
`alloc_ok = true`. -/
def tensor_contract_alloc {α : Type} [Zero α] [Add α] [Mul α] (alloc_ok : Bool)
    (state_vector : List α) (gate : QuantumGate α) (target_qubit num_qubits : Nat) :
    Bool × List α :=
  let dim := 1 <<< num_qubits
  match calloc_outcome α alloc_ok dim with
  | none => (false, state_vector)
  | some new_state =>
    let new_state := forLoop dim (fun i new_state =>
      let bit_mask := 1 <<< target_qubit
      let basis_0 := and_not i bit_mask
      let basis_1 := i ||| bit_mask
      if i &&& bit_mask = 0 then
        let new_state := add_at new_state basis_0 (gate.e00 * state_vector.getD i 0)
        add_at new_state basis_1 (gate.e10 * state_vector.getD i 0)
      else
        let new_state := add_at new_state basis_0 (gate.e01 * state_vector.getD i 0)
        add_at new_state basis_1 (gate.e11 * state_vector.getD i 0)) new_state
    (true, memcpy state_vector new_state dim)

/-- The function `apply_single_qubit_gate` once more, the outcome of the
`calloc` call inside `tensor_contract` being the argument `alloc_ok`. -/
def apply_single_qubit_gate_alloc {α : Type} [Zero α] [Add α] [Mul α] (alloc_ok : Bool)
    (state_vector : Option (List α)) (gate : QuantumGate α)
    (num_qubits target_qubit : Int) : Bool × Option (List α) :=
  match state_vector with
  | none => (false, none)
  | some sv =>
    if !validate_single_qubit num_qubits target_qubit then
      (false, some sv)
    else
      let r := tensor_contract_alloc alloc_ok sv gate target_qubit.toNat num_qubits.toNat
      (r.1, some r.2)

/-- The function `apply_cnot_gate` once more, the outcome of its `calloc` call
being the argument `alloc_ok`; `apply_cnot_gate` above is the case
`alloc_ok = true`. -/
def apply_cnot_gate_alloc {α : Type} [Zero α] (alloc_ok : Bool)
    (state_vector : Option (List α)) (num_qubits control_qubit target_qubit : Int) :
    Bool × Option (List α) :=
  match state_vector with
  | none => (false, none)
  | some sv =>
    if !validate_qubit_indices num_qubits control_qubit target_qubit then
      (false, some sv)
    else
      let dim := 1 <<< num_qubits.toNat
      match calloc_outcome α alloc_ok dim with
      | none => (false, some sv)
      | some new_state =>
        let new_state := forLoop dim (fun i new_state =>
          let control_bit := (i >>> control_qubit.toNat) &&& 1
          if control_bit = 1 then
            let new_state_idx := i ^^^ (1 <<< target_qubit.toNat)
            new_state.set i (sv.getD new_state_idx 0)
          else
            new_state.set i (sv.getD i 0)) new_state
        (true, some (memcpy sv new_state dim))

/-- A gate whose columns are orthonormal; such a gate keeps the sum of squared
amplitudes. -/
def QuantumGate.orthogonal {α : Type} [Zero α] [One α] [Add α] [Mul α]
    (g : QuantumGate α) : Prop :=
  g.e00 * g.e00 + g.e10 * g.e10 = 1 ∧ g.e01 * g.e01 + g.e11 * g.e11 = 1 ∧
    g.e00 * g.e01 + g.e10 * g.e11 = 0

/-- One call of a gate sequence issued to the tensor_mult engine. -/
inductive GateOp where
  | X (target : Int)
  | H (target : Int)
  | CNOT (control target : Int)
deriving DecidableEq, Repr

/-- The qubit indices of a call meet the documented preconditions for
`num_qubits` qubits. -/
def GateOp.valid (num_qubits : Int) : GateOp → Prop
  | .X target => 0 ≤ target ∧ target < num_qubits
  | .H target => 0 ≤ target ∧ target < num_qubits
  | .CNOT control target =>
    (0 ≤ control ∧ control < num_qubits) ∧ (0 ≤ target ∧ target < num_qubits) ∧ control ≠ target

/-- The validity of a call is decidable. -/
instance GateOp.decidableValid (num_qubits : Int) (op : GateOp) :
    Decidable (op.valid num_qubits) := by
  cases op <;> unfold GateOp.valid <;> infer_instance

/-- The engine call for one `GateOp`, as `run_quantum_circuit_test` issues them:
`apply_single_qubit_gate` with the X or H table, or `apply_cnot_gate`. -/
def apply_op {α : Type} [DivisionRing α] (sqrt : α → α) (num_qubits : Int)
    (state_vector : Option (List α)) : GateOp → Bool × Option (List α)
  | .X target => apply_single_qubit_gate state_vector get_x_gate num_qubits target
  | .H target => apply_single_qubit_gate state_vector (get_hadamard_gate sqrt) num_qubits target
  | .CNOT control target => apply_cnot_gate state_vector num_qubits control target

/-- A sequence of engine calls on one buffer; the result is the final content
of the buffer. -/
def run_ops {α : Type} [DivisionRing α] (sqrt : α → α) (num_qubits : Int)
    (ops : List GateOp) (state_vector : Option (List α)) : Option (List α) :=
  ops.foldl (fun sv op => (apply_op sqrt num_qubits sv op).2) state_vector

/-- The function `run_quantum_circuit_test` without its printing: the content
of `state_vector` when the last state is printed, or `none` when one of the
error branches returns early. -/
def run_quantum_circuit_test {α : Type} [DivisionRing α] (sqrt : α → α)
    (num_qubits : Int) : Option (List α) :=
  let dim := 1 <<< num_qubits.toNat
  let state_vector := calloc α dim
  match state_vector, initialize_state_vector state_vector num_qubits.toNat with
  | none, _ => none
  | some _, (false, _) => none
  | some _, (true, state_vector) =>
    let H := get_hadamard_gate sqrt
    let X : QuantumGate α := get_x_gate
    match apply_single_qubit_gate state_vector X num_qubits (num_qubits - 1) with
    | (false, _) => none
    | (true, state_vector) =>
      match apply_single_qubit_gate state_vector H num_qubits 0 with
      | (false, _) => none
      | (true, state_vector) =>
        match apply_cnot_gate state_vector num_qubits 0 (num_qubits - 1) with
        | (false, _) => none
        | (true, state_vector) => state_vector

/-- The indices at which `tensor_contract` reads or writes `state_vector` or
`new_state` (both hold `dim` doubles), in program order: per `i`, for each of
the two `+=` statements the read of `state_vector[i]` and the read and the
store of `new_state[basis]`; then the `dim` elements copied by `memcpy`. -/
def tensor_contract_accesses (target_qubit num_qubits : Nat) : List Nat :=
  let dim := 1 <<< num_qubits
  let accesses := forLoop dim (fun i accesses =>
    let bit_mask := 1 <<< target_qubit
    let basis_0 := and_not i bit_mask
    let basis_1 := i ||| bit_mask
    accesses ++ [i, basis_0, basis_0, i, basis_1, basis_1]) []
  accesses ++ List.range dim

/-- The indices at which `apply_cnot_gate` reads `state_vector` or writes
`new_state` (both hold `dim` doubles), in program order: nothing when the
validation fails; otherwise per `i` the read of `state_vector[new_state_idx]`
or `state_vector[i]` and the store to `new_state[i]`, then the `dim` elements
copied by `memcpy`. -/
def apply_cnot_gate_accesses (num_qubits control_qubit target_qubit : Int) : List Nat :=
  if !validate_qubit_indices num_qubits control_qubit target_qubit then
    []
  else
    let dim := 1 <<< num_qubits.toNat
    let accesses := forLoop dim (fun i accesses =>
      let control_bit := (i >>> control_qubit.toNat) &&& 1
      if control_bit = 1 then
        let new_state_idx := i ^^^ (1 <<< target_qubit.toNat)
        accesses ++ [new_state_idx, i]
      else
        accesses ++ [i, i]) []
    accesses ++ List.range dim

end TensorMult

/-! ## `src/using matrix mult/statevector.c` -/

namespace MatrixMult

/-- The function `apply_matrix`: the final content of `statevector`.  The
`malloc`ed scratch buffer `result` starts with arbitrary content `scratch`. -/
def apply_matrix {α : Type} [Zero α] [Add α] [Mul α]
    (statevector matrix : List α) (size : Nat) (scratch : List α) : List α :=
  let result := forLoop size (fun i result =>
    let result := result.set i 0
    forLoop size (fun j result =>
      add_at result i (matrix.getD (i * size + j) 0 * statevector.getD j 0)) result) scratch
  forLoop size (fun i statevector => statevector.set i (result.getD i 0)) statevector

/-- The function `create_single_qubit_gate_matrix`: the final content of the
caller-allocated `matrix` buffer; `gate` is the row-major `double[4]`. -/
def create_single_qubit_gate_matrix {α : Type} [Zero α] [One α]
    (matrix gate : List α) (num_qubits target_qubit : Nat) : List α :=
  let dim := 1 <<< num_qubits
  let matrix := forLoop (dim * dim) (fun i matrix =>
    matrix.set i (if i / dim = i % dim then 1 else 0)) matrix
  forLoop dim (fun i matrix =>
    forLoop dim (fun j matrix =>
      let i_target := (i >>> target_qubit) &&& 1
      let j_target := (j >>> target_qubit) &&& 1
      if and_not i (1 <<< target_qubit) = and_not j (1 <<< target_qubit) then
        matrix.set (i * dim + j) (gate.getD (i_target * 2 + j_target) 0)
      else
        matrix) matrix) matrix

/-- The function `create_cnot_matrix`: the final content of the
caller-allocated `matrix` buffer. -/
def create_cnot_matrix {α : Type} [Zero α] [One α]
    (matrix : List α) (num_qubits control_qubit target_qubit : Nat) : List α :=
  let dim := 1 <<< num_qubits
  let matrix := forLoop (dim * dim) (fun i matrix => matrix.set i 0) matrix
  let matrix := forLoop dim (fun i matrix => matrix.set (i * dim + i) 1) matrix
  forLoop dim (fun i matrix =>
    let control_bit := (i >>> control_qubit) &&& 1
    if control_bit = 1 then
      let j := i ^^^ (1 <<< target_qubit)
      let matrix := matrix.set (i * dim + i) 0
      matrix.set (i * dim + j) 1
    else
      matrix) matrix

/-- The function `kronecker`: the final content of the caller-allocated
`result` buffer. -/
def kronecker {α : Type} [Zero α] [Mul α]
    (A : List α) (rowsA colsA : Nat) (B : List α) (rowsB colsB : Nat) (result : List α) :
    List α :=
  forLoop rowsA (fun i result =>
    forLoop colsA (fun j result =>
      forLoop rowsB (fun k result =>
        forLoop colsB (fun l result =>
          result.set ((i * rowsB + k) * (colsA * colsB) + (j * colsB + l))
            (A.getD (i * colsA + j) 0 * B.getD (k * colsB + l) 0)) result) result) result) result

/-- The row-major `dim × dim` identity matrix, entry by entry as the first loop
of `create_single_qubit_gate_matrix` writes it:
`matrix[i] = (i / dim == i % dim) ? 1.0 : 0.0`. -/
def identity_matrix (α : Type) [Zero α] [One α] (dim : Nat) : List α :=
  (List.range (dim * dim)).map (fun i => if i / dim = i % dim then 1 else 0)

/-- The function `run_test` without its printing: the content of `statevector`
when the last state is printed.  `heap k` is the indeterminate initial content
of a `malloc`ed buffer of `k` doubles. -/
def run_test {α : Type} [DivisionRing α] (sqrt : α → α) (heap : Nat → List α)
    (num_qubits : Nat) : List α :=
  let dim := 1 <<< num_qubits
  let statevector := heap dim
  let statevector := statevector.set 0 1
  let statevector := forLoop (dim - 1) (fun k statevector =>
    let i := k + 1
    statevector.set i 0) statevector
  let X : List α := [0, 1, 1, 0]
  let H : List α := [1 / sqrt 2, 1 / sqrt 2, 1 / sqrt 2, (-1) / sqrt 2]
  let full_X_matrix := create_single_qubit_gate_matrix (heap (dim * dim)) X num_qubits
    (num_qubits - 1)
  let statevector := apply_matrix statevector full_X_matrix dim (heap dim)
  let full_H_matrix := create_single_qubit_gate_matrix (heap (dim * dim)) H num_qubits 0
  let statevector := apply_matrix statevector full_H_matrix dim (heap dim)
  let cnot_matrix := create_cnot_matrix (heap (dim * dim)) num_qubits 0 (num_qubits - 1)
  apply_matrix statevector cnot_matrix dim (heap dim)

/-- The function `apply_matrix` within the range of `int`.  The `int`s it
computes are the counters and the row-major indices `i * size + j`, the largest
being the last one, `(size - 1) * size + (size - 1)`: when that does not fit an
`int` the loop runs into signed overflow (`none`), otherwise the result is that
of `apply_matrix` above. -/
def apply_matrix_int {α : Type} [Zero α] [Add α] [Mul α]
    (statevector matrix : List α) (size : Nat) (scratch : List α) : Option (List α) :=
  match int_value ((size - 1) * size + (size - 1)) with
  | none => none
  | some _ => some (apply_matrix statevector matrix size scratch)

/-- The function `create_single_qubit_gate_matrix` within the range of `int`.
The largest `int` it computes is the bound `dim * dim` of its first loop (every
index `i * dim + j` of the second loop is smaller): when `dim * dim` does not
fit an `int` the behaviour is undefined (`none`), otherwise the result is that
of `create_single_qubit_gate_matrix` above. -/
def create_single_qubit_gate_matrix_int {α : Type} [Zero α] [One α]
    (matrix gate : List α) (num_qubits target_qubit : Nat) : Option (List α) :=
  let dim := 1 <<< num_qubits
  match int_value (dim * dim) with
  | none => none
  | some _ => some (create_single_qubit_gate_matrix matrix gate num_qubits target_qubit)

/-- The function `create_cnot_matrix` within the range of `int`: `none` when the
bound `dim * dim` of its first loop does not fit an `int`, otherwise the result
of `create_cnot_matrix` above (every index `i * dim + j` is below
`dim * dim`). -/
def create_cnot_matrix_int {α : Type} [Zero α] [One α]
    (matrix : List α) (num_qubits control_qubit target_qubit : Nat) : Option (List α) :=
  let dim := 1 <<< num_qubits
  match int_value (dim * dim) with
  | none => none
  | some _ => some (create_cnot_matrix matrix num_qubits control_qubit target_qubit)

/-- The function `kronecker` within the range of `int`.  When all four
dimensions are positive the largest `int`s it computes are the row length
`colsA * colsB` and the last index of `result`, reached at `i = rowsA - 1`,
`k = rowsB - 1`, `j = colsA - 1`, `l = colsB - 1` (the indices into `A` and `B`
are not larger); when one of the two does not fit an `int` the loops run into
signed overflow (`none`).  Otherwise, and when a dimension is 0 (no store is
reached), the result is that of `kronecker` above. -/
def kronecker_int {α : Type} [Zero α] [Mul α]
    (A : List α) (rowsA colsA : Nat) (B : List α) (rowsB colsB : Nat) (result : List α) :
    Option (List α) :=
  if 0 < rowsA ∧ 0 < colsA ∧ 0 < rowsB ∧ 0 < colsB ∧
      (INT_MAX < colsA * colsB ∨
        INT_MAX < ((rowsA - 1) * rowsB + (rowsB - 1)) * (colsA * colsB) +
          ((colsA - 1) * colsB + (colsB - 1))) then
    none
  else
    some (kronecker A rowsA colsA B rowsB colsB result)

/-- The function `run_test` within the range of `int` (printing dropped): the
size `dim * dim` of the three `malloc(dim * dim * sizeof(double))` calls is an
`int` product, and the matrices are built and applied by the `int`-ranged
routines above. -/
def run_test_int {α : Type} [DivisionRing α] (sqrt : α → α) (heap : Nat → List α)
    (num_qubits : Nat) : Option (List α) :=
  let dim := 1 <<< num_qubits
  let statevector := heap dim
  let statevector := statevector.set 0 1
  let statevector := forLoop (dim - 1) (fun k statevector =>
    let i := k + 1
    statevector.set i 0) statevector
  let X : List α := [0, 1, 1, 0]
  let H : List α := [1 / sqrt 2, 1 / sqrt 2, 1 / sqrt 2, (-1) / sqrt 2]
  match int_value (dim * dim) with
  | none => none
  | some size =>
    match create_single_qubit_gate_matrix_int (heap size) X num_qubits (num_qubits - 1) with
    | none => none
    | some full_X_matrix =>
      match apply_matrix_int statevector full_X_matrix dim (heap dim) with
      | none => none
      | some statevector =>
        match create_single_qubit_gate_matrix_int (heap size) H num_qubits 0 with
        | none => none
        | some full_H_matrix =>
          match apply_matrix_int statevector full_H_matrix dim (heap dim) with
          | none => none
          | some statevector =>
            match create_cnot_matrix_int (heap size) num_qubits 0 (num_qubits - 1) with
            | none => none
            | some cnot_matrix => apply_matrix_int statevector cnot_matrix dim (heap dim)

end MatrixMult

/-! ## `src/qubit_manipulation/statevector.c` -/

namespace QubitManipulation

/-- The function `apply_x`: the final content of `statevector`. -/
def apply_x {α : Type} [Zero α]
    (statevector : List α) (num_qubit target : Nat) : List α :=
  let dim := 1 <<< num_qubit
  forLoop dim (fun i statevector =>
    if i &&& (1 <<< target) = 0 then
      let swap_index := i ||| (1 <<< target)
      let temp := statevector.getD i 0
      let statevector := statevector.set i (statevector.getD swap_index 0)
      statevector.set swap_index temp
    else
      statevector) statevector

/-- The function `apply_cnot`: the final content of `statevector`. -/
def apply_cnot {α : Type} [Zero α]
    (statevector : List α) (num_qubit control target : Nat) : List α :=
  let dim := 1 <<< num_qubit
  forLoop dim (fun i statevector =>
    if i &&& (1 <<< control) ≠ 0 then
      let target0 := and_not i (1 <<< target)
      let target1 := i ||| (1 <<< target)
      let temp := statevector.getD target0 0
      let statevector := statevector.set target0 (statevector.getD target1 0)
      statevector.set target1 temp
    else
      statevector) statevector

/-- The function `apply_h`: the final content of `statevector`; `sqrt` is the
libm square root. -/
def apply_h {α : Type} [DivisionRing α] (sqrt : α → α)
    (statevector : List α) (num_qubit target : Nat) : List α :=
  let dim := 1 <<< num_qubit
  let sqrt_2_inv := 1 / sqrt 2
  forLoop dim (fun i statevector =>
    if i &&& (1 <<< target) = 0 then
      let target_1_index := i ||| (1 <<< target)
      let a := statevector.getD i 0
      let b := statevector.getD target_1_index 0
      let statevector := statevector.set i (sqrt_2_inv * (a + b))
      statevector.set target_1_index (sqrt_2_inv * (a - b))
    else
      statevector) statevector

/-- The function `initialize_statevector`: the final content of `statevector`. -/
def initialize_statevector {α : Type} [Zero α] [One α]
    (statevector : List α) (num_qubit : Nat) : List α :=
  let dim := 1 <<< num_qubit
  forLoop dim (fun i statevector => statevector.set i (if i = 0 then 1 else 0)) statevector

/-- The indices of `statevector` that `apply_x` reads and writes, in program
order: per visited `i`, the read of `[i]`, the read of `[swap_index]`, the
store to `[i]` and the store to `[swap_index]`. -/
def apply_x_accesses (num_qubit target : Nat) : List Nat :=
  let dim := 1 <<< num_qubit
  forLoop dim (fun i accesses =>
    if i &&& (1 <<< target) = 0 then
      let swap_index := i ||| (1 <<< target)
      accesses ++ [i, swap_index, i, swap_index]
    else
      accesses) []

/-- The indices of `statevector` that `apply_h` reads and writes, in program
order: per visited `i`, the reads of `[i]` and `[target_1_index]` and the
stores to `[i]` and `[target_1_index]`. -/
def apply_h_accesses (num_qubit target : Nat) : List Nat :=
  let dim := 1 <<< num_qubit
  forLoop dim (fun i accesses =>
    if i &&& (1 <<< target) = 0 then
      let target_1_index := i ||| (1 <<< target)
      accesses ++ [i, target_1_index, i, target_1_index]
    else
      accesses) []

/-- The indices of `statevector` that `apply_cnot` reads and writes, in program
order: per visited `i`, the reads of `[target0]` and `[target1]` and the stores
to `[target0]` and `[target1]`. -/
def apply_cnot_accesses (num_qubit control target : Nat) : List Nat :=
  let dim := 1 <<< num_qubit
  forLoop dim (fun i accesses =>
    if i &&& (1 <<< control) ≠ 0 then
      let target0 := and_not i (1 <<< target)
      let target1 := i ||| (1 <<< target)
      accesses ++ [target0, target1, target0, target1]
    else
      accesses) []

end QubitManipulation

/-! ## `src/C implementation/matrix_mult/statevector.c` -/

namespace CMatrixMult

/-- The struct `Statevector` of `src/matrix_mult/quantum_simulator.h`. -/
structure Statevector (α : Type) where
  data : List α
  num_qubits : Nat
  dimension : Nat
deriving DecidableEq, Repr

/-- The function `create_statevector`.  The source does not test the result of
`calloc`; a `NULL` there would make the store `sv->data[0] = 1.0` fault, which
is rendered as `none`. -/
def create_statevector {α : Type} [Zero α] [One α] (num_qubits : Nat) :
    Option (Statevector α) :=
  let dimension := 1 <<< num_qubits
  match calloc α dimension with
  | none => none
  | some data => some { data := data.set 0 1, num_qubits := num_qubits, dimension := dimension }

/-- The struct `Matrix` of `src/matrix_mult/quantum_simulator.h`. -/
structure Matrix (α : Type) where
  data : List α
  dimension : Nat
deriving DecidableEq, Repr

/-- The enum `GateType`. -/
inductive GateType where
  | GATE_X
  | GATE_H
  | GATE_T
deriving DecidableEq, Repr

/-- The function `create_matrix`; a `NULL` from `calloc` is rendered as the
empty buffer. -/
def create_matrix {α : Type} [Zero α] (dimension : Nat) : Matrix α :=
  { data := (calloc α (dimension * dimension)).getD [], dimension := dimension }

/-- The function `create_single_qubit_gate`; `sqrt` is the libm square root. -/
def create_single_qubit_gate {α : Type} [DivisionRing α] (sqrt : α → α)
    (gate_type : GateType) : Matrix α :=
  let gate : Matrix α := create_matrix 2
  match gate_type with
  | .GATE_X =>
    { gate with data := (((gate.data.set 0 0).set 1 1).set 2 1).set 3 0 }
  | .GATE_H =>
    { gate with data := (((gate.data.set 0 (1 / sqrt 2)).set 1 (1 / sqrt 2)).set 2
        (1 / sqrt 2)).set 3 ((-1) / sqrt 2) }
  | .GATE_T =>
    { gate with data := (((gate.data.set 0 1).set 1 0).set 2 0).set 3 (sqrt 2 / 2) }

/-- The function `apply_matrix_to_statevector`: the statevector after the
copy-back. -/
def apply_matrix_to_statevector {α : Type} [Zero α] [Add α] [Mul α]
    (sv : Statevector α) (matrix : Matrix α) : Statevector α :=
  let result := (calloc α sv.dimension).getD []
  let result := forLoop sv.dimension (fun i result =>
    forLoop sv.dimension (fun j result =>
      add_at result i (matrix.data.getD (i * sv.dimension + j) 0 * sv.data.getD j 0)) result)
    result
  let data := forLoop sv.dimension (fun i data => data.set i (result.getD i 0)) sv.data
  { sv with data := data }

/-- The local `full_gate` of `apply_single_qubit_gate` when it is handed to
`apply_matrix_to_statevector`: `create_matrix` followed by the construction
loop. -/
def full_gate_matrix {α : Type} [Zero α]
    (single_gate : Matrix α) (dimension target_qubit : Nat) : Matrix α :=
  let full_gate : Matrix α := create_matrix dimension
  let data := forLoop dimension (fun i data =>
    forLoop dimension (fun j data =>
      let i_target := (i >>> target_qubit) &&& 1
      let j_target := (j >>> target_qubit) &&& 1
      if and_not i (1 <<< target_qubit) = and_not j (1 <<< target_qubit) then
        data.set (i * dimension + j) (single_gate.data.getD (i_target * 2 + j_target) 0)
      else
        data) data) full_gate.data
  { full_gate with data := data }

/-- The function `apply_single_qubit_gate`; `sqrt` is the libm square root. -/
def apply_single_qubit_gate {α : Type} [DivisionRing α] (sqrt : α → α)
    (sv : Statevector α) (gate_type : GateType) (target_qubit : Nat) : Statevector α :=
  let single_gate := create_single_qubit_gate sqrt gate_type
  let full_gate := full_gate_matrix single_gate sv.dimension target_qubit
  apply_matrix_to_statevector sv full_gate

/-- The local `cnot` of `apply_cnot` when it is handed to
`apply_matrix_to_statevector`: `create_matrix`, the identity loop and the
modification loop. -/
def cnot_matrix {α : Type} [Zero α] [One α]
    (dimension control_qubit target_qubit : Nat) : Matrix α :=
  let cnot : Matrix α := create_matrix dimension
  let data := forLoop dimension (fun i data => data.set (i * dimension + i) 1) cnot.data
  let data := forLoop dimension (fun i data =>
    let control_bit := (i >>> control_qubit) &&& 1
    if control_bit = 1 then
      let j := i ^^^ (1 <<< target_qubit)
      let data := data.set (i * dimension + i) 0
      data.set (i * dimension + j) 1
    else
      data) data
  { cnot with data := data }

/-- The function `apply_cnot`. -/
def apply_cnot {α : Type} [Zero α] [One α] [Add α] [Mul α]
    (sv : Statevector α) (control_qubit target_qubit : Nat) : Statevector α :=
  let cnot := cnot_matrix sv.dimension control_qubit target_qubit
  apply_matrix_to_statevector sv cnot

/-- The function `run_circuit_test` without its printing: the statevector when
the last state is printed. -/
def run_circuit_test {α : Type} [DivisionRing α] (sqrt : α → α) (num_qubits : Nat) :
    Option (Statevector α) :=
  match create_statevector num_qubits with
  | none => none
  | some sv =>
    let sv := apply_single_qubit_gate sqrt sv .GATE_X (num_qubits - 1)
    let sv := apply_single_qubit_gate sqrt sv .GATE_H 0
    some (apply_cnot sv 0 (num_qubits - 1))

/-- The function `create_matrix` within the range of `int`: the element count
`dimension * dimension` handed to `calloc` is an `int` product; `none` when it
overflows. -/
def create_matrix_int {α : Type} [Zero α] (dimension : Nat) : Option (Matrix α) :=
  match int_value (dimension * dimension) with
  | none => none
  | some _ => some (create_matrix dimension)

/-- The function `apply_matrix_to_statevector` within the range of `int`: `none`
when the last index `(dimension - 1) * dimension + (dimension - 1)` that its
loop computes does not fit an `int`. -/
def apply_matrix_to_statevector_int {α : Type} [Zero α] [Add α] [Mul α]
    (sv : Statevector α) (matrix : Matrix α) : Option (Statevector α) :=
  match int_value ((sv.dimension - 1) * sv.dimension + (sv.dimension - 1)) with
  | none => none
  | some _ => some (apply_matrix_to_statevector sv matrix)

/-- The local `full_gate` of `apply_single_qubit_gate` within the range of
`int`: `none` when its `create_matrix` call overflows; the indices
`i * dimension + j` of the construction loop are below
`dimension * dimension`. -/
def full_gate_matrix_int {α : Type} [Zero α]
    (single_gate : Matrix α) (dimension target_qubit : Nat) : Option (Matrix α) :=
  match (create_matrix_int dimension : Option (Matrix α)) with
  | none => none
  | some _ => some (full_gate_matrix single_gate dimension target_qubit)

/-- The function `apply_single_qubit_gate` within the range of `int`. -/
def apply_single_qubit_gate_int {α : Type} [DivisionRing α] (sqrt : α → α)
    (sv : Statevector α) (gate_type : GateType) (target_qubit : Nat) :
    Option (Statevector α) :=
  let single_gate := create_single_qubit_gate sqrt gate_type
  match full_gate_matrix_int single_gate sv.dimension target_qubit with
  | none => none
  | some full_gate => apply_matrix_to_statevector_int sv full_gate

/-- The local `cnot` of `apply_cnot` within the range of `int`: `none` when its
`create_matrix` call overflows; the indices `i * dimension + i` and
`i * dimension + j` are below `dimension * dimension`. -/
def cnot_matrix_int {α : Type} [Zero α] [One α]
    (dimension control_qubit target_qubit : Nat) : Option (Matrix α) :=
  match (create_matrix_int dimension : Option (Matrix α)) with
  | none => none
  | some _ => some (cnot_matrix dimension control_qubit target_qubit)

/-- The function `apply_cnot` within the range of `int`. -/
def apply_cnot_int {α : Type} [Zero α] [One α] [Add α] [Mul α]
    (sv : Statevector α) (control_qubit target_qubit : Nat) : Option (Statevector α) :=
  match cnot_matrix_int sv.dimension control_qubit target_qubit with
  | none => none
  | some cnot => apply_matrix_to_statevector_int sv cnot

/-- The function `run_circuit_test` within the range of `int` (printing
dropped). -/
def run_circuit_test_int {α : Type} [DivisionRing α] (sqrt : α → α) (num_qubits : Nat) :
    Option (Statevector α) :=
  match create_statevector num_qubits with
  | none => none
  | some sv =>
    match apply_single_qubit_gate_int sqrt sv .GATE_X (num_qubits - 1) with
    | none => none
    | some sv =>
      match apply_single_qubit_gate_int sqrt sv .GATE_H 0 with
      | none => none
      | some sv => apply_cnot_int sv 0 (num_qubits - 1)

end CMatrixMult

open TensorMult

/-! ## Bit arithmetic on basis indices -/

section Bits

theorem testBit_and_not (i t j : Nat) :
    (and_not i (1 <<< t)).testBit j = (i.testBit j && !decide (t = j)) := by
  simp only [and_not, Nat.testBit_xor, Nat.testBit_and, Nat.one_shiftLeft, Nat.testBit_two_pow]
  cases i.testBit j <;> by_cases h : t = j <;> simp [h]

theorem testBit_or_mask (i t j : Nat) :
    (i ||| (1 <<< t)).testBit j = (i.testBit j || decide (t = j)) := by
  simp only [Nat.testBit_or, Nat.one_shiftLeft, Nat.testBit_two_pow]

theorem testBit_xor_mask (i t j : Nat) :
    (i ^^^ (1 <<< t)).testBit j = (i.testBit j ^^ decide (t = j)) := by
  simp only [Nat.testBit_xor, Nat.one_shiftLeft, Nat.testBit_two_pow]

theorem and_mask_eq_zero (i t : Nat) : i &&& (1 <<< t) = 0 ↔ i.testBit t = false := by
  rw [Nat.one_shiftLeft]
  constructor
  · intro h
    have := congrArg (fun x => x.testBit t) h
    simpa [Nat.testBit_and, Nat.testBit_two_pow] using this
  · intro h
    apply Nat.eq_of_testBit_eq
    intro j
    simp only [Nat.testBit_and, Nat.testBit_two_pow, Nat.zero_testBit]
    by_cases hj : t = j
    · subst hj; simp [h]
    · simp [hj]

theorem shift_and_one (i t : Nat) : (i >>> t) &&& 1 = if i.testBit t then 1 else 0 := by
  rw [Nat.and_one_is_mod, Nat.shiftRight_eq_div_pow]
  have := Nat.toNat_testBit i t
  rw [← this]
  cases i.testBit t <;> simp

theorem and_not_lt (i t n : Nat) (hi : i < 2 ^ n) : and_not i (1 <<< t) < 2 ^ n := by
  unfold and_not
  exact Nat.xor_lt_two_pow hi (lt_of_le_of_lt Nat.and_le_left hi)

theorem or_mask_lt (i t n : Nat) (hi : i < 2 ^ n) (ht : t < n) : i ||| (1 <<< t) < 2 ^ n := by
  rw [Nat.one_shiftLeft]
  exact Nat.or_lt_two_pow hi (Nat.pow_lt_pow_right (by decide) ht)

theorem xor_mask_lt (i t n : Nat) (hi : i < 2 ^ n) (ht : t < n) : i ^^^ (1 <<< t) < 2 ^ n := by
  rw [Nat.one_shiftLeft]
  exact Nat.xor_lt_two_pow hi (Nat.pow_lt_pow_right (by decide) ht)

theorem and_not_eq_self (k t : Nat) (h : k.testBit t = false) : and_not k (1 <<< t) = k := by
  apply Nat.eq_of_testBit_eq
  intro j
  rw [testBit_and_not]
  by_cases hj : t = j
  · subst hj; simp [h]
  · simp [hj]

theorem or_mask_eq_self (k t : Nat) (h : k.testBit t = true) : k ||| (1 <<< t) = k := by
  apply Nat.eq_of_testBit_eq
  intro j
  rw [testBit_or_mask]
  by_cases hj : t = j
  · subst hj; simp [h]
  · simp [hj]

theorem testBit_and_not_self (i t : Nat) : (and_not i (1 <<< t)).testBit t = false := by
  simp [testBit_and_not]

theorem testBit_or_mask_self (i t : Nat) : (i ||| (1 <<< t)).testBit t = true := by
  simp [testBit_or_mask]

theorem and_not_or_mask (i t : Nat) : and_not (i ||| (1 <<< t)) (1 <<< t) = and_not i (1 <<< t) := by
  apply Nat.eq_of_testBit_eq
  intro j
  rw [testBit_and_not, testBit_and_not, testBit_or_mask]
  by_cases hj : t = j <;> simp [hj]

theorem and_not_and_not (i t : Nat) : and_not (and_not i (1 <<< t)) (1 <<< t) = and_not i (1 <<< t) :=
  and_not_eq_self _ _ (testBit_and_not_self i t)

theorem or_mask_and_not (i t : Nat) : and_not i (1 <<< t) ||| (1 <<< t) = i ||| (1 <<< t) := by
  apply Nat.eq_of_testBit_eq
  intro j
  rw [testBit_or_mask, testBit_or_mask, testBit_and_not]
  by_cases hj : t = j <;> simp [hj]

/-- Two indices agree off bit `t` and on bit `t` exactly when they are equal. -/
theorem eq_of_and_not_eq (i k t : Nat) (h : and_not i (1 <<< t) = and_not k (1 <<< t))
    (hb : i.testBit t = k.testBit t) : i = k := by
  apply Nat.eq_of_testBit_eq
  intro j
  by_cases hj : t = j
  · subst hj; exact hb
  · have := congrArg (fun x => x.testBit j) h
    simpa [testBit_and_not, hj] using this

theorem and_not_eq_iff (i k t : Nat) :
    and_not i (1 <<< t) = k ↔ (and_not i (1 <<< t) = and_not k (1 <<< t) ∧ k.testBit t = false) := by
  constructor
  · intro h
    subst h
    exact ⟨(and_not_and_not i t).symm, testBit_and_not_self i t⟩
  · rintro ⟨h, hb⟩
    rw [h, and_not_eq_self k t hb]

theorem or_mask_eq_iff (i k t : Nat) :
    i ||| (1 <<< t) = k ↔ (and_not i (1 <<< t) = and_not k (1 <<< t) ∧ k.testBit t = true) := by
  constructor
  · intro h
    subst h
    exact ⟨(and_not_or_mask i t).symm, testBit_or_mask_self i t⟩
  · rintro ⟨h, hb⟩
    rw [← or_mask_and_not, h, or_mask_and_not, or_mask_eq_self k t hb]

end Bits

/-! ## Buffers and loops -/

section Lists
variable {α : Type}

theorem list_ext_getD (d : α) (l1 l2 : List α) (hl : l1.length = l2.length)
    (h : ∀ i, i < l1.length → l1.getD i d = l2.getD i d) : l1 = l2 := by
  apply List.ext_getElem hl
  intro i h1 h2
  have := h i h1
  rwa [List.getD_eq_getElem _ _ h1, List.getD_eq_getElem _ _ h2] at this

theorem getD_set_eq (l : List α) (i : Nat) (x d : α) (hi : i < l.length) :
    (l.set i x).getD i d = x := by
  rw [List.getD_eq_getElem _ _ (by simpa using hi)]
  simp

theorem getD_set_ne (l : List α) (i j : Nat) (x d : α) (hij : i ≠ j) :
    (l.set i x).getD j d = l.getD j d := by
  simp [List.getD_eq_getElem?_getD, List.getElem?_set, hij]

theorem getD_set (l : List α) (i j : Nat) (x d : α) (hj : j < l.length) :
    (l.set i x).getD j d = if i = j then x else l.getD j d := by
  by_cases h : i = j
  · subst h; rw [if_pos rfl]; exact getD_set_eq _ _ _ _ hj
  · rw [if_neg h]; exact getD_set_ne _ _ _ _ _ h

theorem length_add_at [Zero α] [Add α] (l : List α) (i : Nat) (x : α) :
    (add_at l i x).length = l.length := by simp [add_at]

theorem getD_add_at [AddCommMonoid α] (l : List α) (i k : Nat) (x : α) (hk : k < l.length) :
    (add_at l i x).getD k 0 = l.getD k 0 + (if i = k then x else 0) := by
  unfold add_at
  rw [getD_set _ _ _ _ _ hk]
  by_cases h : i = k
  · subst h; simp
  · simp [h]

theorem forLoop_succ {σ : Type} (n : Nat) (body : Nat → σ → σ) (s : σ) :
    forLoop (n + 1) body s = body n (forLoop n body s) := rfl

/-- Length is preserved by a loop whose body preserves length. -/
theorem length_forLoop (n : Nat) (body : Nat → List α → List α) (s : List α)
    (h : ∀ i l, (body i l).length = l.length) : (forLoop n body s).length = s.length := by
  induction n with
  | zero => rfl
  | succ k ih => rw [forLoop_succ, h, ih]

/-- A loop that stores `f i` at index `i`. -/
theorem getD_forLoop_set (n : Nat) (f : Nat → α) (s : List α) (d : α) (k : Nat)
    (hk : k < s.length) :
    (forLoop n (fun i l => l.set i (f i)) s).getD k d = if k < n then f k else s.getD k d := by
  induction n with
  | zero => simp [forLoop]
  | succ m ih =>
    rw [forLoop_succ, getD_set _ _ _ _ _ (by rw [length_forLoop _ _ _ (by simp)]; exact hk), ih]
    by_cases h : m = k
    · subst h; simp
    · have : k < m + 1 ↔ k < m := by omega
      simp [h, this]

/-- A loop that performs `p[a i] += x i; p[b i] += y i`. -/
theorem getD_forLoop_add_at [AddCommMonoid α] (n : Nat) (a b : Nat → Nat) (x y : Nat → α)
    (s : List α) (k : Nat) (hk : k < s.length) :
    (forLoop n (fun i l => add_at (add_at l (a i) (x i)) (b i) (y i)) s).getD k 0 =
      s.getD k 0 + ∑ i in Finset.range n,
        ((if a i = k then x i else 0) + (if b i = k then y i else 0)) := by
  induction n with
  | zero => simp [forLoop]
  | succ m ih =>
    have hlen : (forLoop m (fun i l => add_at (add_at l (a i) (x i)) (b i) (y i)) s).length
        = s.length := length_forLoop _ _ _ (by intro i l; simp [length_add_at])
    rw [forLoop_succ, getD_add_at _ _ _ _ (by rw [length_add_at, hlen]; exact hk),
      getD_add_at _ _ _ _ (by rw [hlen]; exact hk), ih, Finset.sum_range_succ]
    abel

end Lists

/-! ## The tensor_mult engine: `tensor_contract` -/

section TensorContract
variable {α : Type}

theorem getD_replicate_zero [Zero α] (n k : Nat) : (List.replicate n (0 : α)).getD k 0 = 0 := by
  rw [List.getD_eq_getElem?_getD, List.getElem?_replicate]
  split <;> rfl

theorem memcpy_eq (dst src : List α) (n : Nat) (hd : dst.length = n) (hs : src.length = n) :
    memcpy dst src n = src := by
  unfold memcpy
  rw [List.take_of_length_le (by omega), List.drop_of_length_le (by omega), List.append_nil]

/-- The accumulation loop of `tensor_contract`, as a function of the
scratch buffer it starts from. -/
theorem tensor_contract_loop_getD [Semiring α] (v : List α) (g : QuantumGate α) (t dim : Nat)
    (s : List α) (k : Nat) (hk : k < s.length) :
    (forLoop dim (fun i new_state =>
      let bit_mask := 1 <<< t
      let basis_0 := and_not i bit_mask
      let basis_1 := i ||| bit_mask
      if i &&& bit_mask = 0 then
        let new_state := add_at new_state basis_0 (g.e00 * v.getD i 0)
        add_at new_state basis_1 (g.e10 * v.getD i 0)
      else
        let new_state := add_at new_state basis_0 (g.e01 * v.getD i 0)
        add_at new_state basis_1 (g.e11 * v.getD i 0)) s).getD k 0 =
    s.getD k 0 + ∑ i in Finset.range dim,
      (if and_not i (1 <<< t) = and_not k (1 <<< t)
        then g.elements (k.testBit t) (i.testBit t) * v.getD i 0 else 0) := by
  have hbody : (fun (i : Nat) (new_state : List α) =>
      let bit_mask := 1 <<< t
      let basis_0 := and_not i bit_mask
      let basis_1 := i ||| bit_mask
      if i &&& bit_mask = 0 then
        let new_state := add_at new_state basis_0 (g.e00 * v.getD i 0)
        add_at new_state basis_1 (g.e10 * v.getD i 0)
      else
        let new_state := add_at new_state basis_0 (g.e01 * v.getD i 0)
        add_at new_state basis_1 (g.e11 * v.getD i 0)) =
      (fun i new_state => add_at (add_at new_state (and_not i (1 <<< t))
          (g.elements false (i.testBit t) * v.getD i 0)) (i ||| (1 <<< t))
          (g.elements true (i.testBit t) * v.getD i 0)) := by
    funext i new_state
    by_cases hb : i.testBit t = true
    · have : ¬ (i &&& (1 <<< t) = 0) := by rw [and_mask_eq_zero]; simp [hb]
      simp [this, hb, QuantumGate.elements]
    · have hb' : i.testBit t = false := by simpa using hb
      have : i &&& (1 <<< t) = 0 := by rw [and_mask_eq_zero]; exact hb'
      simp [this, hb', QuantumGate.elements]
  rw [hbody, getD_forLoop_add_at _ _ _ _ _ _ _ hk]
  congr 1
  apply Finset.sum_congr rfl
  intro i _
  by_cases h : and_not i (1 <<< t) = and_not k (1 <<< t)
  · cases hkb : k.testBit t
    · have h1 : and_not i (1 <<< t) = k := (and_not_eq_iff i k t).2 ⟨h, hkb⟩
      have h2 : ¬ (i ||| (1 <<< t) = k) := fun h' => by
        have := ((or_mask_eq_iff i k t).1 h').2
        simp [hkb] at this
      rw [if_pos h1, if_neg h2, if_pos h, add_zero]
    · have h1 : ¬ (and_not i (1 <<< t) = k) := fun h' => by
        have := ((and_not_eq_iff i k t).1 h').2
        simp [hkb] at this
      have h2 : i ||| (1 <<< t) = k := (or_mask_eq_iff i k t).2 ⟨h, hkb⟩
      rw [if_neg h1, if_pos h2, if_pos h, zero_add]
  · have h1 : ¬ (and_not i (1 <<< t) = k) := fun h' => h ((and_not_eq_iff i k t).1 h').1
    have h2 : ¬ (i ||| (1 <<< t) = k) := fun h' => h ((or_mask_eq_iff i k t).1 h').1
    rw [if_neg h1, if_neg h2, if_neg h, add_zero]

theorem tensor_contract_fst [Semiring α] (v : List α) (g : QuantumGate α) (t n : Nat) :
    (tensor_contract v g t n).1 = true := by
  simp [tensor_contract, calloc]

theorem tensor_contract_length [Semiring α] (v : List α) (g : QuantumGate α) (t n : Nat)
    (hv : v.length = 2 ^ n) : (tensor_contract v g t n).2.length = 2 ^ n := by
  simp only [tensor_contract, calloc]
  rw [memcpy_eq _ _ _ (by rw [hv, Nat.one_shiftLeft])]
  all_goals
    rw [length_forLoop]
    · simp [Nat.one_shiftLeft]
    · intro i l
      dsimp only
      split <;> simp [length_add_at]

/-- Every output amplitude of `tensor_contract` as a sum over the input. -/
theorem tensor_contract_getD_sum [Semiring α] (v : List α) (g : QuantumGate α) (t n : Nat)
    (hv : v.length = 2 ^ n) (k : Nat) (hk : k < 2 ^ n) :
    (tensor_contract v g t n).2.getD k 0 = ∑ i in Finset.range (2 ^ n),
      (if and_not i (1 <<< t) = and_not k (1 <<< t)
        then g.elements (k.testBit t) (i.testBit t) * v.getD i 0 else 0) := by
  have hlen := tensor_contract_length v g t n hv
  simp only [tensor_contract, calloc] at hlen ⊢
  rw [memcpy_eq _ _ _ (by rw [hv, Nat.one_shiftLeft])]
  · rw [tensor_contract_loop_getD _ _ _ _ _ _ (by simpa [Nat.one_shiftLeft] using hk),
      getD_replicate_zero, zero_add, Nat.one_shiftLeft n]
  · rw [length_forLoop]
    · simp
    · intro i l
      dsimp only
      split <;> simp [length_add_at]

end TensorContract

/-! ## The dense engine: `apply_matrix` and the matrix builders -/

section Dense
variable {α : Type}

/-- Row-major indexing is injective on in-range columns. -/
theorem idx_inj (dim a b a' b' : Nat) (hb : b < dim) (hb' : b' < dim) :
    a * dim + b = a' * dim + b' ↔ a = a' ∧ b = b' := by
  constructor
  · intro h
    have h1 : (a * dim + b) / dim = (a' * dim + b') / dim := by rw [h]
    have h2 : (a * dim + b) % dim = (a' * dim + b') % dim := by rw [h]
    have hpos : 0 < dim := by omega
    rw [Nat.mul_comm a, Nat.mul_comm a', Nat.mul_add_div hpos, Nat.mul_add_div hpos,
      Nat.div_eq_of_lt hb, Nat.div_eq_of_lt hb'] at h1
    rw [Nat.mul_comm a, Nat.mul_comm a', Nat.mul_add_mod, Nat.mul_add_mod,
      Nat.mod_eq_of_lt hb, Nat.mod_eq_of_lt hb'] at h2
    exact ⟨by simpa using h1, h2⟩
  · rintro ⟨rfl, rfl⟩; rfl

theorem idx_lt (dim a b : Nat) (ha : a < dim) (hb : b < dim) : a * dim + b < dim * dim := by
  have : a * dim + dim ≤ dim * dim := by
    have h := Nat.mul_le_mul_right dim (Nat.succ_le_of_lt ha)
    rwa [Nat.succ_mul] at h
  omega

/-- A loop invariant rule for `forLoop`. -/
theorem forLoop_inv {σ : Type} (P : Nat → σ → Prop) (n : Nat) (body : Nat → σ → σ) (s : σ)
    (h0 : P 0 s) (hstep : ∀ i, i < n → ∀ x, P i x → P (i + 1) (body i x)) :
    P n (forLoop n body s) := by
  induction n with
  | zero => exact h0
  | succ k ih =>
    rw [forLoop_succ]
    exact hstep k (Nat.lt_succ_self k) _
      (ih (fun i hi x hx => hstep i (Nat.lt_succ_of_lt hi) x hx))

/-- The inner accumulation loop of `apply_matrix`. -/
theorem getD_forLoop_add_at_row [AddCommMonoid α] (n i : Nat) (f : Nat → α) (s : List α)
    (p : Nat) (hp : p < s.length) :
    (forLoop n (fun j r => add_at r i (f j)) s).getD p 0 =
      s.getD p 0 + (if i = p then ∑ j in Finset.range n, f j else 0) := by
  induction n with
  | zero => simp [forLoop]
  | succ m ih =>
    have hlen : (forLoop m (fun j r => add_at r i (f j)) s).length = s.length :=
      length_forLoop _ _ _ (by intro j l; simp [length_add_at])
    rw [forLoop_succ, getD_add_at _ _ _ _ (by rw [hlen]; exact hp), ih, Finset.sum_range_succ]
    by_cases h : i = p
    · simp only [if_pos h]; abel
    · simp only [if_neg h]; abel

theorem apply_matrix_length [Semiring α] (v M : List α) (size : Nat) (scratch : List α) :
    (MatrixMult.apply_matrix v M size scratch).length = v.length := by
  unfold MatrixMult.apply_matrix
  exact length_forLoop _ _ _ (by intro i l; simp)

/-- Every output amplitude of `apply_matrix` is the row-times-vector sum. -/
theorem apply_matrix_getD [Semiring α] (v M : List α) (size : Nat) (scratch : List α)
    (hv : v.length = size) (hs : scratch.length = size) (i : Nat) (hi : i < size) :
    (MatrixMult.apply_matrix v M size scratch).getD i 0 =
      ∑ j in Finset.range size, M.getD (i * size + j) 0 * v.getD j 0 := by
  unfold MatrixMult.apply_matrix
  dsimp only
  rw [getD_forLoop_set _ _ _ _ _ (by rw [hv]; exact hi), if_pos hi]
  have key : ∀ k, k ≤ size →
      (forLoop k (fun i result =>
        forLoop size (fun j result =>
          add_at result i (M.getD (i * size + j) 0 * v.getD j 0)) (result.set i 0)) scratch).length
        = size ∧
      ∀ p, p < k →
      (forLoop k (fun i result =>
        forLoop size (fun j result =>
          add_at result i (M.getD (i * size + j) 0 * v.getD j 0)) (result.set i 0)) scratch).getD p 0
        = ∑ j in Finset.range size, M.getD (p * size + j) 0 * v.getD j 0 := by
    intro k
    induction k with
    | zero => intro _; exact ⟨hs, fun p hp => absurd hp (Nat.not_lt_zero p)⟩
    | succ m ih =>
      intro hm
      obtain ⟨hl, hval⟩ := ih (Nat.le_of_succ_le hm)
      rw [forLoop_succ]
      constructor
      · rw [length_forLoop _ _ _ (by intro j l; simp [length_add_at]), List.length_set, hl]
      · intro p hp
        have hps : p < size := by omega
        rw [getD_forLoop_add_at_row _ _ _ _ _ (by rw [List.length_set, hl]; exact hps),
          getD_set _ _ _ _ _ (by rw [hl]; exact hps)]
        by_cases h : m = p
        · subst h; simp
        · have hpm : p < m := by omega
          rw [if_neg h, if_neg h, add_zero, hval p hpm]
  exact (key size (Nat.le_refl size)).2 i hi

/-- One row of guarded stores `matrix[i * dim + j] = val j`, `j < k`. -/
theorem getD_forLoop_row_set (dim i : Nat) (c : Nat → Prop) [∀ j, Decidable (c j)]
    (val : Nat → α) (N : List α) (hN : N.length = dim * dim) (d : α)
    (a b : Nat) (ha : a < dim) (hb : b < dim) (k : Nat) (hk : k ≤ dim) :
    (forLoop k (fun j M => if c j then M.set (i * dim + j) (val j) else M) N).length
      = dim * dim ∧
    (forLoop k (fun j M => if c j then M.set (i * dim + j) (val j) else M) N).getD
      (a * dim + b) d = if i = a ∧ b < k ∧ c b then val b else N.getD (a * dim + b) d := by
  induction k with
  | zero => exact ⟨hN, by simp [forLoop]⟩
  | succ m ih =>
    obtain ⟨hl, hval⟩ := ih (Nat.le_of_succ_le hk)
    have hm : m < dim := hk
    rw [forLoop_succ]
    have h2 : ¬ (i = a ∧ m = b) →
        ((i = a ∧ b < m + 1 ∧ c b) ↔ (i = a ∧ b < m ∧ c b)) := by
      intro he
      constructor
      · rintro ⟨h1, h2, h3⟩
        have : m ≠ b := fun h => he ⟨h1, h⟩
        exact ⟨h1, by omega, h3⟩
      · rintro ⟨h1, h2, h3⟩
        exact ⟨h1, by omega, h3⟩
    by_cases hc : c m
    · simp only [if_pos hc]
      refine ⟨by rw [List.length_set, hl], ?_⟩
      rw [getD_set _ _ _ _ _ (by rw [hl]; exact idx_lt dim a b ha hb), hval]
      by_cases he : i = a ∧ m = b
      · obtain ⟨rfl, rfl⟩ := he
        simp [hc]
      · have : ¬ (i * dim + m = a * dim + b) := fun h => he ((idx_inj dim i m a b hm hb).1 h)
        rw [if_neg this]
        simp only [h2 he]
    · simp only [if_neg hc]
      refine ⟨hl, ?_⟩
      rw [hval]
      by_cases he : i = a ∧ m = b
      · obtain ⟨rfl, rfl⟩ := he
        simp [hc]
      · simp only [h2 he]

/-- A doubly nested loop of guarded stores `matrix[i * dim + j] = val i j`. -/
theorem getD_forLoop2_set (dim : Nat) (c : Nat → Nat → Prop) [∀ i j, Decidable (c i j)]
    (val : Nat → Nat → α) (M : List α) (hM : M.length = dim * dim) (d : α)
    (a b : Nat) (ha : a < dim) (hb : b < dim) :
    (forLoop dim (fun i M => forLoop dim (fun j M =>
        if c i j then M.set (i * dim + j) (val i j) else M) M) M).getD (a * dim + b) d =
      if c a b then val a b else M.getD (a * dim + b) d := by
  have outer : ∀ k,
      (forLoop k (fun i M => forLoop dim (fun j M =>
        if c i j then M.set (i * dim + j) (val i j) else M) M) M).length = dim * dim ∧
      (forLoop k (fun i M => forLoop dim (fun j M =>
        if c i j then M.set (i * dim + j) (val i j) else M) M) M).getD (a * dim + b) d =
      if a < k ∧ c a b then val a b else M.getD (a * dim + b) d := by
    intro k
    induction k with
    | zero => exact ⟨hM, by simp [forLoop]⟩
    | succ m ih =>
      obtain ⟨hl, hval⟩ := ih
      rw [forLoop_succ]
      obtain ⟨hl', hval'⟩ := getD_forLoop_row_set dim m (c m) (val m) _ hl d a b ha hb dim
        (Nat.le_refl dim)
      refine ⟨hl', ?_⟩
      rw [hval', hval]
      by_cases he : m = a
      · subst he
        simp [hb]
      · have h3 : (a < m + 1 ∧ c a b) ↔ (a < m ∧ c a b) := by
          constructor
          · rintro ⟨h1, h2⟩; exact ⟨by omega, h2⟩
          · rintro ⟨h1, h2⟩; exact ⟨by omega, h2⟩
        simp only [he, false_and, if_false, h3]
  rw [(outer dim).2]
  simp [ha]

end Dense

section DenseGate
variable {α : Type}

theorem toList_getD [Zero α] (g : QuantumGate α) (r c : Bool) :
    g.toList.getD ((if r then 1 else 0) * 2 + (if c then 1 else 0)) 0 = g.elements r c := by
  cases r <;> cases c <;> simp [QuantumGate.toList, QuantumGate.elements]

theorem create_single_qubit_gate_matrix_length [Zero α] [One α] (buf gl : List α) (n t : Nat) :
    (MatrixMult.create_single_qubit_gate_matrix buf gl n t).length = buf.length := by
  unfold MatrixMult.create_single_qubit_gate_matrix
  dsimp only
  rw [length_forLoop, length_forLoop]
  · intro i l; simp
  · intro i l
    rw [length_forLoop]
    intro j l'
    split <;> simp

/-- Entry `(a, b)` of the matrix built by `create_single_qubit_gate_matrix`. -/
theorem create_single_qubit_gate_matrix_getD [Zero α] [One α] (buf : List α)
    (g : QuantumGate α) (n t : Nat) (hbuf : buf.length = 2 ^ n * 2 ^ n)
    (a b : Nat) (ha : a < 2 ^ n) (hb : b < 2 ^ n) :
    (MatrixMult.create_single_qubit_gate_matrix buf g.toList n t).getD (a * 2 ^ n + b) 0 =
      if and_not a (1 <<< t) = and_not b (1 <<< t)
        then g.elements (a.testBit t) (b.testBit t) else 0 := by
  unfold MatrixMult.create_single_qubit_gate_matrix
  dsimp only
  rw [Nat.one_shiftLeft n] 
  have hlen : (forLoop (2 ^ n * 2 ^ n) (fun i (matrix : List α) =>
      matrix.set i (if i / 2 ^ n = i % 2 ^ n then 1 else 0)) buf).length = 2 ^ n * 2 ^ n := by
    rw [length_forLoop _ _ _ (by intro i l; simp), hbuf]
  rw [getD_forLoop2_set (2 ^ n) (fun i j => and_not i (1 <<< t) = and_not j (1 <<< t))
    (fun i j => g.toList.getD ((i >>> t &&& 1) * 2 + (j >>> t &&& 1)) 0) _ hlen 0 a b ha hb]
  by_cases h : and_not a (1 <<< t) = and_not b (1 <<< t)
  · rw [if_pos h, if_pos h, shift_and_one, shift_and_one, toList_getD]
  · rw [if_neg h, if_neg h,
      getD_forLoop_set _ _ _ _ _ (by rw [hbuf]; exact idx_lt _ a b ha hb),
      if_pos (idx_lt _ a b ha hb)]
    have hne : a ≠ b := fun hab => h (by rw [hab])
    have hpos : 0 < 2 ^ n := Nat.pos_of_ne_zero (by positivity)
    have h1 : (a * 2 ^ n + b) / 2 ^ n = a := by
      rw [Nat.mul_comm, Nat.mul_add_div hpos, Nat.div_eq_of_lt hb, Nat.add_zero]
    have h2 : (a * 2 ^ n + b) % 2 ^ n = b := by
      rw [Nat.mul_comm, Nat.mul_add_mod, Nat.mod_eq_of_lt hb]
    rw [h1, h2, if_neg hne]

end DenseGate

/-! ## The tensor_mult engine: `apply_cnot_gate` -/

section Cnot
variable {α : Type}

theorem validate_single_qubit_iff (n q : Int) :
    validate_single_qubit n q = true ↔ 0 ≤ q ∧ q < n := by
  simp [validate_single_qubit]

theorem validate_qubit_indices_iff (n q1 q2 : Int) :
    validate_qubit_indices n q1 q2 = true ↔ (0 ≤ q1 ∧ q1 < n) ∧ (0 ≤ q2 ∧ q2 < n) ∧ q1 ≠ q2 := by
  unfold validate_qubit_indices
  by_cases h1 : validate_single_qubit n q1 = true
  · by_cases h2 : validate_single_qubit n q2 = true
    · have h1' := (validate_single_qubit_iff n q1).1 h1
      have h2' := (validate_single_qubit_iff n q2).1 h2
      by_cases he : q1 = q2
      · simp [h1, h2, he]
      · simp [h1, h2, he, h1', h2']
    · have h2' : ¬ (0 ≤ q2 ∧ q2 < n) := fun h => h2 ((validate_single_qubit_iff n q2).2 h)
      simp [h1, h2, h2']
  · have h1' : ¬ (0 ≤ q1 ∧ q1 < n) := fun h => h1 ((validate_single_qubit_iff n q1).2 h)
    simp [h1, h1']

/-- The permutation of basis indices performed by CNOT. -/
theorem cnot_loop_getD [Zero α] (v : List α) (c t dim : Nat) (s : List α) (k : Nat)
    (hk : k < s.length) :
    (forLoop dim (fun i new_state =>
      let control_bit := (i >>> c) &&& 1
      if control_bit = 1 then
        let new_state_idx := i ^^^ (1 <<< t)
        new_state.set i (v.getD new_state_idx 0)
      else
        new_state.set i (v.getD i 0)) s).getD k 0 =
    if k < dim then (if k.testBit c then v.getD (k ^^^ (1 <<< t)) 0 else v.getD k 0)
    else s.getD k 0 := by
  have hbody : (fun (i : Nat) (new_state : List α) =>
      let control_bit := (i >>> c) &&& 1
      if control_bit = 1 then
        let new_state_idx := i ^^^ (1 <<< t)
        new_state.set i (v.getD new_state_idx 0)
      else
        new_state.set i (v.getD i 0)) =
      (fun i new_state => new_state.set i
        (if i.testBit c then v.getD (i ^^^ (1 <<< t)) 0 else v.getD i 0)) := by
    funext i new_state
    dsimp only
    rw [shift_and_one]
    cases i.testBit c <;> simp
  rw [hbody, getD_forLoop_set _ _ _ _ _ hk]

theorem cnot_loop_length [Zero α] (v : List α) (c t dim : Nat) (s : List α) :
    (forLoop dim (fun i new_state =>
      let control_bit := (i >>> c) &&& 1
      if control_bit = 1 then
        let new_state_idx := i ^^^ (1 <<< t)
        new_state.set i (v.getD new_state_idx 0)
      else
        new_state.set i (v.getD i 0)) s).length = s.length := by
  apply length_forLoop
  intro i l
  dsimp only
  split <;> simp

/-- On validated arguments `apply_cnot_gate` succeeds and returns the permuted
state. -/
theorem apply_cnot_gate_valid [Zero α] (v : List α) (n c t : Nat) (hc : c < n) (ht : t < n)
    (hct : c ≠ t) (hv : v.length = 2 ^ n) :
    ∃ w : List α, apply_cnot_gate (some v) (n : Int) (c : Int) (t : Int) = (true, some w) ∧
      w.length = 2 ^ n ∧
      ∀ k, k < 2 ^ n →
        w.getD k 0 = if k.testBit c then v.getD (k ^^^ (1 <<< t)) 0 else v.getD k 0 := by
  have hval : validate_qubit_indices (n : Int) (c : Int) (t : Int) = true := by
    rw [validate_qubit_indices_iff]
    refine ⟨⟨by omega, by omega⟩, ⟨by omega, by omega⟩, ?_⟩
    intro h; exact hct (by exact_mod_cast h)
  have hlen : (forLoop (1 <<< n) (fun i new_state =>
      let control_bit := (i >>> c) &&& 1
      if control_bit = 1 then
        let new_state_idx := i ^^^ (1 <<< t)
        new_state.set i (v.getD new_state_idx 0)
      else
        new_state.set i (v.getD i 0)) (List.replicate (1 <<< n) (0 : α))).length = 2 ^ n := by
    rw [cnot_loop_length, List.length_replicate, Nat.one_shiftLeft]
  refine ⟨_, ?_, hlen, ?_⟩
  · simp only [apply_cnot_gate, hval, calloc, Int.toNat_ofNat, Bool.not_true, Bool.false_eq_true,
      if_false]
    rw [memcpy_eq _ _ _ (by rw [hv, Nat.one_shiftLeft]) (by rw [hlen, Nat.one_shiftLeft])]
  · intro k hk
    rw [cnot_loop_getD _ _ _ _ _ _ (by rw [List.length_replicate, Nat.one_shiftLeft]; exact hk),
      if_pos (by rw [Nat.one_shiftLeft]; exact hk)]

end Cnot

section DenseCnot
variable {α : Type}

theorem xor_mask_xor_mask (i t : Nat) : (i ^^^ (1 <<< t)) ^^^ (1 <<< t) = i := by
  rw [Nat.xor_assoc, Nat.xor_self, Nat.xor_zero]

theorem testBit_xor_mask_of_ne (i c t : Nat) (hct : c ≠ t) :
    (i ^^^ (1 <<< t)).testBit c = i.testBit c := by
  rw [testBit_xor_mask]
  have : ¬ (t = c) := fun h => hct h.symm
  simp [this]

/-- A loop of stores `matrix[i * dim + i] = x`: the diagonal. -/
theorem getD_forLoop_diag_set (dim : Nat) (x : α) (N : List α) (hN : N.length = dim * dim) (d : α)
    (a b : Nat) (ha : a < dim) (hb : b < dim) (k : Nat) (hk : k ≤ dim) :
    (forLoop k (fun i M => M.set (i * dim + i) x) N).length = dim * dim ∧
    (forLoop k (fun i M => M.set (i * dim + i) x) N).getD (a * dim + b) d =
      if a = b ∧ a < k then x else N.getD (a * dim + b) d := by
  induction k with
  | zero => exact ⟨hN, by simp [forLoop]⟩
  | succ m ih =>
    obtain ⟨hl, hval⟩ := ih (Nat.le_of_succ_le hk)
    have hm : m < dim := hk
    rw [forLoop_succ]
    refine ⟨by rw [List.length_set, hl], ?_⟩
    rw [getD_set _ _ _ _ _ (by rw [hl]; exact idx_lt dim a b ha hb), hval]
    by_cases he : m = a ∧ m = b
    · obtain ⟨rfl, rfl⟩ := he
      simp
    · have : ¬ (m * dim + m = a * dim + b) := fun h => he ((idx_inj dim m m a b hm hb).1 h)
      rw [if_neg this]
      have h2 : (a = b ∧ a < m + 1) ↔ (a = b ∧ a < m) := by
        constructor
        · rintro ⟨h1, h2⟩
          have : m ≠ a := fun h => he ⟨h, h1 ▸ h⟩
          exact ⟨h1, by omega⟩
        · rintro ⟨h1, h2⟩
          exact ⟨h1, by omega⟩
      simp only [h2]

/-- The loop of `create_cnot_matrix` that rewrites the rows whose control bit
is set. -/
theorem getD_forLoop_cnot_rows [Zero α] [One α] (dim c t : Nat) (N : List α)
    (hN : N.length = dim * dim) (hx : ∀ i, i < dim → i ^^^ (1 <<< t) < dim)
    (a b : Nat) (ha : a < dim) (hb : b < dim) (k : Nat) (hk : k ≤ dim) :
    (forLoop k (fun i matrix =>
      let control_bit := (i >>> c) &&& 1
      if control_bit = 1 then
        let j := i ^^^ (1 <<< t)
        let matrix := matrix.set (i * dim + i) 0
        matrix.set (i * dim + j) 1
      else
        matrix) N).length = dim * dim ∧
    (forLoop k (fun i matrix =>
      let control_bit := (i >>> c) &&& 1
      if control_bit = 1 then
        let j := i ^^^ (1 <<< t)
        let matrix := matrix.set (i * dim + i) 0
        matrix.set (i * dim + j) 1
      else
        matrix) N).getD (a * dim + b) 0 =
      if a < k ∧ a.testBit c = true then (if b = a ^^^ (1 <<< t) then 1 else
        if b = a then 0 else N.getD (a * dim + b) 0)
      else N.getD (a * dim + b) 0 := by
  induction k with
  | zero => exact ⟨hN, by simp [forLoop]⟩
  | succ m ih =>
    obtain ⟨hl, hval⟩ := ih (Nat.le_of_succ_le hk)
    have hm : m < dim := hk
    rw [forLoop_succ]
    dsimp only
    rw [shift_and_one]
    by_cases hc : m.testBit c = true
    · simp only [hc, if_true]
      refine ⟨by rw [List.length_set, List.length_set, hl], ?_⟩
      rw [getD_set _ _ _ _ _ (by rw [List.length_set, hl]; exact idx_lt dim a b ha hb),
        getD_set _ _ _ _ _ (by rw [hl]; exact idx_lt dim a b ha hb), hval]
      by_cases he : m = a
      · subst he
        have e1 : (m * dim + (m ^^^ (1 <<< t)) = m * dim + b) ↔ b = m ^^^ (1 <<< t) := by
          rw [idx_inj dim _ _ _ _ (hx m hm) hb]
          constructor
          · rintro ⟨_, h⟩; exact h.symm
          · intro h; exact ⟨rfl, h.symm⟩
        have e2 : (m * dim + m = m * dim + b) ↔ b = m := by
          rw [idx_inj dim _ _ _ _ hm hb]
          constructor
          · rintro ⟨_, h⟩; exact h.symm
          · intro h; exact ⟨rfl, h.symm⟩
        simp only [e1, e2, Nat.lt_irrefl, false_and, if_false, Nat.lt_succ_self, hc, and_self,
          if_true]
      · have n1 : ¬ (m * dim + (m ^^^ (1 <<< t)) = a * dim + b) :=
          fun h => he ((idx_inj dim _ _ _ _ (hx m hm) hb).1 h).1
        have n2 : ¬ (m * dim + m = a * dim + b) :=
          fun h => he ((idx_inj dim _ _ _ _ hm hb).1 h).1
        rw [if_neg n1, if_neg n2]
        have h2 : (a < m + 1 ∧ a.testBit c = true) ↔ (a < m ∧ a.testBit c = true) := by
          constructor
          · rintro ⟨h1, h2⟩; exact ⟨by omega, h2⟩
          · rintro ⟨h1, h2⟩; exact ⟨by omega, h2⟩
        simp only [h2]
    · have hc' : m.testBit c = false := by simpa using hc
      simp only [hc', Bool.false_eq_true, if_false, Nat.zero_ne_one]
      refine ⟨hl, ?_⟩
      rw [hval]
      by_cases he : m = a
      · subst he
        simp [hc']
      · have h2 : (a < m + 1 ∧ a.testBit c = true) ↔ (a < m ∧ a.testBit c = true) := by
          constructor
          · rintro ⟨h1, h2⟩; exact ⟨by omega, h2⟩
          · rintro ⟨h1, h2⟩; exact ⟨by omega, h2⟩
        simp only [h2]

/-- Entry `(a, b)` of the matrix built by `create_cnot_matrix`. -/
theorem create_cnot_matrix_getD [Zero α] [One α] (buf : List α) (n c t : Nat) (ht : t < n)
    (hbuf : buf.length = 2 ^ n * 2 ^ n) (a b : Nat) (ha : a < 2 ^ n) (hb : b < 2 ^ n) :
    (MatrixMult.create_cnot_matrix buf n c t).getD (a * 2 ^ n + b) 0 =
      if a.testBit c = true then (if b = a ^^^ (1 <<< t) then 1 else 0)
      else (if b = a then 1 else 0) := by
  unfold MatrixMult.create_cnot_matrix
  dsimp only
  rw [Nat.one_shiftLeft n]
  have hl1 : (forLoop (2 ^ n * 2 ^ n) (fun i (matrix : List α) => matrix.set i 0) buf).length
      = 2 ^ n * 2 ^ n := by
    rw [length_forLoop _ _ _ (by intro i l; simp), hbuf]
  obtain ⟨hl2, hv2⟩ := getD_forLoop_diag_set (2 ^ n) (1 : α) _ hl1 0 a b ha hb (2 ^ n)
    (Nat.le_refl _)
  obtain ⟨_, hv3⟩ := getD_forLoop_cnot_rows (2 ^ n) c t _ hl2
    (fun i hi => xor_mask_lt i t n hi ht) a b ha hb (2 ^ n) (Nat.le_refl _)
  rw [hv3, hv2, getD_forLoop_set _ _ _ _ _ (by rw [hbuf]; exact idx_lt _ a b ha hb),
    if_pos (idx_lt _ a b ha hb)]
  by_cases hc : a.testBit c = true
  · simp only [ha, hc, and_self, if_true]
    by_cases h1 : b = a ^^^ (1 <<< t)
    · simp [h1]
    · by_cases h2 : b = a
      · simp [h1, h2]
      · have : ¬ (a = b) := fun h => h2 h.symm
        simp [h1, h2, this]
  · simp only [hc, and_false, if_false, ha, and_true]
    by_cases h2 : b = a
    · simp [h2]
    · have : ¬ (a = b) := fun h => h2 h.symm
      simp [h2, this]

/-- Applying the CNOT matrix permutes the amplitudes. -/
theorem apply_cnot_matrix_getD [Semiring α] (v buf scratch : List α) (n c t : Nat) (ht : t < n)
    (hv : v.length = 2 ^ n) (hbuf : buf.length = 2 ^ n * 2 ^ n) (hs : scratch.length = 2 ^ n)
    (k : Nat) (hk : k < 2 ^ n) :
    (MatrixMult.apply_matrix v (MatrixMult.create_cnot_matrix buf n c t) (2 ^ n) scratch).getD k 0
      = if k.testBit c then v.getD (k ^^^ (1 <<< t)) 0 else v.getD k 0 := by
  rw [apply_matrix_getD _ _ _ _ hv hs k hk]
  by_cases hc : k.testBit c = true
  · rw [if_pos hc, Finset.sum_eq_single (k ^^^ (1 <<< t))]
    · rw [create_cnot_matrix_getD buf n c t ht hbuf k _ hk (xor_mask_lt k t n hk ht)]
      simp [hc]
    · intro j hj hne
      rw [create_cnot_matrix_getD buf n c t ht hbuf k j hk (Finset.mem_range.1 hj)]
      simp [hc, hne]
    · intro h
      exact absurd (Finset.mem_range.2 (xor_mask_lt k t n hk ht)) h
  · rw [if_neg hc, Finset.sum_eq_single k]
    · rw [create_cnot_matrix_getD buf n c t ht hbuf k _ hk hk]
      simp [hc]
    · intro j hj hne
      rw [create_cnot_matrix_getD buf n c t ht hbuf k j hk (Finset.mem_range.1 hj)]
      simp [hc, hne]
    · intro h
      exact absurd (Finset.mem_range.2 hk) h

end DenseCnot

/-! ## Explicit formulas on two qubits -/

section TwoQubits
variable {α : Type}

theorem tensor_contract_two_target0 [Semiring α] (g : QuantumGate α) (a b c d : α) :
    tensor_contract [a, b, c, d] g 0 2 = (true, [g.e00 * a + g.e01 * b, g.e10 * a + g.e11 * b,
      g.e00 * c + g.e01 * d, g.e10 * c + g.e11 * d]) := by
  have h1 : and_not 1 1 = 0 := by decide
  have h2 : and_not 2 1 = 2 := by decide
  have h3 : and_not 3 1 = 2 := by decide
  have h4 : (2 : ℕ) ||| 1 = 3 := by decide
  have h5 : (2 : ℕ) &&& 1 = 0 := by decide
  have h6 : (3 : ℕ) &&& 1 = 1 := by decide
  have h7 : (3 : ℕ) ||| 1 = 3 := by decide
  have h0 : and_not 0 1 = 0 := by decide
  simp [tensor_contract, calloc, forLoop, add_at, memcpy, List.replicate, h0, h1, h2, h3, h4, h5,
    h6, h7]

theorem tensor_contract_two_target1 [Semiring α] (g : QuantumGate α) (a b c d : α) :
    tensor_contract [a, b, c, d] g 1 2 = (true, [g.e00 * a + g.e01 * c, g.e00 * b + g.e01 * d,
      g.e10 * a + g.e11 * c, g.e10 * b + g.e11 * d]) := by
  have h0 : and_not 0 2 = 0 := by decide
  have h1 : and_not 1 2 = 1 := by decide
  have h2 : and_not 2 2 = 0 := by decide
  have h3 : and_not 3 2 = 1 := by decide
  have h4 : (1 : ℕ) ||| 2 = 3 := by decide
  have h5 : (1 : ℕ) &&& 2 = 0 := by decide
  have h6 : (3 : ℕ) &&& 2 = 2 := by decide
  have h7 : (3 : ℕ) ||| 2 = 3 := by decide
  simp [tensor_contract, calloc, forLoop, add_at, memcpy, List.replicate, h0, h1, h2, h3, h4, h5,
    h6, h7]

theorem apply_cnot_gate_two_01 [Zero α] (a b c d : α) :
    apply_cnot_gate (some [a, b, c, d]) 2 0 1 = (true, some [a, d, c, b]) := by
  have h1 : (1 : ℕ) ^^^ 2 = 3 := by decide
  have h2 : (3 : ℕ) ^^^ 2 = 1 := by decide
  have h3 : (2 : ℕ) &&& 1 = 0 := by decide
  have h4 : (3 : ℕ) &&& 1 = 1 := by decide
  simp [apply_cnot_gate, validate_qubit_indices, validate_single_qubit, calloc, forLoop, memcpy,
    List.replicate, h1, h2, h3, h4]

end TwoQubits

/-! ## The in-place engine: `apply_x` -/

section InPlace
variable {α : Type}

theorem xor_mask_of_clear (j t : Nat) (h : j.testBit t = false) :
    j ^^^ (1 <<< t) = j ||| (1 <<< t) := by
  apply Nat.eq_of_testBit_eq
  intro i
  rw [testBit_xor_mask, testBit_or_mask]
  by_cases hi : t = i
  · subst hi; simp [h]
  · simp [hi]

theorem xor_mask_of_set (j t : Nat) (h : j.testBit t = true) :
    j ^^^ (1 <<< t) = and_not j (1 <<< t) := by
  apply Nat.eq_of_testBit_eq
  intro i
  rw [testBit_xor_mask, testBit_and_not]
  by_cases hi : t = i
  · subst hi; simp [h]
  · simp [hi]

/-- Indices that agree with `j` off bit `t` are `j` with the bit cleared or set. -/
theorem eq_or_eq_of_and_not_eq (p j t : Nat)
    (h : and_not p (1 <<< t) = j) : p = j ∨ p = j ||| (1 <<< t) := by
  cases hp : p.testBit t
  · left
    rw [← h, and_not_eq_self p t hp]
  · right
    rw [← h, or_mask_and_not, or_mask_eq_self p t hp]

/-- The state of `apply_x` after the first `j` iterations. -/
theorem apply_x_loop [Zero α] (v : List α) (n t : Nat) (ht : t < n) (hv : v.length = 2 ^ n)
    (j : Nat) (hj : j ≤ 2 ^ n) :
    (forLoop j (fun i statevector =>
      if i &&& (1 <<< t) = 0 then
        let swap_index := i ||| (1 <<< t)
        let temp := statevector.getD i 0
        let statevector := statevector.set i (statevector.getD swap_index 0)
        statevector.set swap_index temp
      else
        statevector) v).length = 2 ^ n ∧
    ∀ p, p < 2 ^ n →
      (forLoop j (fun i statevector =>
        if i &&& (1 <<< t) = 0 then
          let swap_index := i ||| (1 <<< t)
          let temp := statevector.getD i 0
          let statevector := statevector.set i (statevector.getD swap_index 0)
          statevector.set swap_index temp
        else
          statevector) v).getD p 0 =
      if and_not p (1 <<< t) < j then v.getD (p ^^^ (1 <<< t)) 0 else v.getD p 0 := by
  induction j with
  | zero => exact ⟨hv, fun p _ => by simp [forLoop]⟩
  | succ m ih =>
    obtain ⟨hl, hval⟩ := ih (Nat.le_of_succ_le hj)
    have hm : m < 2 ^ n := hj
    rw [forLoop_succ]
    by_cases hb : m.testBit t = false
    · have hz : m &&& (1 <<< t) = 0 := (and_mask_eq_zero m t).2 hb
      have hm1 : m ||| (1 <<< t) < 2 ^ n := or_mask_lt m t n hm ht
      simp only [hz, if_true]
      refine ⟨by rw [List.length_set, List.length_set, hl], ?_⟩
      intro p hp
      rw [getD_set _ _ _ _ _ (by rw [List.length_set, hl]; exact hp),
        getD_set _ _ _ _ _ (by rw [hl]; exact hp), hval m hm, hval _ hm1, hval p hp,
        and_not_eq_self m t hb, and_not_or_mask, and_not_eq_self m t hb]
      simp only [Nat.lt_irrefl, if_false]
      by_cases h1 : m ||| (1 <<< t) = p
      · subst h1
        rw [if_pos rfl, and_not_or_mask, and_not_eq_self m t hb, if_pos (Nat.lt_succ_self m),
          xor_mask_of_set _ t (testBit_or_mask_self m t), and_not_or_mask,
          and_not_eq_self m t hb]
      · rw [if_neg h1]
        by_cases h2 : m = p
        · subst h2
          rw [if_pos rfl, and_not_eq_self m t hb, if_pos (Nat.lt_succ_self m),
            xor_mask_of_clear m t hb]
        · rw [if_neg h2]
          have hne : and_not p (1 <<< t) ≠ m := by
            intro h
            rcases eq_or_eq_of_and_not_eq p m t h with h3 | h3
            · exact h2 h3.symm
            · exact h1 h3.symm
          have hiff : and_not p (1 <<< t) < m + 1 ↔ and_not p (1 <<< t) < m := by omega
          simp only [hiff]
    · have hb' : m.testBit t = true := by simpa using hb
      have hz : ¬ (m &&& (1 <<< t) = 0) := by rw [and_mask_eq_zero]; simp [hb']
      simp only [hz, if_false]
      refine ⟨hl, ?_⟩
      intro p hp
      rw [hval p hp]
      have hne : and_not p (1 <<< t) ≠ m := by
        intro h
        have := testBit_and_not_self p t
        rw [h, hb'] at this
        exact Bool.noConfusion this
      have hiff : and_not p (1 <<< t) < m + 1 ↔ and_not p (1 <<< t) < m := by omega
      simp only [hiff]

theorem apply_x_length [Zero α] (v : List α) (n t : Nat) (ht : t < n) (hv : v.length = 2 ^ n) :
    (QubitManipulation.apply_x v n t).length = 2 ^ n := by
  unfold QubitManipulation.apply_x
  dsimp only
  rw [Nat.one_shiftLeft n]
  exact (apply_x_loop v n t ht hv (2 ^ n) (Nat.le_refl _)).1

/-- The in-place `apply_x` exchanges every amplitude with its partner. -/
theorem apply_x_getD [Zero α] (v : List α) (n t : Nat) (ht : t < n) (hv : v.length = 2 ^ n)
    (p : Nat) (hp : p < 2 ^ n) :
    (QubitManipulation.apply_x v n t).getD p 0 = v.getD (p ^^^ (1 <<< t)) 0 := by
  unfold QubitManipulation.apply_x
  dsimp only
  rw [Nat.one_shiftLeft n, (apply_x_loop v n t ht hv (2 ^ n) (Nat.le_refl _)).2 p hp,
    if_pos (and_not_lt p t n hp)]

end InPlace

section Failure
variable {α : Type}

theorem apply_cnot_gate_invalid [Zero α] (v : List α) (n c t : Int)
    (h : validate_qubit_indices n c t = false) :
    apply_cnot_gate (some v) n c t = (false, some v) := by
  simp [apply_cnot_gate, h]

theorem apply_cnot_gate_fst [Zero α] (v : List α) (n c t : Int) :
    (apply_cnot_gate (some v) n c t).1 = validate_qubit_indices n c t := by
  cases h : validate_qubit_indices n c t
  · rw [apply_cnot_gate_invalid v n c t h]
  · simp [apply_cnot_gate, h, calloc]

theorem apply_single_qubit_gate_invalid [Semiring α] (v : List α) (g : QuantumGate α) (n t : Int)
    (h : validate_single_qubit n t = false) :
    apply_single_qubit_gate (some v) g n t = (false, some v) := by
  simp [apply_single_qubit_gate, h]

theorem apply_single_qubit_gate_valid [Semiring α] (v : List α) (g : QuantumGate α) (n t : Int)
    (h : validate_single_qubit n t = true) :
    apply_single_qubit_gate (some v) g n t =
      (true, some (tensor_contract v g t.toNat n.toNat).2) := by
  simp [apply_single_qubit_gate, h, tensor_contract_fst]

end Failure

/-! ## The sum of squared amplitudes -/

section Norm
variable {α : Type}

theorem norm_sq_eq_sum [Semiring α] (w : List α) :
    norm_sq w = ∑ k in Finset.range w.length, w.getD k 0 * w.getD k 0 := by
  induction w with
  | nil => simp [norm_sq]
  | cons a l ih =>
    have h : norm_sq (a :: l) = a * a + norm_sq l := by simp [norm_sq]
    rw [h, ih, List.length_cons, Finset.sum_range_succ', add_comm]
    simp

/-- Summing over all indices is summing over the pairs that differ in bit `t`. -/
theorem sum_pairs [AddCommMonoid α] (F : Nat → α) (n t : Nat) (ht : t < n) :
    ∑ k in Finset.range (2 ^ n), F k =
      ∑ k in (Finset.range (2 ^ n)).filter (fun k => k.testBit t = false),
        (F k + F (k ||| (1 <<< t))) := by
  rw [Finset.sum_add_distrib, ← Finset.sum_filter_add_sum_filter_not (Finset.range (2 ^ n))
    (fun k => k.testBit t = false)]
  congr 1
  apply Finset.sum_nbij' (fun k => and_not k (1 <<< t)) (fun k => k ||| (1 <<< t))
  · intro k hk
    rw [Finset.mem_filter, Finset.mem_range] at hk ⊢
    exact ⟨and_not_lt k t n hk.1, testBit_and_not_self k t⟩
  · intro k hk
    rw [Finset.mem_filter, Finset.mem_range] at hk ⊢
    exact ⟨or_mask_lt k t n hk.1 ht, by simp [testBit_or_mask_self]⟩
  · intro k hk
    rw [Finset.mem_filter, Finset.mem_range] at hk
    have hb : k.testBit t = true := by simpa using hk.2
    show and_not k (1 <<< t) ||| (1 <<< t) = k
    rw [or_mask_and_not, or_mask_eq_self k t hb]
  · intro k hk
    rw [Finset.mem_filter, Finset.mem_range] at hk
    show and_not (k ||| (1 <<< t)) (1 <<< t) = k
    rw [and_not_or_mask, and_not_eq_self k t hk.2]
  · intro k hk
    rw [Finset.mem_filter, Finset.mem_range] at hk
    have hb : k.testBit t = true := by simpa using hk.2
    show F k = F (and_not k (1 <<< t) ||| (1 <<< t))
    rw [or_mask_and_not, or_mask_eq_self k t hb]

theorem and_not_ne_or_mask (k t : Nat) : and_not k (1 <<< t) ≠ k ||| (1 <<< t) := by
  intro h
  have := congrArg (fun x => x.testBit t) h
  simp [testBit_and_not, testBit_or_mask] at this

/-- Every output amplitude of `tensor_contract` in closed form. -/
theorem tensor_contract_getD [Semiring α] (v : List α) (g : QuantumGate α) (t n : Nat)
    (ht : t < n) (hv : v.length = 2 ^ n) (k : Nat) (hk : k < 2 ^ n) :
    (tensor_contract v g t n).2.getD k 0 =
      g.elements (k.testBit t) false * v.getD (and_not k (1 <<< t)) 0 +
      g.elements (k.testBit t) true * v.getD (k ||| (1 <<< t)) 0 := by
  rw [tensor_contract_getD_sum v g t n hv k hk,
    Finset.sum_eq_add_of_mem (and_not k (1 <<< t)) (k ||| (1 <<< t))
      (Finset.mem_range.2 (and_not_lt k t n hk)) (Finset.mem_range.2 (or_mask_lt k t n hk ht))
      (and_not_ne_or_mask k t)]
  · rw [if_pos (and_not_and_not k t), if_pos (and_not_or_mask k t), testBit_and_not_self,
      testBit_or_mask_self]
  · intro i _ hi
    rw [if_neg]
    intro h
    cases hb : i.testBit t
    · exact hi.1 ((and_not_eq_self i t hb).symm.trans h)
    · apply hi.2
      rw [← or_mask_eq_self i t hb, ← or_mask_and_not, h, or_mask_and_not]

end Norm

section NormPreserved
variable {α : Type}

theorem elements_sq_sum [CommRing α] (g : QuantumGate α) (h : g.orthogonal) (a b : α) :
    (g.e00 * a + g.e01 * b) * (g.e00 * a + g.e01 * b) +
      (g.e10 * a + g.e11 * b) * (g.e10 * a + g.e11 * b) = a * a + b * b := by
  obtain ⟨h1, h2, h3⟩ := h
  linear_combination (a * a) * h1 + (b * b) * h2 + (2 * a * b) * h3

/-- An orthogonal gate keeps the sum of squared amplitudes. -/
theorem tensor_contract_norm_sq [CommRing α] (v : List α) (g : QuantumGate α) (t n : Nat)
    (ht : t < n) (hv : v.length = 2 ^ n) (hg : g.orthogonal) :
    norm_sq (tensor_contract v g t n).2 = norm_sq v := by
  rw [norm_sq_eq_sum, norm_sq_eq_sum, tensor_contract_length v g t n hv, hv,
    sum_pairs _ n t ht, sum_pairs _ n t ht]
  apply Finset.sum_congr rfl
  intro k hk
  rw [Finset.mem_filter, Finset.mem_range] at hk
  obtain ⟨hk, hb⟩ := hk
  rw [tensor_contract_getD v g t n ht hv k hk,
    tensor_contract_getD v g t n ht hv _ (or_mask_lt k t n hk ht), testBit_or_mask_self, hb,
    and_not_or_mask, and_not_eq_self k t hb, or_mask_eq_self _ t (testBit_or_mask_self k t)]
  exact elements_sq_sum g hg _ _

theorem get_x_gate_orthogonal [CommRing α] : (get_x_gate : QuantumGate α).orthogonal := by
  simp [QuantumGate.orthogonal, get_x_gate]

theorem get_hadamard_gate_orthogonal : (get_hadamard_gate Real.sqrt).orthogonal := by
  have h2 : Real.sqrt 2 * Real.sqrt 2 = 2 := Real.mul_self_sqrt (by norm_num)
  have hne : Real.sqrt 2 ≠ 0 := by
    intro h; rw [h] at h2; norm_num at h2
  have hs : (1 / Real.sqrt 2) * (1 / Real.sqrt 2) = 1 / 2 := by
    field_simp
  simp only [QuantumGate.orthogonal, get_hadamard_gate]
  refine ⟨?_, ?_, ?_⟩
  · linarith
  · have : -(1 / Real.sqrt 2) * -(1 / Real.sqrt 2) = 1 / 2 := by rw [neg_mul_neg]; exact hs
    linarith
  · have : (1 / Real.sqrt 2) * -(1 / Real.sqrt 2) = -(1 / 2) := by rw [mul_neg, hs]
    linarith

/-- The index permutation of CNOT is an involution of `[0, 2 ^ n)`. -/
theorem cnot_norm_sq [CommRing α] (v w : List α) (n c t : Nat) (ht : t < n) (hct : c ≠ t)
    (hv : v.length = 2 ^ n) (hw : w.length = 2 ^ n)
    (hget : ∀ k, k < 2 ^ n →
      w.getD k 0 = if k.testBit c then v.getD (k ^^^ (1 <<< t)) 0 else v.getD k 0) :
    norm_sq w = norm_sq v := by
  rw [norm_sq_eq_sum, norm_sq_eq_sum, hw, hv]
  have hperm : ∀ k, (if k.testBit c = true then k ^^^ (1 <<< t) else k).testBit c = k.testBit c := by
    intro k
    by_cases hb : k.testBit c = true
    · rw [if_pos hb, testBit_xor_mask_of_ne k c t hct]
    · rw [if_neg hb]
  have hinv : ∀ k, (fun k => if k.testBit c = true then k ^^^ (1 <<< t) else k)
      ((fun k => if k.testBit c = true then k ^^^ (1 <<< t) else k) k) = k := by
    intro k
    dsimp only
    rw [hperm k]
    by_cases hb : k.testBit c = true
    · rw [if_pos hb, if_pos hb, xor_mask_xor_mask]
    · rw [if_neg hb, if_neg hb]
  have hmem : ∀ k, k ∈ Finset.range (2 ^ n) →
      (fun k => if k.testBit c = true then k ^^^ (1 <<< t) else k) k ∈ Finset.range (2 ^ n) := by
    intro k hk
    rw [Finset.mem_range] at hk ⊢
    dsimp only
    split
    · exact xor_mask_lt k t n hk ht
    · exact hk
  apply Finset.sum_nbij' (fun k => if k.testBit c = true then k ^^^ (1 <<< t) else k)
    (fun k => if k.testBit c = true then k ^^^ (1 <<< t) else k) hmem hmem
    (fun k _ => hinv k) (fun k _ => hinv k)
  intro k hk
  rw [Finset.mem_range] at hk
  rw [hget k hk]
  by_cases hb : k.testBit c = true
  · simp only [hb, if_true]
  · simp only [hb, if_false]; simp

theorem initialize_state_vector_norm_sq [CommRing α] (buf : List α) (n : Nat)
    (hbuf : buf.length = 2 ^ n) :
    ∃ w : List α, initialize_state_vector (some buf) n = (true, some w) ∧
      w.length = 2 ^ n ∧ norm_sq w = 1 := by
  refine ⟨_, rfl, ?_, ?_⟩
  · simp [memset_zero, Nat.one_shiftLeft, hbuf]
  · have hpos : 0 < 2 ^ n := Nat.pos_of_ne_zero (by positivity)
    have hdrop : buf.drop (1 <<< n) = [] := by
      rw [List.drop_of_length_le]; rw [hbuf, Nat.one_shiftLeft]
    have hlen : ((memset_zero buf (1 <<< n)).set 0 (1 : α)).length = 2 ^ n := by
      simp [memset_zero, Nat.one_shiftLeft, hbuf]
    rw [norm_sq_eq_sum, hlen, Finset.sum_eq_single 0]
    · rw [getD_set_eq _ _ _ _ (by simp [memset_zero, Nat.one_shiftLeft, hbuf])]
      simp
    · intro k _ hk
      rw [getD_set_ne _ _ _ _ _ (fun h => hk h.symm)]
      simp only [memset_zero, hdrop, List.append_nil]
      rw [getD_replicate_zero, mul_zero]
    · intro h
      exact absurd (Finset.mem_range.2 hpos) h

end NormPreserved

/-! ## Construction of the initial state -/

section Construction
variable {α : Type}

theorem memset_zero_eq [Zero α] (buf : List α) (n : Nat) (hbuf : buf.length = n) :
    memset_zero buf n = List.replicate n 0 := by
  unfold memset_zero
  rw [List.drop_of_length_le (by omega), List.append_nil]

theorem getD_replicate_set_zero [Zero α] [One α] (m i : Nat) (hm : 0 < m) :
    ((List.replicate m (0 : α)).set 0 1).getD i 0 = if i = 0 then 1 else 0 := by
  by_cases hi : i = 0
  · subst hi
    rw [if_pos rfl, getD_set_eq _ _ _ _ (by simpa using hm)]
  · rw [if_neg hi, getD_set_ne _ _ _ _ _ (fun h => hi h.symm), getD_replicate_zero]

theorem initialize_statevector_length [Zero α] [One α] (buf : List α) (n : Nat) :
    (QubitManipulation.initialize_statevector buf n).length = buf.length := by
  unfold QubitManipulation.initialize_statevector
  exact length_forLoop _ _ _ (by intro i l; simp)

theorem initialize_statevector_getD [Zero α] [One α] (buf : List α) (n : Nat)
    (hbuf : buf.length = 2 ^ n) (i : Nat) (hi : i < 2 ^ n) :
    (QubitManipulation.initialize_statevector buf n).getD i 0 = if i = 0 then 1 else 0 := by
  unfold QubitManipulation.initialize_statevector
  dsimp only
  rw [getD_forLoop_set _ _ _ _ _ (by rw [hbuf]; exact hi), Nat.one_shiftLeft, if_pos hi]

end Construction

/-! ## The in-place engine: pairwise updates -/

section PairLoop
variable {α : Type}

/-- The state of an in-place loop that visits every `i` with bit `t` clear and
replaces the pair at `i`, `i | (1 << t)` by `f a b`, `h a b`, after the first
`j` iterations. -/
theorem pair_loop [Zero α] (f h : α → α → α) (v : List α) (n t : Nat) (ht : t < n)
    (hv : v.length = 2 ^ n) (j : Nat) (hj : j ≤ 2 ^ n) :
    (forLoop j (fun i sv =>
      if i &&& (1 <<< t) = 0 then
        (sv.set i (f (sv.getD i 0) (sv.getD (i ||| (1 <<< t)) 0))).set (i ||| (1 <<< t))
          (h (sv.getD i 0) (sv.getD (i ||| (1 <<< t)) 0))
      else
        sv) v).length = 2 ^ n ∧
    ∀ p, p < 2 ^ n →
      (forLoop j (fun i sv =>
        if i &&& (1 <<< t) = 0 then
          (sv.set i (f (sv.getD i 0) (sv.getD (i ||| (1 <<< t)) 0))).set (i ||| (1 <<< t))
            (h (sv.getD i 0) (sv.getD (i ||| (1 <<< t)) 0))
        else
          sv) v).getD p 0 =
      if and_not p (1 <<< t) < j then
        (if p.testBit t then h (v.getD (and_not p (1 <<< t)) 0) (v.getD p 0)
          else f (v.getD p 0) (v.getD (p ||| (1 <<< t)) 0))
      else v.getD p 0 := by
  induction j with
  | zero => exact ⟨hv, fun p _ => by simp [forLoop]⟩
  | succ m ih =>
    obtain ⟨hl, hval⟩ := ih (Nat.le_of_succ_le hj)
    have hm : m < 2 ^ n := hj
    rw [forLoop_succ]
    by_cases hb : m.testBit t = false
    · have hz : m &&& (1 <<< t) = 0 := (and_mask_eq_zero m t).2 hb
      have hm1 : m ||| (1 <<< t) < 2 ^ n := or_mask_lt m t n hm ht
      have hne : m ≠ m ||| (1 <<< t) := by
        intro h
        have := testBit_or_mask_self m t
        rw [← h, hb] at this
        exact Bool.noConfusion this
      simp only [hz, if_true]
      refine ⟨by rw [List.length_set, List.length_set, hl], ?_⟩
      intro p hp
      rw [getD_set _ _ _ _ _ (by rw [List.length_set, hl]; exact hp),
        getD_set _ _ _ _ _ (by rw [hl]; exact hp), hval m hm, hval _ hm1, hval p hp,
        and_not_eq_self m t hb, and_not_or_mask, and_not_eq_self m t hb]
      simp only [Nat.lt_irrefl, if_false]
      by_cases h1 : m ||| (1 <<< t) = p
      · subst h1
        rw [if_pos rfl, and_not_or_mask, and_not_eq_self m t hb, if_pos (Nat.lt_succ_self m),
          testBit_or_mask_self, if_pos rfl]
      · rw [if_neg h1]
        by_cases h2 : m = p
        · subst h2
          rw [if_pos rfl, and_not_eq_self m t hb, if_pos (Nat.lt_succ_self m), hb]
          simp
        · rw [if_neg h2]
          have hne : and_not p (1 <<< t) ≠ m := by
            intro h
            rcases eq_or_eq_of_and_not_eq p m t h with h3 | h3
            · exact h2 h3.symm
            · exact h1 h3.symm
          have hiff : and_not p (1 <<< t) < m + 1 ↔ and_not p (1 <<< t) < m := by omega
          simp only [hiff]
    · have hb' : m.testBit t = true := by simpa using hb
      have hz : ¬ (m &&& (1 <<< t) = 0) := by rw [and_mask_eq_zero]; simp [hb']
      simp only [hz, if_false]
      refine ⟨hl, ?_⟩
      intro p hp
      rw [hval p hp]
      have hne : and_not p (1 <<< t) ≠ m := by
        intro h
        have := testBit_and_not_self p t
        rw [h, hb'] at this
        exact Bool.noConfusion this
      have hiff : and_not p (1 <<< t) < m + 1 ↔ and_not p (1 <<< t) < m := by omega
      simp only [hiff]

theorem apply_h_length [DivisionRing α] (sqrt : α → α) (v : List α) (n t : Nat) (ht : t < n)
    (hv : v.length = 2 ^ n) : (QubitManipulation.apply_h sqrt v n t).length = 2 ^ n := by
  unfold QubitManipulation.apply_h
  dsimp only
  rw [Nat.one_shiftLeft n]
  exact (pair_loop (fun a b => 1 / sqrt 2 * (a + b)) (fun a b => 1 / sqrt 2 * (a - b))
    v n t ht hv (2 ^ n) (Nat.le_refl _)).1

/-- The in-place `apply_h` in closed form. -/
theorem apply_h_getD [DivisionRing α] (sqrt : α → α) (v : List α) (n t : Nat) (ht : t < n)
    (hv : v.length = 2 ^ n) (p : Nat) (hp : p < 2 ^ n) :
    (QubitManipulation.apply_h sqrt v n t).getD p 0 =
      if p.testBit t then (1 : α) / sqrt 2 * (v.getD (and_not p (1 <<< t)) 0 - v.getD p 0)
      else (1 : α) / sqrt 2 * (v.getD p 0 + v.getD (p ||| (1 <<< t)) 0) := by
  unfold QubitManipulation.apply_h
  dsimp only
  rw [Nat.one_shiftLeft n]
  have h := (pair_loop (fun a b => 1 / sqrt 2 * (a + b)) (fun a b => 1 / sqrt 2 * (a - b))
    v n t ht hv (2 ^ n) (Nat.le_refl _)).2 p hp
  rw [if_pos (and_not_lt p t n hp)] at h
  exact h

end PairLoop

/-! ## The struct-based dense engine -/

section CDense
variable {α : Type}

theorem create_matrix_data [Zero α] (d : Nat) :
    (CMatrixMult.create_matrix d : CMatrixMult.Matrix α).data = List.replicate (d * d) 0 := by
  simp [CMatrixMult.create_matrix, calloc]

/-- Two indices agree off bit `t` exactly when all their other bits agree. -/
theorem and_not_eq_and_not_iff (i j t : Nat) :
    and_not i (1 <<< t) = and_not j (1 <<< t) ↔ ∀ b, b ≠ t → i.testBit b = j.testBit b := by
  constructor
  · intro h b hb
    have := congrArg (fun x => x.testBit b) h
    have hne : ¬ (t = b) := fun h' => hb h'.symm
    simpa [testBit_and_not, hne] using this
  · intro h
    apply Nat.eq_of_testBit_eq
    intro b
    rw [testBit_and_not, testBit_and_not]
    by_cases hb : t = b
    · simp [hb]
    · rw [h b (fun h' => hb h'.symm)]

/-- Entry `(a, b)` of the local `full_gate` of `apply_single_qubit_gate`. -/
theorem full_gate_matrix_getD [Zero α] (g : QuantumGate α) (k d t : Nat)
    (a b : Nat) (ha : a < d) (hb : b < d) :
    (CMatrixMult.full_gate_matrix { data := g.toList, dimension := k } d t).data.getD
        (a * d + b) 0 =
      if and_not a (1 <<< t) = and_not b (1 <<< t)
        then g.elements (a.testBit t) (b.testBit t) else 0 := by
  unfold CMatrixMult.full_gate_matrix
  dsimp only
  rw [create_matrix_data,
    getD_forLoop2_set d (fun i j => and_not i (1 <<< t) = and_not j (1 <<< t))
      (fun i j => g.toList.getD ((i >>> t &&& 1) * 2 + (j >>> t &&& 1)) 0) _
      (List.length_replicate _ _) 0 a b ha hb]
  by_cases h : and_not a (1 <<< t) = and_not b (1 <<< t)
  · rw [if_pos h, if_pos h, shift_and_one, shift_and_one, toList_getD]
  · rw [if_neg h, if_neg h, getD_replicate_zero]

theorem full_gate_matrix_length [Zero α] (single_gate : CMatrixMult.Matrix α) (d t : Nat) :
    (CMatrixMult.full_gate_matrix single_gate d t).data.length = d * d := by
  unfold CMatrixMult.full_gate_matrix
  dsimp only
  rw [length_forLoop, create_matrix_data, List.length_replicate]
  intro i l
  rw [length_forLoop]
  intro j l'
  split <;> simp

/-- Entry `(a, b)` of the local `cnot` of `apply_cnot`. -/
theorem cnot_matrix_getD [Zero α] [One α] (n c t : Nat) (ht : t < n)
    (a b : Nat) (ha : a < 2 ^ n) (hb : b < 2 ^ n) :
    (CMatrixMult.cnot_matrix (2 ^ n) c t : CMatrixMult.Matrix α).data.getD (a * 2 ^ n + b) 0 =
      if a.testBit c = true then (if b = a ^^^ (1 <<< t) then 1 else 0)
      else (if b = a then 1 else 0) := by
  unfold CMatrixMult.cnot_matrix
  dsimp only
  rw [create_matrix_data]
  obtain ⟨hl2, hv2⟩ := getD_forLoop_diag_set (2 ^ n) (1 : α) (List.replicate (2 ^ n * 2 ^ n) 0)
    (List.length_replicate _ _) 0 a b ha hb (2 ^ n) (Nat.le_refl _)
  obtain ⟨_, hv3⟩ := getD_forLoop_cnot_rows (2 ^ n) c t _ hl2
    (fun i hi => xor_mask_lt i t n hi ht) a b ha hb (2 ^ n) (Nat.le_refl _)
  rw [hv3, hv2, getD_replicate_zero]
  by_cases hc : a.testBit c = true
  · simp only [ha, hc, and_self, if_true]
    by_cases h1 : b = a ^^^ (1 <<< t)
    · simp [h1]
    · by_cases h2 : b = a
      · simp [h1, h2]
      · have : ¬ (a = b) := fun h => h2 h.symm
        simp [h1, h2, this]
  · simp only [hc, and_false, if_false, ha, and_true]
    by_cases h2 : b = a
    · simp [h2]
    · have : ¬ (a = b) := fun h => h2 h.symm
      simp [h2, this]

theorem cnot_matrix_length [Zero α] [One α] (d c t : Nat) :
    (CMatrixMult.cnot_matrix d c t : CMatrixMult.Matrix α).data.length = d * d := by
  unfold CMatrixMult.cnot_matrix
  dsimp only
  rw [length_forLoop, length_forLoop, create_matrix_data, List.length_replicate]
  · intro i l; simp
  · intro i l
    dsimp only
    split <;> simp

theorem apply_matrix_to_statevector_fields [Semiring α] (sv : CMatrixMult.Statevector α)
    (M : CMatrixMult.Matrix α) :
    (CMatrixMult.apply_matrix_to_statevector sv M).num_qubits = sv.num_qubits ∧
    (CMatrixMult.apply_matrix_to_statevector sv M).dimension = sv.dimension ∧
    (CMatrixMult.apply_matrix_to_statevector sv M).data.length = sv.data.length := by
  refine ⟨rfl, rfl, ?_⟩
  unfold CMatrixMult.apply_matrix_to_statevector
  dsimp only
  exact length_forLoop _ _ _ (by intro i l; simp)

/-- Every output amplitude of `apply_matrix_to_statevector` is the
row-times-vector sum. -/
theorem apply_matrix_to_statevector_getD [Semiring α] (sv : CMatrixMult.Statevector α)
    (M : CMatrixMult.Matrix α) (hsv : sv.data.length = sv.dimension) (i : Nat)
    (hi : i < sv.dimension) :
    (CMatrixMult.apply_matrix_to_statevector sv M).data.getD i 0 =
      ∑ j in Finset.range sv.dimension, M.data.getD (i * sv.dimension + j) 0 * sv.data.getD j 0 := by
  unfold CMatrixMult.apply_matrix_to_statevector
  dsimp only
  rw [getD_forLoop_set _ _ _ _ _ (by rw [hsv]; exact hi), if_pos hi]
  have key : ∀ k, k ≤ sv.dimension →
      (forLoop k (fun i result =>
        forLoop sv.dimension (fun j result =>
          add_at result i (M.data.getD (i * sv.dimension + j) 0 * sv.data.getD j 0)) result)
        ((calloc α sv.dimension).getD [])).length = sv.dimension ∧
      ∀ p, p < sv.dimension →
      (forLoop k (fun i result =>
        forLoop sv.dimension (fun j result =>
          add_at result i (M.data.getD (i * sv.dimension + j) 0 * sv.data.getD j 0)) result)
        ((calloc α sv.dimension).getD [])).getD p 0
        = if p < k then
            ∑ j in Finset.range sv.dimension, M.data.getD (p * sv.dimension + j) 0 * sv.data.getD j 0
          else 0 := by
    intro k
    induction k with
    | zero =>
      intro _
      refine ⟨by simp [forLoop, calloc], fun p _ => ?_⟩
      simp only [forLoop, calloc, Option.getD_some, Nat.not_lt_zero, if_false]
      exact getD_replicate_zero _ _
    | succ m ih =>
      intro hm
      obtain ⟨hl, hval⟩ := ih (Nat.le_of_succ_le hm)
      rw [forLoop_succ]
      constructor
      · rw [length_forLoop _ _ _ (by intro j l; simp [length_add_at]), hl]
      · intro p hp
        rw [getD_forLoop_add_at_row _ _ _ _ _ (by rw [hl]; exact hp), hval p hp]
        by_cases h : m = p
        · subst h
          rw [if_neg (Nat.lt_irrefl m), if_pos rfl, if_pos (Nat.lt_succ_self m), zero_add]
        · rw [if_neg h, add_zero]
          have hiff : p < m + 1 ↔ p < m := by omega
          simp only [hiff]
  rw [(key sv.dimension (Nat.le_refl _)).2 i hi, if_pos hi]

end CDense

section DenseEqTensor
variable {α : Type}

/-- The array-based dense engine leaves what `tensor_contract` leaves, for
every target. -/
theorem apply_gate_matrix_eq [Semiring α] (n t : Nat) (g : QuantumGate α)
    (v buf scratch : List α) (hv : v.length = 2 ^ n) (hbuf : buf.length = 2 ^ n * 2 ^ n)
    (hs : scratch.length = 2 ^ n) :
    MatrixMult.apply_matrix v (MatrixMult.create_single_qubit_gate_matrix buf g.toList n t)
      (2 ^ n) scratch = (tensor_contract v g t n).2 := by
  apply list_ext_getD 0
  · rw [tensor_contract_length v g t n hv, apply_matrix_length, hv]
  · intro k hk
    rw [apply_matrix_length, hv] at hk
    rw [tensor_contract_getD_sum v g t n hv k hk, apply_matrix_getD _ _ _ _ hv hs k hk]
    apply Finset.sum_congr rfl
    intro i hi
    rw [create_single_qubit_gate_matrix_getD buf g n t hbuf k i hk (Finset.mem_range.1 hi)]
    by_cases h : and_not i (1 <<< t) = and_not k (1 <<< t)
    · rw [if_pos h, if_pos h.symm]
    · rw [if_neg h, if_neg (fun h' => h h'.symm), zero_mul]

/-- The struct-based dense engine leaves what `tensor_contract` leaves, for
every target. -/
theorem apply_full_gate_eq [Semiring α] (n t k : Nat) (g : QuantumGate α)
    (sv : CMatrixMult.Statevector α) (hd : sv.dimension = 2 ^ n)
    (hv : sv.data.length = 2 ^ n) :
    (CMatrixMult.apply_matrix_to_statevector sv
      (CMatrixMult.full_gate_matrix { data := g.toList, dimension := k } sv.dimension t)).data
      = (tensor_contract sv.data g t n).2 := by
  apply list_ext_getD 0
  · rw [tensor_contract_length sv.data g t n hv, (apply_matrix_to_statevector_fields _ _).2.2, hv]
  · intro p hp
    rw [(apply_matrix_to_statevector_fields _ _).2.2, hv] at hp
    rw [tensor_contract_getD_sum sv.data g t n hv p hp,
      apply_matrix_to_statevector_getD _ _ (by rw [hv, hd]) p (by rw [hd]; exact hp), hd]
    apply Finset.sum_congr rfl
    intro i hi
    rw [← hd, full_gate_matrix_getD g k sv.dimension t p i (by rw [hd]; exact hp)
      (by rw [hd]; exact Finset.mem_range.1 hi)]
    by_cases h : and_not i (1 <<< t) = and_not p (1 <<< t)
    · rw [if_pos h, if_pos h.symm]
    · rw [if_neg h, if_neg (fun h' => h h'.symm), zero_mul]

/-- The struct-based `apply_cnot` permutes the amplitudes. -/
theorem apply_cnot_struct_getD [Semiring α] (n c t : Nat) (ht : t < n)
    (sv : CMatrixMult.Statevector α) (hd : sv.dimension = 2 ^ n)
    (hv : sv.data.length = 2 ^ n) (k : Nat) (hk : k < 2 ^ n) :
    (CMatrixMult.apply_cnot sv c t).data.getD k 0 =
      if k.testBit c then sv.data.getD (k ^^^ (1 <<< t)) 0 else sv.data.getD k 0 := by
  unfold CMatrixMult.apply_cnot
  dsimp only
  rw [apply_matrix_to_statevector_getD _ _ (by rw [hv, hd]) k (by rw [hd]; exact hk), hd]
  by_cases hc : k.testBit c = true
  · rw [if_pos hc, Finset.sum_eq_single (k ^^^ (1 <<< t))]
    · rw [cnot_matrix_getD n c t ht k _ hk (xor_mask_lt k t n hk ht)]
      simp [hc]
    · intro j hj hne
      rw [cnot_matrix_getD n c t ht k j hk (Finset.mem_range.1 hj)]
      simp [hc, hne]
    · intro h
      exact absurd (Finset.mem_range.2 (xor_mask_lt k t n hk ht)) h
  · rw [if_neg hc, Finset.sum_eq_single k]
    · rw [cnot_matrix_getD n c t ht k _ hk hk]
      simp [hc]
    · intro j hj hne
      rw [cnot_matrix_getD n c t ht k j hk (Finset.mem_range.1 hj)]
      simp [hc, hne]
    · intro h
      exact absurd (Finset.mem_range.2 hk) h

theorem create_single_qubit_gate_x [DivisionRing α] (sqrt : α → α) :
    CMatrixMult.create_single_qubit_gate sqrt .GATE_X =
      { data := (get_x_gate : QuantumGate α).toList, dimension := 2 } := by
  simp [CMatrixMult.create_single_qubit_gate, CMatrixMult.create_matrix, calloc,
    QuantumGate.toList, get_x_gate, List.replicate]

theorem create_single_qubit_gate_h [DivisionRing α] (sqrt : α → α) :
    CMatrixMult.create_single_qubit_gate sqrt .GATE_H =
      { data := (get_hadamard_gate sqrt).toList, dimension := 2 } := by
  simp [CMatrixMult.create_single_qubit_gate, CMatrixMult.create_matrix, calloc,
    QuantumGate.toList, get_hadamard_gate, List.replicate, neg_div]

theorem create_single_qubit_gate_t [DivisionRing α] (sqrt : α → α) :
    CMatrixMult.create_single_qubit_gate sqrt .GATE_T =
      { data := QuantumGate.toList ⟨1, 0, 0, sqrt 2 / 2⟩, dimension := 2 } := by
  simp [CMatrixMult.create_single_qubit_gate, CMatrixMult.create_matrix, calloc,
    QuantumGate.toList, List.replicate]

end DenseEqTensor

section OutOfRange
variable {α : Type}

theorem testBit_of_lt_of_le (a n t : Nat) (ha : a < 2 ^ n) (hnt : n ≤ t) :
    a.testBit t = false :=
  Nat.testBit_lt_two_pow (lt_of_lt_of_le ha (Nat.pow_le_pow_right (by decide) hnt))

/-- With a target at or above `n` the only partner of an index is itself. -/
theorem and_not_eq_iff_of_le (a b n t : Nat) (ha : a < 2 ^ n) (hb : b < 2 ^ n) (hnt : n ≤ t) :
    and_not a (1 <<< t) = and_not b (1 <<< t) ↔ a = b := by
  rw [and_not_eq_self a t (testBit_of_lt_of_le a n t ha hnt),
    and_not_eq_self b t (testBit_of_lt_of_le b n t hb hnt)]

/-- With a target at or above `n`, `tensor_contract` as modelled (stores past
the end of the scratch buffer dropped) scales the state by `g00`. -/
theorem tensor_contract_getD_of_le [Semiring α] (v : List α) (g : QuantumGate α) (t n : Nat)
    (hnt : n ≤ t) (hv : v.length = 2 ^ n) (k : Nat) (hk : k < 2 ^ n) :
    (tensor_contract v g t n).2.getD k 0 = g.e00 * v.getD k 0 := by
  rw [tensor_contract_getD_sum v g t n hv k hk, Finset.sum_eq_single k]
  · rw [if_pos rfl, testBit_of_lt_of_le k n t hk hnt]
    simp [QuantumGate.elements]
  · intro i hi hne
    rw [if_neg]
    intro h
    exact hne ((and_not_eq_iff_of_le i k n t (Finset.mem_range.1 hi) hk hnt).1 h)
  · intro h
    exact absurd (Finset.mem_range.2 hk) h

end OutOfRange

/-! ## The demo circuit of the drivers -/

section Demo
variable {α : Type}

/-- With the X table `tensor_contract` exchanges each amplitude with its
partner. -/
theorem tensor_contract_x_getD [Semiring α] (v : List α) (t n : Nat) (ht : t < n)
    (hv : v.length = 2 ^ n) (k : Nat) (hk : k < 2 ^ n) :
    (tensor_contract v get_x_gate t n).2.getD k 0 = v.getD (k ^^^ (1 <<< t)) 0 := by
  rw [tensor_contract_getD v _ t n ht hv k hk]
  cases hb : k.testBit t
  · rw [xor_mask_of_clear k t hb]
    simp [QuantumGate.elements, get_x_gate]
  · rw [xor_mask_of_set k t hb]
    simp [QuantumGate.elements, get_x_gate]

theorem xor_mask_eq_zero_iff (k t : Nat) : k ^^^ (1 <<< t) = 0 ↔ k = 1 <<< t := by
  constructor
  · intro h
    have := congrArg (fun x => x ^^^ (1 <<< t)) h
    simpa [xor_mask_xor_mask] using this
  · intro h
    rw [h, Nat.xor_self]

theorem testBit_mask (t b : Nat) : (1 <<< t).testBit b = decide (t = b) := by
  rw [Nat.one_shiftLeft, Nat.testBit_two_pow]

/-- The index test that singles out the two populated basis states of the demo
circuit. -/
theorem demo_index_iff (m k : Nat) (hm : 1 ≤ m) :
    and_not (if k.testBit 0 = true then k ^^^ (1 <<< m) else k) (1 <<< 0) = 1 <<< m ↔
      (k = 1 ∨ k = 2 ^ m) := by
  have hm0 : ¬ (m = 0) := by omega
  have hM0 : (1 <<< m).testBit 0 = false := by rw [testBit_mask]; simp [hm0]
  have h1 : (1 : Nat) = 1 <<< 0 := rfl
  rw [← Nat.one_shiftLeft m]
  cases hb : k.testBit 0
  · simp only [Bool.false_eq_true, if_false]
    rw [and_not_eq_self k 0 hb]
    constructor
    · intro h; right; exact h
    · rintro (h | h)
      · rw [h, h1, testBit_mask] at hb
        simp at hb
      · exact h
  · simp only [if_true]
    constructor
    · intro h
      left
      apply Nat.eq_of_testBit_eq
      intro b
      by_cases hb0 : b = 0
      · subst hb0
        rw [hb, h1, testBit_mask]
        simp
      · have := congrArg (fun x => x.testBit b) h
        have hne : ¬ (0 = b) := fun h' => hb0 h'.symm
        simp only [testBit_and_not, testBit_xor_mask, testBit_mask, hne, decide_False,
          Bool.not_false, Bool.and_true] at this
        rw [h1, testBit_mask]
        simp only [hne, decide_False]
        by_cases hmb : m = b
        · simpa [hmb] using this
        · simpa [hmb] using this
    · rintro (h | h)
      · subst h
        apply Nat.eq_of_testBit_eq
        intro b
        rw [testBit_and_not, testBit_xor_mask, testBit_mask]
        by_cases hb0 : b = 0
        · subst hb0
          simp [hm0]
        · have hne : ¬ (0 = b) := fun h' => hb0 h'.symm
          have : (1 : Nat).testBit b = false := by rw [h1, testBit_mask]; simp [hne]
          simp [this, hne]
      · rw [h, hM0] at hb
        exact Bool.noConfusion hb

/-- The final state of the demo circuit, for any state `w` obtained from the
CNOT permutation of the state after X on qubit `n - 1` and H on qubit 0. -/
theorem demo_final_getD [DivisionRing α] (sqrt : α → α) (n : Nat) (hn : 2 ≤ n)
    (v0 w : List α) (hv0 : v0.length = 2 ^ n)
    (h0 : ∀ k, k < 2 ^ n → v0.getD k 0 = if k = 0 then 1 else 0)
    (hw : ∀ k, k < 2 ^ n → w.getD k 0 =
      if k.testBit 0 then
        (tensor_contract (tensor_contract v0 get_x_gate (n - 1) n).2
          (get_hadamard_gate sqrt) 0 n).2.getD (k ^^^ (1 <<< (n - 1))) 0
      else
        (tensor_contract (tensor_contract v0 get_x_gate (n - 1) n).2
          (get_hadamard_gate sqrt) 0 n).2.getD k 0)
    (k : Nat) (hk : k < 2 ^ n) :
    w.getD k 0 = if k = 1 ∨ k = 2 ^ (n - 1) then 1 / sqrt 2 else 0 := by
  have hm : n - 1 < n := by omega
  have hm1 : 1 ≤ n - 1 := by omega
  have h0n : 0 < n := by omega
  have hM0 : (1 <<< (n - 1)).testBit 0 = false := by
    rw [testBit_mask]; simp; omega
  have hl1 := tensor_contract_length v0 (get_x_gate : QuantumGate α) (n - 1) n hv0
  -- after X on qubit n - 1
  have h1 : ∀ p, p < 2 ^ n → (tensor_contract v0 get_x_gate (n - 1) n).2.getD p 0 =
      if p = 1 <<< (n - 1) then (1 : α) else 0 := by
    intro p hp
    rw [tensor_contract_x_getD v0 (n - 1) n hm hv0 p hp, h0 _ (xor_mask_lt p (n - 1) n hp hm)]
    simp only [xor_mask_eq_zero_iff]
  -- after H on qubit 0
  have h2 : ∀ p, p < 2 ^ n →
      (tensor_contract (tensor_contract v0 get_x_gate (n - 1) n).2
        (get_hadamard_gate sqrt) 0 n).2.getD p 0 =
      if and_not p (1 <<< 0) = 1 <<< (n - 1) then 1 / sqrt 2 else 0 := by
    intro p hp
    rw [tensor_contract_getD _ _ 0 n h0n hl1 p hp, h1 _ (and_not_lt p 0 n hp),
      h1 _ (or_mask_lt p 0 n hp h0n)]
    have hor : ¬ (p ||| (1 <<< 0) = 1 <<< (n - 1)) := by
      intro h
      have := testBit_or_mask_self p 0
      rw [h, hM0] at this
      exact Bool.noConfusion this
    rw [if_neg hor, mul_zero, add_zero]
    by_cases hc : and_not p (1 <<< 0) = 1 <<< (n - 1)
    · rw [if_pos hc, if_pos hc, mul_one]
      cases p.testBit 0 <;> simp [QuantumGate.elements, get_hadamard_gate]
    · rw [if_neg hc, if_neg hc, mul_zero]
  rw [hw k hk]
  have key := demo_index_iff (n - 1) k hm1
  cases hb : k.testBit 0
  · simp only [hb, Bool.false_eq_true, if_false] at key ⊢
    rw [h2 k hk]
    by_cases hc : and_not k (1 <<< 0) = 1 <<< (n - 1)
    · rw [if_pos hc, if_pos (key.1 hc)]
    · rw [if_neg hc, if_neg (fun h => hc (key.2 h))]
  · simp only [hb, if_true] at key ⊢
    rw [h2 _ (xor_mask_lt k (n - 1) n hk hm)]
    by_cases hc : and_not (k ^^^ (1 <<< (n - 1))) (1 <<< 0) = 1 <<< (n - 1)
    · rw [if_pos hc, if_pos (key.1 hc)]
    · rw [if_neg hc, if_neg (fun h => hc (key.2 h))]

end Demo

section DemoEngines
variable {α : Type}

theorem basis_state_getD [Zero α] [One α] (n : Nat) (k : Nat) :
    ((memset_zero (List.replicate (1 <<< n) (0 : α)) (1 <<< n)).set 0 1).getD k 0 =
      if k = 0 then 1 else 0 := by
  rw [memset_zero_eq _ _ (List.length_replicate _ _), Nat.one_shiftLeft,
    getD_replicate_set_zero _ _ (Nat.pos_of_ne_zero (by positivity))]

theorem basis_state_length [Zero α] [One α] (n : Nat) :
    ((memset_zero (List.replicate (1 <<< n) (0 : α)) (1 <<< n)).set 0 1).length = 2 ^ n := by
  rw [List.length_set, memset_zero_eq _ _ (List.length_replicate _ _), List.length_replicate,
    Nat.one_shiftLeft]

/-- The demo circuit on the tensor_mult engine. -/
theorem run_quantum_circuit_test_getD [DivisionRing α] (sqrt : α → α) (n : Nat) (hn : 2 ≤ n) :
    ∃ w : List α, run_quantum_circuit_test sqrt (n : Int) = some w ∧ w.length = 2 ^ n ∧
      ∀ k, k < 2 ^ n → w.getD k 0 = if k = 1 ∨ k = 2 ^ (n - 1) then 1 / sqrt 2 else 0 := by
  have hsub : ((n : Int) - 1).toNat = n - 1 := by omega
  have hcast : ((n - 1 : Nat) : Int) = (n : Int) - 1 := by omega
  have hv1 : validate_single_qubit (n : Int) ((n : Int) - 1) = true :=
    (validate_single_qubit_iff _ _).2 ⟨by omega, by omega⟩
  have hv2 : validate_single_qubit (n : Int) 0 = true :=
    (validate_single_qubit_iff _ _).2 ⟨by omega, by omega⟩
  have hl0 := basis_state_length (α := α) n
  have hl1 := tensor_contract_length _ (get_x_gate : QuantumGate α) (n - 1) n hl0
  have hl2 := tensor_contract_length _ (get_hadamard_gate sqrt) 0 n hl1
  obtain ⟨w, hw, hlen, hget⟩ := apply_cnot_gate_valid _ n 0 (n - 1) (by omega) (by omega)
    (by omega) hl2
  rw [hcast, Nat.cast_zero] at hw
  refine ⟨w, ?_, hlen, ?_⟩
  · simp only [run_quantum_circuit_test, calloc, initialize_state_vector, Int.toNat_ofNat]
    rw [apply_single_qubit_gate_valid _ _ _ _ hv1]
    simp only [Int.toNat_ofNat, hsub]
    rw [apply_single_qubit_gate_valid _ _ _ _ hv2]
    simp only [Int.toNat_ofNat, Int.toNat_zero]
    rw [hw]
  · intro k hk
    exact demo_final_getD sqrt n hn _ w hl0 (fun p _ => basis_state_getD n p) hget k hk

end DemoEngines

section DemoDense
variable {α : Type}

/-- The loop `for (int i = 1; i < dim; i++) statevector[i] = x`. -/
theorem getD_forLoop_set_succ (j : Nat) (x d : α) (s : List α) (p : Nat) (hp : p < s.length) :
    (forLoop j (fun k sv => sv.set (k + 1) x) s).getD p d =
      if 1 ≤ p ∧ p ≤ j then x else s.getD p d := by
  induction j with
  | zero =>
    have : ¬ (1 ≤ p ∧ p ≤ 0) := by omega
    rw [if_neg this]
    rfl
  | succ m ih =>
    rw [forLoop_succ, getD_set _ _ _ _ _ (by rw [length_forLoop _ _ _ (by simp)]; exact hp), ih]
    by_cases h : m + 1 = p
    · subst h; simp
    · have hiff : (1 ≤ p ∧ p ≤ m + 1) ↔ (1 ≤ p ∧ p ≤ m) := by omega
      rw [if_neg h]
      simp only [hiff]

theorem hadamard_toList [DivisionRing α] (sqrt : α → α) :
    ([1 / sqrt 2, 1 / sqrt 2, 1 / sqrt 2, (-1) / sqrt 2] : List α) =
      (get_hadamard_gate sqrt).toList := by
  simp [QuantumGate.toList, get_hadamard_gate, neg_div]

/-- The demo circuit on the array-based dense engine. -/
theorem run_test_getD [DivisionRing α] (sqrt : α → α) (heap : Nat → List α)
    (hheap : ∀ k, (heap k).length = k) (n : Nat) (hn : 2 ≤ n) :
    (MatrixMult.run_test sqrt heap n).length = 2 ^ n ∧
      ∀ k, k < 2 ^ n → (MatrixMult.run_test sqrt heap n).getD k 0 =
        if k = 1 ∨ k = 2 ^ (n - 1) then 1 / sqrt 2 else 0 := by
  have hpos : 0 < 2 ^ n := Nat.pos_of_ne_zero (by positivity)
  have hx : ([0, 1, 1, 0] : List α) = (get_x_gate : QuantumGate α).toList := rfl
  have hl0 : (forLoop (2 ^ n - 1) (fun k (statevector : List α) => statevector.set (k + 1) 0)
      ((heap (2 ^ n)).set 0 1)).length = 2 ^ n := by
    rw [length_forLoop _ _ _ (by simp), List.length_set, hheap]
  have h0 : ∀ k, k < 2 ^ n →
      (forLoop (2 ^ n - 1) (fun k (statevector : List α) => statevector.set (k + 1) 0)
        ((heap (2 ^ n)).set 0 1)).getD k 0 = if k = 0 then 1 else 0 := by
    intro k hk
    rw [getD_forLoop_set_succ _ _ _ _ _ (by rw [List.length_set, hheap]; exact hk)]
    by_cases hk0 : k = 0
    · subst hk0
      rw [if_neg (by omega), if_pos rfl, getD_set_eq _ _ _ _ (by rw [hheap]; exact hpos)]
    · rw [if_pos (by omega), if_neg hk0]
  have hl1 := tensor_contract_length _ (get_x_gate : QuantumGate α) (n - 1) n hl0
  have hl2 := tensor_contract_length _ (get_hadamard_gate sqrt) 0 n hl1
  have heq : MatrixMult.run_test sqrt heap n =
      MatrixMult.apply_matrix
        (tensor_contract (tensor_contract
          (forLoop (2 ^ n - 1) (fun k (statevector : List α) => statevector.set (k + 1) 0)
            ((heap (2 ^ n)).set 0 1)) get_x_gate (n - 1) n).2 (get_hadamard_gate sqrt) 0 n).2
        (MatrixMult.create_cnot_matrix (heap (2 ^ n * 2 ^ n)) n 0 (n - 1)) (2 ^ n)
        (heap (2 ^ n)) := by
    unfold MatrixMult.run_test
    dsimp only
    rw [Nat.one_shiftLeft n, hx, hadamard_toList,
      apply_gate_matrix_eq n (n - 1) get_x_gate _ _ _ hl0 (hheap _) (hheap _),
      apply_gate_matrix_eq n 0 (get_hadamard_gate sqrt) _ _ _ hl1 (hheap _) (hheap _)]
  rw [heq]
  refine ⟨by rw [apply_matrix_length, hl2], ?_⟩
  intro k hk
  exact demo_final_getD sqrt n hn _ _ hl0 h0
    (fun p hp => apply_cnot_matrix_getD _ _ _ n 0 (n - 1) (by omega) hl2 (hheap _) (hheap _) p hp)
    k hk

/-- The demo circuit on the struct-based dense engine. -/
theorem run_circuit_test_getD [DivisionRing α] (sqrt : α → α) (n : Nat) (hn : 2 ≤ n) :
    ∃ sv : CMatrixMult.Statevector α, CMatrixMult.run_circuit_test sqrt n = some sv ∧
      sv.data.length = 2 ^ n ∧
      ∀ k, k < 2 ^ n → sv.data.getD k 0 = if k = 1 ∨ k = 2 ^ (n - 1) then 1 / sqrt 2 else 0 := by
  have hpos : 0 < 2 ^ n := Nat.pos_of_ne_zero (by positivity)
  have hl0 : ((List.replicate (1 <<< n) (0 : α)).set 0 1).length = 2 ^ n := by
    rw [List.length_set, List.length_replicate, Nat.one_shiftLeft]
  have h0 : ∀ k, k < 2 ^ n →
      ((List.replicate (1 <<< n) (0 : α)).set 0 1).getD k 0 = if k = 0 then 1 else 0 := by
    intro k _
    rw [Nat.one_shiftLeft, getD_replicate_set_zero _ _ hpos]
  have hl1 := tensor_contract_length _ (get_x_gate : QuantumGate α) (n - 1) n hl0
  have hl2 := tensor_contract_length _ (get_hadamard_gate sqrt) 0 n hl1
  -- the state after X
  have e1 : (CMatrixMult.apply_single_qubit_gate sqrt
      ⟨(List.replicate (1 <<< n) (0 : α)).set 0 1, n, 1 <<< n⟩ .GATE_X (n - 1)).data =
      (tensor_contract ((List.replicate (1 <<< n) (0 : α)).set 0 1) get_x_gate (n - 1) n).2 := by
    unfold CMatrixMult.apply_single_qubit_gate
    rw [create_single_qubit_gate_x]
    exact apply_full_gate_eq n (n - 1) 2 get_x_gate _ (Nat.one_shiftLeft n) hl0
  have f1 : (CMatrixMult.apply_single_qubit_gate sqrt
      ⟨(List.replicate (1 <<< n) (0 : α)).set 0 1, n, 1 <<< n⟩ .GATE_X (n - 1)).dimension
      = 2 ^ n := by
    unfold CMatrixMult.apply_single_qubit_gate
    rw [(apply_matrix_to_statevector_fields _ _).2.1]
    exact Nat.one_shiftLeft n
  -- the state after H
  have e2 : (CMatrixMult.apply_single_qubit_gate sqrt (CMatrixMult.apply_single_qubit_gate sqrt
      ⟨(List.replicate (1 <<< n) (0 : α)).set 0 1, n, 1 <<< n⟩ .GATE_X (n - 1)) .GATE_H 0).data =
      (tensor_contract (tensor_contract ((List.replicate (1 <<< n) (0 : α)).set 0 1)
        get_x_gate (n - 1) n).2 (get_hadamard_gate sqrt) 0 n).2 := by
    rw [← e1]
    unfold CMatrixMult.apply_single_qubit_gate
    rw [create_single_qubit_gate_h]
    exact apply_full_gate_eq n 0 2 (get_hadamard_gate sqrt) _ f1 (by rw [← hl1, ← e1]; rfl)
  have f2 : (CMatrixMult.apply_single_qubit_gate sqrt (CMatrixMult.apply_single_qubit_gate sqrt
      ⟨(List.replicate (1 <<< n) (0 : α)).set 0 1, n, 1 <<< n⟩ .GATE_X (n - 1)) .GATE_H 0
      ).dimension = 2 ^ n := by
    rw [← f1]
    unfold CMatrixMult.apply_single_qubit_gate
    rw [(apply_matrix_to_statevector_fields _ _).2.1]
  refine ⟨CMatrixMult.apply_cnot (CMatrixMult.apply_single_qubit_gate sqrt
    (CMatrixMult.apply_single_qubit_gate sqrt
      ⟨(List.replicate (1 <<< n) (0 : α)).set 0 1, n, 1 <<< n⟩ .GATE_X (n - 1)) .GATE_H 0)
    0 (n - 1), rfl, ?_, ?_⟩
  · unfold CMatrixMult.apply_cnot
    rw [(apply_matrix_to_statevector_fields _ _).2.2, e2, hl2]
  · intro k hk
    refine demo_final_getD sqrt n hn _ _ hl0 h0 (fun p hp => ?_) k hk
    rw [apply_cnot_struct_getD n 0 (n - 1) (by omega) _ f2 (by rw [e2, hl2]) p hp, e2]

end DemoDense

/-! ## The Kronecker product -/

section Kronecker
variable {α : Type}

/-- A property kept by every iteration is kept by the loop. -/
theorem forLoop_keep {σ : Type} (P : σ → Prop) (n : Nat) (body : Nat → σ → σ)
    (h : ∀ i, i < n → ∀ s, P s → P (body i s)) (s : σ) (hs : P s) : P (forLoop n body s) := by
  induction n with
  | zero => exact hs
  | succ k ih =>
    rw [forLoop_succ]
    exact h k (Nat.lt_succ_self k) _ (ih (fun i hi => h i (Nat.lt_succ_of_lt hi)))

/-- A property established by iteration `i0` and kept by all iterations holds
after the loop. -/
theorem forLoop_hit {σ : Type} (P Q : σ → Prop) (n : Nat) (body : Nat → σ → σ) (i0 : Nat)
    (hi0 : i0 < n) (hP : ∀ i, i < n → ∀ s, P s → P (body i s))
    (hhit : ∀ s, P s → Q (body i0 s))
    (hQ : ∀ i, i < n → ∀ s, P s → Q s → Q (body i s)) (s : σ) (hs : P s) :
    Q (forLoop n body s) := by
  induction n with
  | zero => exact absurd hi0 (Nat.not_lt_zero _)
  | succ k ih =>
    rw [forLoop_succ]
    have hPk : P (forLoop k body s) :=
      forLoop_keep P k body (fun i hi => hP i (Nat.lt_succ_of_lt hi)) s hs
    by_cases h : i0 = k
    · subst h
      exact hhit _ hPk
    · exact hQ k (Nat.lt_succ_self k) _ hPk
        (ih (by omega) (fun i hi => hP i (Nat.lt_succ_of_lt hi))
          (fun i hi => hQ i (Nat.lt_succ_of_lt hi)))

/-- The flat index of entry `((i, k), (j, l))` of a Kronecker product determines
`i`, `j`, `k` and `l`. -/
theorem kron_idx_inj (rB cA cB i j k l i' j' k' l' : Nat) (hj : j < cA) (hk : k < rB)
    (hl : l < cB) (hj' : j' < cA) (hk' : k' < rB) (hl' : l' < cB)
    (h : (i * rB + k) * (cA * cB) + (j * cB + l) = (i' * rB + k') * (cA * cB) + (j' * cB + l')) :
    i = i' ∧ j = j' ∧ k = k' ∧ l = l' := by
  have hc : ∀ a b, a < cA → b < cB → a * cB + b < cA * cB := by
    intro a b ha hb
    have h1 : a * cB + cB ≤ cA * cB := by
      have h2 := Nat.mul_le_mul_right cB (Nat.succ_le_of_lt ha)
      rwa [Nat.succ_mul] at h2
    omega
  obtain ⟨h1, h2⟩ := (idx_inj (cA * cB) _ _ _ _ (hc j l hj hl) (hc j' l' hj' hl')).1 h
  obtain ⟨h3, h4⟩ := (idx_inj rB _ _ _ _ hk hk').1 h1
  obtain ⟨h5, h6⟩ := (idx_inj cB _ _ _ _ hl hl').1 h2
  exact ⟨h3, h5, h4, h6⟩

theorem kron_idx_lt (rA rB cA cB i j k l : Nat) (hi : i < rA) (hj : j < cA) (hk : k < rB)
    (hl : l < cB) : (i * rB + k) * (cA * cB) + (j * cB + l) < (rA * rB) * (cA * cB) := by
  have h1 : j * cB + l < cA * cB := by
    have h2 := Nat.mul_le_mul_right cB (Nat.succ_le_of_lt hj)
    rw [Nat.succ_mul] at h2
    omega
  have h3 : i * rB + k < rA * rB := by
    have h2 := Nat.mul_le_mul_right rB (Nat.succ_le_of_lt hi)
    rw [Nat.succ_mul] at h2
    omega
  have h4 : (i * rB + k) * (cA * cB) + cA * cB ≤ (rA * rB) * (cA * cB) := by
    have h2 := Nat.mul_le_mul_right (cA * cB) (Nat.succ_le_of_lt h3)
    rwa [Nat.succ_mul] at h2
  omega

theorem kronecker_length [Zero α] [Mul α] (A : List α) (rA cA : Nat) (B : List α) (rB cB : Nat)
    (res : List α) : (MatrixMult.kronecker A rA cA B rB cB res).length = res.length := by
  unfold MatrixMult.kronecker
  apply length_forLoop; intro i r
  apply length_forLoop; intro j r
  apply length_forLoop; intro k r
  apply length_forLoop; intro l r
  simp

/-- Entry `((i, k), (j, l))` of the matrix written by `kronecker`. -/
theorem kronecker_getD [Zero α] [Mul α] (A : List α) (rA cA : Nat) (B : List α) (rB cB : Nat)
    (res : List α) (hres : res.length = (rA * rB) * (cA * cB))
    (i j k l : Nat) (hi : i < rA) (hj : j < cA) (hk : k < rB) (hl : l < cB) :
    (MatrixMult.kronecker A rA cA B rB cB res).getD
        ((i * rB + k) * (cA * cB) + (j * cB + l)) 0 =
      A.getD (i * cA + j) 0 * B.getD (k * cB + l) 0 := by
  unfold MatrixMult.kronecker
  have hp := kron_idx_lt rA rB cA cB i j k l hi hj hk hl
  -- the two properties threaded through the four loops
  let P : List α → Prop := fun M => M.length = (rA * rB) * (cA * cB)
  let Q : List α → Prop := fun M =>
    M.getD ((i * rB + k) * (cA * cB) + (j * cB + l)) 0 =
      A.getD (i * cA + j) 0 * B.getD (k * cB + l) 0
  -- one store
  have stP : ∀ i' j' k' l' (M : List α), P M →
      P (M.set ((i' * rB + k') * (cA * cB) + (j' * cB + l'))
        (A.getD (i' * cA + j') 0 * B.getD (k' * cB + l') 0)) := by
    intro i' j' k' l' M hM
    show (M.set _ _).length = _
    rw [List.length_set]; exact hM
  have stQ : ∀ i' j' k' l', j' < cA → k' < rB → l' < cB → ∀ (M : List α), P M → Q M →
      Q (M.set ((i' * rB + k') * (cA * cB) + (j' * cB + l'))
        (A.getD (i' * cA + j') 0 * B.getD (k' * cB + l') 0)) := by
    intro i' j' k' l' hj' hk' hl' M hM hQM
    show (M.set _ _).getD _ 0 = _
    rw [getD_set _ _ _ _ _ (by rw [hM]; exact hp)]
    by_cases h : (i' * rB + k') * (cA * cB) + (j' * cB + l') =
        (i * rB + k) * (cA * cB) + (j * cB + l)
    · obtain ⟨h1, h2, h3, h4⟩ := kron_idx_inj rB cA cB _ _ _ _ _ _ _ _ hj' hk' hl' hj hk hl h
      rw [if_pos h, h1, h2, h3, h4]
    · rw [if_neg h]; exact hQM
  have stHit : ∀ (M : List α), P M →
      Q (M.set ((i * rB + k) * (cA * cB) + (j * cB + l))
        (A.getD (i * cA + j) 0 * B.getD (k * cB + l) 0)) := by
    intro M hM
    show (M.set _ _).getD _ 0 = _
    rw [getD_set_eq _ _ _ _ (by rw [hM]; exact hp)]
  -- the loop over l
  have lP : ∀ i' j' k' (M : List α), P M → P (forLoop cB (fun l' result =>
      result.set ((i' * rB + k') * (cA * cB) + (j' * cB + l'))
        (A.getD (i' * cA + j') 0 * B.getD (k' * cB + l') 0)) M) :=
    fun i' j' k' M hM => forLoop_keep P cB _ (fun l' _ s hs => stP i' j' k' l' s hs) M hM
  have lQ : ∀ i' j' k', j' < cA → k' < rB → ∀ (M : List α), P M → Q M →
      Q (forLoop cB (fun l' result =>
        result.set ((i' * rB + k') * (cA * cB) + (j' * cB + l'))
          (A.getD (i' * cA + j') 0 * B.getD (k' * cB + l') 0)) M) := by
    intro i' j' k' hj' hk' M hM hQM
    exact (forLoop_keep (fun s => P s ∧ Q s) cB _
      (fun l' hl' s hs => ⟨stP i' j' k' l' s hs.1, stQ i' j' k' l' hj' hk' hl' s hs.1 hs.2⟩)
      M ⟨hM, hQM⟩).2
  have lHit : ∀ (M : List α), P M → Q (forLoop cB (fun l' result =>
      result.set ((i * rB + k) * (cA * cB) + (j * cB + l'))
        (A.getD (i * cA + j) 0 * B.getD (k * cB + l') 0)) M) :=
    fun M hM => forLoop_hit P Q cB _ l hl (fun l' _ s hs => stP i j k l' s hs)
      stHit (fun l' hl' s hs hq => stQ i j k l' hj hk hl' s hs hq) M hM
  -- the loop over k
  have kP : ∀ i' j' (M : List α), P M → P (forLoop rB (fun k' result =>
      forLoop cB (fun l' result =>
        result.set ((i' * rB + k') * (cA * cB) + (j' * cB + l'))
          (A.getD (i' * cA + j') 0 * B.getD (k' * cB + l') 0)) result) M) :=
    fun i' j' M hM => forLoop_keep P rB _ (fun k' _ s hs => lP i' j' k' s hs) M hM
  have kQ : ∀ i' j', j' < cA → ∀ (M : List α), P M → Q M →
      Q (forLoop rB (fun k' result =>
        forLoop cB (fun l' result =>
          result.set ((i' * rB + k') * (cA * cB) + (j' * cB + l'))
            (A.getD (i' * cA + j') 0 * B.getD (k' * cB + l') 0)) result) M) := by
    intro i' j' hj' M hM hQM
    exact (forLoop_keep (fun s => P s ∧ Q s) rB _
      (fun k' hk' s hs => ⟨lP i' j' k' s hs.1, lQ i' j' k' hj' hk' s hs.1 hs.2⟩)
      M ⟨hM, hQM⟩).2
  have kHit : ∀ (M : List α), P M → Q (forLoop rB (fun k' result =>
      forLoop cB (fun l' result =>
        result.set ((i * rB + k') * (cA * cB) + (j * cB + l'))
          (A.getD (i * cA + j) 0 * B.getD (k' * cB + l') 0)) result) M) :=
    fun M hM => forLoop_hit P Q rB _ k hk (fun k' _ s hs => lP i j k' s hs)
      lHit (fun k' hk' s hs hq => lQ i j k' hj hk' s hs hq) M hM
  -- the loop over j
  have jP : ∀ i' (M : List α), P M → P (forLoop cA (fun j' result =>
      forLoop rB (fun k' result =>
        forLoop cB (fun l' result =>
          result.set ((i' * rB + k') * (cA * cB) + (j' * cB + l'))
            (A.getD (i' * cA + j') 0 * B.getD (k' * cB + l') 0)) result) result) M) :=
    fun i' M hM => forLoop_keep P cA _ (fun j' _ s hs => kP i' j' s hs) M hM
  have jQ : ∀ i' (M : List α), P M → Q M →
      Q (forLoop cA (fun j' result =>
        forLoop rB (fun k' result =>
          forLoop cB (fun l' result =>
            result.set ((i' * rB + k') * (cA * cB) + (j' * cB + l'))
              (A.getD (i' * cA + j') 0 * B.getD (k' * cB + l') 0)) result) result) M) := by
    intro i' M hM hQM
    exact (forLoop_keep (fun s => P s ∧ Q s) cA _
      (fun j' hj' s hs => ⟨kP i' j' s hs.1, kQ i' j' hj' s hs.1 hs.2⟩)
      M ⟨hM, hQM⟩).2
  have jHit : ∀ (M : List α), P M → Q (forLoop cA (fun j' result =>
      forLoop rB (fun k' result =>
        forLoop cB (fun l' result =>
          result.set ((i * rB + k') * (cA * cB) + (j' * cB + l'))
            (A.getD (i * cA + j') 0 * B.getD (k' * cB + l') 0)) result) result) M) :=
    fun M hM => forLoop_hit P Q cA _ j hj (fun j' _ s hs => kP i j' s hs)
      kHit (fun j' hj' s hs hq => kQ i j' hj' s hs hq) M hM
  -- the loop over i
  exact forLoop_hit P Q rA _ i hi (fun i' _ s hs => jP i' s hs) jHit
    (fun i' _ s hs hq => jQ i' s hs hq) res hres

theorem identity_matrix_length [Zero α] [One α] (d : Nat) :
    (MatrixMult.identity_matrix α d).length = d * d := by
  simp [MatrixMult.identity_matrix]

theorem identity_matrix_getD [Zero α] [One α] (d a b : Nat) (ha : a < d) (hb : b < d) :
    (MatrixMult.identity_matrix α d).getD (a * d + b) 0 = if a = b then 1 else 0 := by
  have hp := idx_lt d a b ha hb
  have hpos : 0 < d := by omega
  have h1 : (a * d + b) / d = a := by
    rw [Nat.mul_comm, Nat.mul_add_div hpos, Nat.div_eq_of_lt hb, Nat.add_zero]
  have h2 : (a * d + b) % d = b := by
    rw [Nat.mul_comm, Nat.mul_add_mod, Nat.mod_eq_of_lt hb]
  rw [List.getD_eq_getElem _ _ (by rw [identity_matrix_length]; exact hp)]
  simp only [MatrixMult.identity_matrix, List.getElem_map, List.getElem_range, h1, h2]

end Kronecker

section KroneckerGate
variable {α : Type}

/-- Bit `t` of `a` is the quotient of `a % 2 ^ (t + 1)` by `2 ^ t`. -/
theorem mod_div_eq_testBit (a t : Nat) :
    a % (2 ^ t * 2) / 2 ^ t = if a.testBit t then 1 else 0 := by
  rw [Nat.mod_mul_right_div_self, Nat.testBit_to_div_mod]
  have h : a / 2 ^ t % 2 < 2 := Nat.mod_lt _ (by decide)
  by_cases h1 : a / 2 ^ t % 2 = 1
  · simp [h1]
  · have h0 : a / 2 ^ t % 2 = 0 := by omega
    simp [h0]

/-- Two indices agree off bit `t` exactly when their parts above and below bit
`t` agree. -/
theorem and_not_eq_iff_div_mod (a b t : Nat) :
    and_not a (1 <<< t) = and_not b (1 <<< t) ↔
      (a / (2 ^ t * 2) = b / (2 ^ t * 2) ∧ a % 2 ^ t = b % 2 ^ t) := by
  rw [and_not_eq_and_not_iff, ← Nat.pow_succ, ← Nat.shiftRight_eq_div_pow,
    ← Nat.shiftRight_eq_div_pow]
  constructor
  · intro h
    constructor
    · apply Nat.eq_of_testBit_eq
      intro j
      rw [Nat.testBit_shiftRight, Nat.testBit_shiftRight]
      exact h _ (by omega)
    · apply Nat.eq_of_testBit_eq
      intro j
      rw [Nat.testBit_mod_two_pow, Nat.testBit_mod_two_pow]
      by_cases hj : j < t
      · rw [h j (by omega)]
      · simp [hj]
  · rintro ⟨h1, h2⟩ j hj
    rcases Nat.lt_or_gt_of_ne hj with hlt | hgt
    · have := congrArg (fun x => x.testBit j) h2
      simpa [Nat.testBit_mod_two_pow, hlt] using this
    · have := congrArg (fun x => x.testBit (j - (t + 1))) h1
      simp only [Nat.testBit_shiftRight] at this
      have e : t + 1 + (j - (t + 1)) = j := by omega
      rwa [e] at this

theorem pow_split (n t : Nat) (ht : t < n) : 2 ^ (n - 1 - t) * (2 * 2 ^ t) = 2 ^ n := by
  have h : n = (n - 1 - t) + (1 + t) := by omega
  conv_rhs => rw [h, Nat.pow_add, Nat.pow_add]

end KroneckerGate

/-! ## The in-place engine: `apply_cnot` -/

section InPlaceCnot
variable {α : Type}

theorem and_not_lt_or_mask (k t : Nat) : and_not k (1 <<< t) < k ||| (1 <<< t) := by
  apply Nat.lt_of_testBit t (testBit_and_not_self k t) (testBit_or_mask_self k t)
  intro j hj
  rw [testBit_and_not, testBit_or_mask]
  have : ¬ (t = j) := by omega
  simp [this]

theorem testBit_and_not_of_ne (i c t : Nat) (hct : c ≠ t) :
    (and_not i (1 <<< t)).testBit c = i.testBit c := by
  rw [testBit_and_not]
  have : ¬ (t = c) := fun h => hct h.symm
  simp [this]

theorem testBit_or_mask_of_ne (i c t : Nat) (hct : c ≠ t) :
    (i ||| (1 <<< t)).testBit c = i.testBit c := by
  rw [testBit_or_mask]
  have : ¬ (t = c) := fun h => hct h.symm
  simp [this]

/-- The state of the in-place `apply_cnot` after the first `j` iterations: a
pair with the control bit set is exchanged exactly while one of its two
members has been visited. -/
theorem apply_cnot_loop [Zero α] (v : List α) (n c t : Nat) (ht : t < n) (hct : c ≠ t)
    (hv : v.length = 2 ^ n) (j : Nat) (hj : j ≤ 2 ^ n) :
    (forLoop j (fun i statevector =>
      if i &&& (1 <<< c) ≠ 0 then
        let target0 := and_not i (1 <<< t)
        let target1 := i ||| (1 <<< t)
        let temp := statevector.getD target0 0
        let statevector := statevector.set target0 (statevector.getD target1 0)
        statevector.set target1 temp
      else
        statevector) v).length = 2 ^ n ∧
    ∀ p, p < 2 ^ n →
      (forLoop j (fun i statevector =>
        if i &&& (1 <<< c) ≠ 0 then
          let target0 := and_not i (1 <<< t)
          let target1 := i ||| (1 <<< t)
          let temp := statevector.getD target0 0
          let statevector := statevector.set target0 (statevector.getD target1 0)
          statevector.set target1 temp
        else
          statevector) v).getD p 0 =
      if p.testBit c = true ∧ and_not p (1 <<< t) < j ∧ j ≤ p ||| (1 <<< t) then
        v.getD (p ^^^ (1 <<< t)) 0
      else v.getD p 0 := by
  induction j with
  | zero =>
    refine ⟨hv, fun p _ => ?_⟩
    have : ¬ (p.testBit c = true ∧ and_not p (1 <<< t) < 0 ∧ 0 ≤ p ||| (1 <<< t)) := by
      rintro ⟨_, h, _⟩; exact Nat.not_lt_zero _ h
    rw [if_neg this]
    rfl
  | succ m ih =>
    obtain ⟨hl, hval⟩ := ih (Nat.le_of_succ_le hj)
    have hm : m < 2 ^ n := hj
    rw [forLoop_succ]
    by_cases hb : m.testBit c = true
    · have hz : ¬ (m &&& (1 <<< c) = 0) := by rw [and_mask_eq_zero]; simp [hb]
      have h0 : and_not m (1 <<< t) < 2 ^ n := and_not_lt m t n hm
      have h1 : m ||| (1 <<< t) < 2 ^ n := or_mask_lt m t n hm ht
      have h01 : and_not m (1 <<< t) < m ||| (1 <<< t) := and_not_lt_or_mask m t
      have hb0 : (and_not m (1 <<< t)).testBit c = true := by
        rw [testBit_and_not_of_ne m c t hct]; exact hb
      have hb1 : (m ||| (1 <<< t)).testBit c = true := by
        rw [testBit_or_mask_of_ne m c t hct]; exact hb
      -- `m` is one of the two members of its pair
      have hmem : m = and_not m (1 <<< t) ∨ m = m ||| (1 <<< t) := by
        cases hbt : m.testBit t
        · left; exact (and_not_eq_self m t hbt).symm
        · right; exact (or_mask_eq_self m t hbt).symm
      simp only [ne_eq, hz, not_false_eq_true, if_true]
      refine ⟨by rw [List.length_set, List.length_set, hl], ?_⟩
      intro p hp
      rw [getD_set _ _ _ _ _ (by rw [List.length_set, hl]; exact hp),
        getD_set _ _ _ _ _ (by rw [hl]; exact hp), hval _ h0, hval _ h1, hval p hp]
      simp only [hb0, hb1, and_not_and_not, and_not_or_mask, or_mask_and_not,
        or_mask_eq_self _ t (testBit_or_mask_self m t), true_and,
        xor_mask_of_clear _ t (testBit_and_not_self m t),
        xor_mask_of_set _ t (testBit_or_mask_self m t)]
      by_cases e1 : m ||| (1 <<< t) = p
      · subst e1
        rw [if_pos rfl]
        simp only [hb1, and_not_or_mask, or_mask_eq_self _ t (testBit_or_mask_self m t),
          true_and, xor_mask_of_set _ t (testBit_or_mask_self m t)]
        rcases hmem with h | h
        · -- `m` is the lower member: it is visited first
          have c1 : ¬ (and_not m (1 <<< t) < m ∧ m ≤ m ||| (1 <<< t)) := by omega
          have c2 : and_not m (1 <<< t) < m + 1 ∧ m + 1 ≤ m ||| (1 <<< t) := by omega
          rw [if_neg c1, if_pos c2]
        · have c1 : and_not m (1 <<< t) < m ∧ m ≤ m ||| (1 <<< t) := by omega
          have c2 : ¬ (and_not m (1 <<< t) < m + 1 ∧ m + 1 ≤ m ||| (1 <<< t)) := by omega
          rw [if_pos c1, if_neg c2]
      · rw [if_neg e1]
        by_cases e0 : and_not m (1 <<< t) = p
        · subst e0
          rw [if_pos rfl]
          simp only [hb0, and_not_and_not, or_mask_and_not, true_and,
            xor_mask_of_clear _ t (testBit_and_not_self m t)]
          rcases hmem with h | h
          · have c1 : ¬ (and_not m (1 <<< t) < m ∧ m ≤ m ||| (1 <<< t)) := by omega
            have c2 : and_not m (1 <<< t) < m + 1 ∧ m + 1 ≤ m ||| (1 <<< t) := by omega
            rw [if_neg c1, if_pos c2]
          · have c1 : and_not m (1 <<< t) < m ∧ m ≤ m ||| (1 <<< t) := by omega
            have c2 : ¬ (and_not m (1 <<< t) < m + 1 ∧ m + 1 ≤ m ||| (1 <<< t)) := by omega
            rw [if_pos c1, if_neg c2]
        · rw [if_neg e0]
          -- `p` is outside the pair of `m`
          have n0 : and_not p (1 <<< t) ≠ m := by
            intro h
            have h' := congrArg (fun x => and_not x (1 <<< t)) h
            simp only [and_not_and_not] at h'
            rcases eq_or_eq_of_and_not_eq p _ t h' with h3 | h3
            · exact e0 h3.symm
            · rw [or_mask_and_not] at h3; exact e1 h3.symm
          have n1 : p ||| (1 <<< t) ≠ m := by
            intro h
            have h' := congrArg (fun x => and_not x (1 <<< t)) h
            simp only [and_not_or_mask] at h'
            rcases eq_or_eq_of_and_not_eq p _ t h' with h3 | h3
            · exact e0 h3.symm
            · rw [or_mask_and_not] at h3; exact e1 h3.symm
          have hiff : (and_not p (1 <<< t) < m + 1 ∧ m + 1 ≤ p ||| (1 <<< t)) ↔
              (and_not p (1 <<< t) < m ∧ m ≤ p ||| (1 <<< t)) := by omega
          simp only [hiff]
    · have hb' : m.testBit c = false := by simpa using hb
      have hz : m &&& (1 <<< c) = 0 := (and_mask_eq_zero m c).2 hb'
      simp only [ne_eq, hz, not_true_eq_false, if_false]
      refine ⟨hl, ?_⟩
      intro p hp
      rw [hval p hp]
      by_cases hpc : p.testBit c = true
      · have n0 : and_not p (1 <<< t) ≠ m := by
          intro h
          rw [← h, testBit_and_not_of_ne p c t hct, hpc] at hb'
          exact Bool.noConfusion hb'
        have n1 : p ||| (1 <<< t) ≠ m := by
          intro h
          rw [← h, testBit_or_mask_of_ne p c t hct, hpc] at hb'
          exact Bool.noConfusion hb'
        have hiff : (and_not p (1 <<< t) < m + 1 ∧ m + 1 ≤ p ||| (1 <<< t)) ↔
            (and_not p (1 <<< t) < m ∧ m ≤ p ||| (1 <<< t)) := by omega
        simp only [hiff]
      · have c1 : ¬ (p.testBit c = true ∧ and_not p (1 <<< t) < m ∧ m ≤ p ||| (1 <<< t)) :=
          fun h => hpc h.1
        have c2 : ¬ (p.testBit c = true ∧ and_not p (1 <<< t) < m + 1 ∧
            m + 1 ≤ p ||| (1 <<< t)) := fun h => hpc h.1
        rw [if_neg c1, if_neg c2]

end InPlaceCnot

/-! ## Array accesses -/

section Accesses

/-- A trace built by appending, in each iteration, indices that satisfy `P`
contains only indices that satisfy `P`. -/
theorem forLoop_append_all (P : Nat → Prop) (n : Nat) (f : Nat → List Nat)
    (h : ∀ i, i < n → ∀ x, x ∈ f i → P x) :
    ∀ x, x ∈ forLoop n (fun i accesses => accesses ++ f i) [] → P x := by
  apply forLoop_keep (fun acc : List Nat => ∀ x, x ∈ acc → P x) n _ _ []
  · intro x hx; exact absurd hx (List.not_mem_nil x)
  · intro i hi acc hacc x hx
    rcases List.mem_append.1 hx with h1 | h1
    · exact hacc x h1
    · exact h i hi x h1

end Accesses

/-! ## Gates on different qubits -/

section Commute
variable {α : Type}

theorem and_not_and_not_comm (k s t : Nat) :
    and_not (and_not k (1 <<< s)) (1 <<< t) = and_not (and_not k (1 <<< t)) (1 <<< s) := by
  apply Nat.eq_of_testBit_eq
  intro j
  simp only [testBit_and_not]
  cases k.testBit j <;> cases decide (s = j) <;> cases decide (t = j) <;> rfl

theorem or_mask_or_mask_comm (k s t : Nat) :
    (k ||| (1 <<< s)) ||| (1 <<< t) = (k ||| (1 <<< t)) ||| (1 <<< s) := by
  apply Nat.eq_of_testBit_eq
  intro j
  simp only [testBit_or_mask]
  cases k.testBit j <;> cases decide (s = j) <;> cases decide (t = j) <;> rfl

theorem and_not_or_mask_comm (k s t : Nat) (hst : s ≠ t) :
    and_not (k ||| (1 <<< s)) (1 <<< t) = and_not k (1 <<< t) ||| (1 <<< s) := by
  apply Nat.eq_of_testBit_eq
  intro j
  simp only [testBit_and_not, testBit_or_mask]
  by_cases h1 : s = j
  · have h2 : ¬ (t = j) := fun h => hst (h1.trans h.symm)
    simp [h1, h2]
  · simp [h1]

/-- Two applications of `tensor_contract` on different qubits, in closed form:
the four amplitudes of the block of `k` weighted by both gates. -/
theorem tensor_contract_twice_getD [Semiring α] (v : List α) (g1 g2 : QuantumGate α)
    (t1 t2 n : Nat) (h1 : t1 < n) (h2 : t2 < n) (h12 : t1 ≠ t2) (hv : v.length = 2 ^ n)
    (k : Nat) (hk : k < 2 ^ n) :
    (tensor_contract (tensor_contract v g1 t1 n).2 g2 t2 n).2.getD k 0 =
      g2.elements (k.testBit t2) false *
        (g1.elements (k.testBit t1) false *
            v.getD (and_not (and_not k (1 <<< t2)) (1 <<< t1)) 0 +
          g1.elements (k.testBit t1) true *
            v.getD (and_not k (1 <<< t2) ||| (1 <<< t1)) 0) +
      g2.elements (k.testBit t2) true *
        (g1.elements (k.testBit t1) false *
            v.getD (and_not (k ||| (1 <<< t2)) (1 <<< t1)) 0 +
          g1.elements (k.testBit t1) true *
            v.getD ((k ||| (1 <<< t2)) ||| (1 <<< t1)) 0) := by
  have hl := tensor_contract_length v g1 t1 n hv
  rw [tensor_contract_getD _ g2 t2 n h2 hl k hk,
    tensor_contract_getD v g1 t1 n h1 hv _ (and_not_lt k t2 n hk),
    tensor_contract_getD v g1 t1 n h1 hv _ (or_mask_lt k t2 n hk h2),
    testBit_and_not_of_ne k t1 t2 h12, testBit_or_mask_of_ne k t1 t2 h12]

end Commute

/-! ## The range of `int` in the dense engines -/

section IntRange
variable {α : Type}

theorem int_value_of_le {x : Nat} (h : x ≤ INT_MAX) : int_value x = some x := by
  unfold int_value
  rw [if_pos h]

theorem int_value_of_lt {x : Nat} (h : INT_MAX < x) : int_value x = none := by
  unfold int_value
  rw [if_neg (Nat.not_le.2 h)]

/-- A square matrix over at most 15 qubits has at most `INT_MAX` entries. -/
theorem matrix_size_le (n : Nat) (h : n ≤ 15) : 2 ^ n * 2 ^ n ≤ INT_MAX := by
  have h1 : 2 ^ n ≤ 2 ^ 15 := Nat.pow_le_pow_right (by decide) h
  have h2 : 2 ^ n * 2 ^ n ≤ 2 ^ 15 * 2 ^ 15 := Nat.mul_le_mul h1 h1
  have h3 : 2 ^ 15 * 2 ^ 15 ≤ INT_MAX := by decide
  exact Nat.le_trans h2 h3

/-- Over 16 qubits and more the number of matrix entries exceeds `INT_MAX`. -/
theorem matrix_size_gt (n : Nat) (h : 16 ≤ n) : INT_MAX < 2 ^ n * 2 ^ n := by
  have h1 : 2 ^ 16 ≤ 2 ^ n := Nat.pow_le_pow_right (by decide) h
  have h2 : 2 ^ 16 * 2 ^ 16 ≤ 2 ^ n * 2 ^ n := Nat.mul_le_mul h1 h1
  have h3 : INT_MAX < 2 ^ 16 * 2 ^ 16 := by decide
  exact Nat.lt_of_lt_of_le h3 h2

/-- The last row-major index of a `d × d` matrix is below `d * d`. -/
theorem last_index_le (d : Nat) : (d - 1) * d + (d - 1) ≤ d * d := by
  cases d with
  | zero => simp
  | succ k =>
    simp only [Nat.add_sub_cancel]
    rw [Nat.add_mul, Nat.one_mul]
    omega

theorem apply_matrix_int_eq [Zero α] [Add α] [Mul α] (v m : List α) (size : Nat)
    (scratch : List α) (h : size * size ≤ INT_MAX) :
    MatrixMult.apply_matrix_int v m size scratch =
      some (MatrixMult.apply_matrix v m size scratch) := by
  unfold MatrixMult.apply_matrix_int
  rw [int_value_of_le (Nat.le_trans (last_index_le size) h)]

theorem create_single_qubit_gate_matrix_int_eq [Zero α] [One α] (buf gate : List α)
    (n t : Nat) (h : 2 ^ n * 2 ^ n ≤ INT_MAX) :
    MatrixMult.create_single_qubit_gate_matrix_int buf gate n t =
      some (MatrixMult.create_single_qubit_gate_matrix buf gate n t) := by
  unfold MatrixMult.create_single_qubit_gate_matrix_int
  simp only [Nat.one_shiftLeft]
  rw [int_value_of_le h]

theorem create_single_qubit_gate_matrix_int_overflow [Zero α] [One α] (buf gate : List α)
    (n t : Nat) (h : INT_MAX < 2 ^ n * 2 ^ n) :
    MatrixMult.create_single_qubit_gate_matrix_int buf gate n t = none := by
  unfold MatrixMult.create_single_qubit_gate_matrix_int
  simp only [Nat.one_shiftLeft]
  rw [int_value_of_lt h]

theorem create_cnot_matrix_int_eq [Zero α] [One α] (buf : List α)
    (n c t : Nat) (h : 2 ^ n * 2 ^ n ≤ INT_MAX) :
    MatrixMult.create_cnot_matrix_int buf n c t =
      some (MatrixMult.create_cnot_matrix buf n c t) := by
  unfold MatrixMult.create_cnot_matrix_int
  simp only [Nat.one_shiftLeft]
  rw [int_value_of_le h]

theorem create_cnot_matrix_int_overflow [Zero α] [One α] (buf : List α)
    (n c t : Nat) (h : INT_MAX < 2 ^ n * 2 ^ n) :
    MatrixMult.create_cnot_matrix_int buf n c t = none := by
  unfold MatrixMult.create_cnot_matrix_int
  simp only [Nat.one_shiftLeft]
  rw [int_value_of_lt h]

/-- With positive dimensions the last index that `kronecker` computes is below
the number of entries of its result. -/
theorem kronecker_last_index_le (rowsA colsA rowsB colsB : Nat)
    (h1 : 0 < rowsA) (h2 : 0 < colsA) (h3 : 0 < rowsB) (h4 : 0 < colsB) :
    ((rowsA - 1) * rowsB + (rowsB - 1)) * (colsA * colsB) +
      ((colsA - 1) * colsB + (colsB - 1)) ≤ (rowsA * rowsB) * (colsA * colsB) := by
  obtain ⟨a, rfl⟩ : ∃ a, rowsA = a + 1 := ⟨rowsA - 1, by omega⟩
  obtain ⟨b, rfl⟩ : ∃ b, rowsB = b + 1 := ⟨rowsB - 1, by omega⟩
  obtain ⟨c, rfl⟩ : ∃ c, colsA = c + 1 := ⟨colsA - 1, by omega⟩
  obtain ⟨d, rfl⟩ : ∃ d, colsB = d + 1 := ⟨colsB - 1, by omega⟩
  simp only [Nat.add_sub_cancel]
  have e1 : (a + 1) * (b + 1) = (a * (b + 1) + b) + 1 := by ring
  have e2 : (c + 1) * (d + 1) = (c * (d + 1) + d) + 1 := by ring
  rw [e1, e2]
  generalize a * (b + 1) + b = X
  generalize c * (d + 1) + d = Y
  have e3 : (X + 1) * (Y + 1) = X * (Y + 1) + Y + 1 := by ring
  rw [e3]
  omega

theorem kronecker_int_eq [Zero α] [Mul α] (A : List α) (rowsA colsA : Nat) (B : List α)
    (rowsB colsB : Nat) (result : List α)
    (h : (rowsA * rowsB) * (colsA * colsB) ≤ INT_MAX) :
    MatrixMult.kronecker_int A rowsA colsA B rowsB colsB result =
      some (MatrixMult.kronecker A rowsA colsA B rowsB colsB result) := by
  unfold MatrixMult.kronecker_int
  rw [if_neg]
  rintro ⟨h1, h2, h3, h4, h5⟩
  have hlast := kronecker_last_index_le rowsA colsA rowsB colsB h1 h2 h3 h4
  have hrow : colsA * colsB ≤ (rowsA * rowsB) * (colsA * colsB) :=
    Nat.le_mul_of_pos_left _ (Nat.mul_pos h1 h3)
  rcases h5 with h5 | h5 <;> omega

theorem create_matrix_int_eq [Zero α] (d : Nat) (h : d * d ≤ INT_MAX) :
    (CMatrixMult.create_matrix_int d : Option (CMatrixMult.Matrix α)) =
      some (CMatrixMult.create_matrix d) := by
  unfold CMatrixMult.create_matrix_int
  rw [int_value_of_le h]

theorem create_matrix_int_overflow [Zero α] (d : Nat) (h : INT_MAX < d * d) :
    (CMatrixMult.create_matrix_int d : Option (CMatrixMult.Matrix α)) = none := by
  unfold CMatrixMult.create_matrix_int
  rw [int_value_of_lt h]

theorem apply_matrix_to_statevector_int_eq [Zero α] [Add α] [Mul α]
    (sv : CMatrixMult.Statevector α) (m : CMatrixMult.Matrix α)
    (h : sv.dimension * sv.dimension ≤ INT_MAX) :
    CMatrixMult.apply_matrix_to_statevector_int sv m =
      some (CMatrixMult.apply_matrix_to_statevector sv m) := by
  unfold CMatrixMult.apply_matrix_to_statevector_int
  rw [int_value_of_le (Nat.le_trans (last_index_le sv.dimension) h)]

theorem full_gate_matrix_int_eq [Zero α] (single_gate : CMatrixMult.Matrix α) (d t : Nat)
    (h : d * d ≤ INT_MAX) :
    CMatrixMult.full_gate_matrix_int single_gate d t =
      some (CMatrixMult.full_gate_matrix single_gate d t) := by
  unfold CMatrixMult.full_gate_matrix_int
  rw [create_matrix_int_eq d h]

theorem full_gate_matrix_int_overflow [Zero α] (single_gate : CMatrixMult.Matrix α) (d t : Nat)
    (h : INT_MAX < d * d) :
    CMatrixMult.full_gate_matrix_int single_gate d t = none := by
  unfold CMatrixMult.full_gate_matrix_int
  rw [create_matrix_int_overflow d h]

theorem cnot_matrix_int_eq [Zero α] [One α] (d c t : Nat) (h : d * d ≤ INT_MAX) :
    (CMatrixMult.cnot_matrix_int d c t : Option (CMatrixMult.Matrix α)) =
      some (CMatrixMult.cnot_matrix d c t) := by
  unfold CMatrixMult.cnot_matrix_int
  rw [create_matrix_int_eq d h]

theorem cnot_matrix_int_overflow [Zero α] [One α] (d c t : Nat) (h : INT_MAX < d * d) :
    (CMatrixMult.cnot_matrix_int d c t : Option (CMatrixMult.Matrix α)) = none := by
  unfold CMatrixMult.cnot_matrix_int
  rw [create_matrix_int_overflow d h]

theorem apply_single_qubit_gate_int_eq [DivisionRing α] (sqrt : α → α)
    (sv : CMatrixMult.Statevector α) (gt : CMatrixMult.GateType) (t : Nat)
    (h : sv.dimension * sv.dimension ≤ INT_MAX) :
    CMatrixMult.apply_single_qubit_gate_int sqrt sv gt t =
      some (CMatrixMult.apply_single_qubit_gate sqrt sv gt t) := by
  unfold CMatrixMult.apply_single_qubit_gate_int CMatrixMult.apply_single_qubit_gate
  simp only [full_gate_matrix_int_eq _ _ _ h, apply_matrix_to_statevector_int_eq _ _ h]

theorem apply_single_qubit_gate_int_overflow [DivisionRing α] (sqrt : α → α)
    (sv : CMatrixMult.Statevector α) (gt : CMatrixMult.GateType) (t : Nat)
    (h : INT_MAX < sv.dimension * sv.dimension) :
    CMatrixMult.apply_single_qubit_gate_int sqrt sv gt t = none := by
  unfold CMatrixMult.apply_single_qubit_gate_int
  simp only [full_gate_matrix_int_overflow _ _ _ h]

theorem apply_cnot_int_eq [Zero α] [One α] [Add α] [Mul α]
    (sv : CMatrixMult.Statevector α) (c t : Nat)
    (h : sv.dimension * sv.dimension ≤ INT_MAX) :
    CMatrixMult.apply_cnot_int sv c t = some (CMatrixMult.apply_cnot sv c t) := by
  unfold CMatrixMult.apply_cnot_int CMatrixMult.apply_cnot
  simp only [cnot_matrix_int_eq _ _ _ h, apply_matrix_to_statevector_int_eq _ _ h]

theorem apply_matrix_to_statevector_dimension [Zero α] [Add α] [Mul α]
    (sv : CMatrixMult.Statevector α) (m : CMatrixMult.Matrix α) :
    (CMatrixMult.apply_matrix_to_statevector sv m).dimension = sv.dimension := rfl

theorem apply_single_qubit_gate_dimension [DivisionRing α] (sqrt : α → α)
    (sv : CMatrixMult.Statevector α) (gt : CMatrixMult.GateType) (t : Nat) :
    (CMatrixMult.apply_single_qubit_gate sqrt sv gt t).dimension = sv.dimension := rfl

theorem run_circuit_test_int_eq [DivisionRing α] (sqrt : α → α) (n : Nat) (h : n ≤ 15) :
    (CMatrixMult.run_circuit_test_int sqrt n : Option (CMatrixMult.Statevector α)) =
      CMatrixMult.run_circuit_test sqrt n := by
  have hd := matrix_size_le n h
  unfold CMatrixMult.run_circuit_test_int CMatrixMult.run_circuit_test
  simp only [CMatrixMult.create_statevector, calloc]
  rw [apply_single_qubit_gate_int_eq sqrt _ _ _ (by simpa [Nat.one_shiftLeft] using hd)]
  simp only []
  rw [apply_single_qubit_gate_int_eq sqrt _ _ _ (by
    rw [apply_single_qubit_gate_dimension]; simpa [Nat.one_shiftLeft] using hd)]
  simp only []
  rw [apply_cnot_int_eq _ _ _ (by
    rw [apply_single_qubit_gate_dimension, apply_single_qubit_gate_dimension]
    simpa [Nat.one_shiftLeft] using hd)]

theorem run_circuit_test_int_overflow [DivisionRing α] (sqrt : α → α) (n : Nat) (h : 16 ≤ n) :
    (CMatrixMult.run_circuit_test_int sqrt n : Option (CMatrixMult.Statevector α)) = none := by
  have hd := matrix_size_gt n h
  unfold CMatrixMult.run_circuit_test_int
  simp only [CMatrixMult.create_statevector, calloc]
  rw [apply_single_qubit_gate_int_overflow sqrt _ _ _ (by simpa [Nat.one_shiftLeft] using hd)]

theorem run_test_int_eq [DivisionRing α] (sqrt : α → α) (heap : Nat → List α) (n : Nat)
    (h : n ≤ 15) :
    MatrixMult.run_test_int sqrt heap n = some (MatrixMult.run_test sqrt heap n) := by
  have hd := matrix_size_le n h
  unfold MatrixMult.run_test_int MatrixMult.run_test
  simp only [Nat.one_shiftLeft, int_value_of_le hd,
    create_single_qubit_gate_matrix_int_eq _ _ _ _ hd, create_cnot_matrix_int_eq _ _ _ _ hd,
    apply_matrix_int_eq _ _ _ _ hd]

theorem run_test_int_overflow [DivisionRing α] (sqrt : α → α) (heap : Nat → List α) (n : Nat)
    (h : 16 ≤ n) :
    MatrixMult.run_test_int sqrt heap n = none := by
  have hd := matrix_size_gt n h
  unfold MatrixMult.run_test_int
  simp only [Nat.one_shiftLeft, int_value_of_lt hd]

end IntRange

/-! ## Allocation failure in the tensor_mult engine -/

section Alloc
variable {α : Type}

theorem tensor_contract_alloc_true [Zero α] [Add α] [Mul α] (v : List α) (g : QuantumGate α)
    (t n : Nat) : tensor_contract_alloc true v g t n = tensor_contract v g t n := rfl

theorem tensor_contract_alloc_false [Zero α] [Add α] [Mul α] (v : List α) (g : QuantumGate α)
    (t n : Nat) : tensor_contract_alloc false v g t n = (false, v) := rfl

theorem apply_single_qubit_gate_alloc_true [Zero α] [Add α] [Mul α] (sv : Option (List α))
    (g : QuantumGate α) (n t : Int) :
    apply_single_qubit_gate_alloc true sv g n t = apply_single_qubit_gate sv g n t := by
  cases sv <;> rfl

theorem apply_single_qubit_gate_alloc_invalid [Zero α] [Add α] [Mul α] (alloc_ok : Bool)
    (v : List α) (g : QuantumGate α) (n t : Int) (h : validate_single_qubit n t = false) :
    apply_single_qubit_gate_alloc alloc_ok (some v) g n t = (false, some v) := by
  simp [apply_single_qubit_gate_alloc, h]

theorem apply_single_qubit_gate_alloc_false [Zero α] [Add α] [Mul α]
    (v : List α) (g : QuantumGate α) (n t : Int) :
    apply_single_qubit_gate_alloc false (some v) g n t = (false, some v) := by
  cases h : validate_single_qubit n t
  · exact apply_single_qubit_gate_alloc_invalid false v g n t h
  · simp [apply_single_qubit_gate_alloc, h, tensor_contract_alloc_false]

theorem apply_cnot_gate_alloc_true [Zero α] (sv : Option (List α)) (n c t : Int) :
    apply_cnot_gate_alloc true sv n c t = apply_cnot_gate sv n c t := by
  cases sv <;> rfl

theorem apply_cnot_gate_alloc_invalid [Zero α] (alloc_ok : Bool) (v : List α) (n c t : Int)
    (h : validate_qubit_indices n c t = false) :
    apply_cnot_gate_alloc alloc_ok (some v) n c t = (false, some v) := by
  simp [apply_cnot_gate_alloc, h]

theorem apply_cnot_gate_alloc_false [Zero α] (v : List α) (n c t : Int) :
    apply_cnot_gate_alloc false (some v) n c t = (false, some v) := by
  cases h : validate_qubit_indices n c t
  · exact apply_cnot_gate_alloc_invalid false v n c t h
  · simp [apply_cnot_gate_alloc, h, calloc_outcome]

end Alloc

/-! ## The loops of the dense builders -/

section DenseLoops

/-- The loops of `create_single_qubit_gate_matrix` leave the same buffer as the
loops of `kronecker(I_(2^(n-1-t)), kronecker(g, I_(2^t)))`. -/
theorem gate_matrix_eq_kronecker_loops {α : Type} [Semiring α] (n t : Nat) (g : QuantumGate α)
    (buf b1 b2 : List α) (ht : t < n) (hbuf : buf.length = 2 ^ n * 2 ^ n)
    (hb1 : b1.length = (2 * 2 ^ t) * (2 * 2 ^ t)) (hb2 : b2.length = 2 ^ n * 2 ^ n) :
    MatrixMult.create_single_qubit_gate_matrix buf g.toList n t =
      MatrixMult.kronecker (MatrixMult.identity_matrix α (2 ^ (n - 1 - t)))
        (2 ^ (n - 1 - t)) (2 ^ (n - 1 - t))
        (MatrixMult.kronecker g.toList 2 2 (MatrixMult.identity_matrix α (2 ^ t))
          (2 ^ t) (2 ^ t) b1)
        (2 * 2 ^ t) (2 * 2 ^ t) b2 := by
  have hsplit := pow_split n t ht
  have hT : 0 < 2 ^ t := Nat.pos_of_ne_zero (by positivity)
  have h2T : 0 < 2 * 2 ^ t := by omega
  have hN : 0 < 2 ^ n := Nat.pos_of_ne_zero (by positivity)
  apply list_ext_getD 0
  · rw [create_single_qubit_gate_matrix_length, kronecker_length, hbuf, hb2]
  · intro p hp
    rw [create_single_qubit_gate_matrix_length, hbuf] at hp
    -- split the flat index into row `a` and column `b`
    have ha : p / 2 ^ n < 2 ^ n := Nat.div_lt_of_lt_mul hp
    have hb : p % 2 ^ n < 2 ^ n := Nat.mod_lt _ hN
    have hpab : p = (p / 2 ^ n) * 2 ^ n + p % 2 ^ n := (Nat.div_add_mod' _ _).symm
    generalize p / 2 ^ n = a at ha hpab
    generalize p % 2 ^ n = b at hb hpab
    subst hpab
    rw [create_single_qubit_gate_matrix_getD buf g n t hbuf a b ha hb]
    -- split rows and columns into the three tensor factors
    have hia : a / (2 * 2 ^ t) < 2 ^ (n - 1 - t) :=
      Nat.div_lt_of_lt_mul (by rw [Nat.mul_comm, hsplit]; exact ha)
    have hib : b / (2 * 2 ^ t) < 2 ^ (n - 1 - t) :=
      Nat.div_lt_of_lt_mul (by rw [Nat.mul_comm, hsplit]; exact hb)
    have hka : a % (2 * 2 ^ t) < 2 * 2 ^ t := Nat.mod_lt _ h2T
    have hkb : b % (2 * 2 ^ t) < 2 * 2 ^ t := Nat.mod_lt _ h2T
    have hra : a % (2 * 2 ^ t) / 2 ^ t < 2 :=
      Nat.div_lt_of_lt_mul (by rw [Nat.mul_comm (2 ^ t) 2]; exact hka)
    have hrb : b % (2 * 2 ^ t) / 2 ^ t < 2 :=
      Nat.div_lt_of_lt_mul (by rw [Nat.mul_comm (2 ^ t) 2]; exact hkb)
    have hsa : a % (2 * 2 ^ t) % 2 ^ t < 2 ^ t := Nat.mod_lt _ hT
    have hsb : b % (2 * 2 ^ t) % 2 ^ t < 2 ^ t := Nat.mod_lt _ hT
    have ea : a = a / (2 * 2 ^ t) * (2 * 2 ^ t) + a % (2 * 2 ^ t) :=
      (Nat.div_add_mod' _ _).symm
    have eb : b = b / (2 * 2 ^ t) * (2 * 2 ^ t) + b % (2 * 2 ^ t) :=
      (Nat.div_add_mod' _ _).symm
    have eka : a % (2 * 2 ^ t) = a % (2 * 2 ^ t) / 2 ^ t * 2 ^ t + a % (2 * 2 ^ t) % 2 ^ t :=
      (Nat.div_add_mod' _ _).symm
    have ekb : b % (2 * 2 ^ t) = b % (2 * 2 ^ t) / 2 ^ t * 2 ^ t + b % (2 * 2 ^ t) % 2 ^ t :=
      (Nat.div_add_mod' _ _).symm
    have hidx : a * 2 ^ n + b =
        (a / (2 * 2 ^ t) * (2 * 2 ^ t) + a % (2 * 2 ^ t)) * (2 ^ (n - 1 - t) * (2 * 2 ^ t)) +
          (b / (2 * 2 ^ t) * (2 * 2 ^ t) + b % (2 * 2 ^ t)) := by
      rw [← ea, ← eb, hsplit]
    have hidx1 : a % (2 * 2 ^ t) * (2 * 2 ^ t) + b % (2 * 2 ^ t) =
        (a % (2 * 2 ^ t) / 2 ^ t * 2 ^ t + a % (2 * 2 ^ t) % 2 ^ t) * (2 * 2 ^ t) +
          (b % (2 * 2 ^ t) / 2 ^ t * 2 ^ t + b % (2 * 2 ^ t) % 2 ^ t) := by
      rw [← eka, ← ekb]
    rw [hidx, kronecker_getD _ _ _ _ _ _ _ (by rw [hb2, hsplit]) _ _ _ _ hia hib hka hkb,
      identity_matrix_getD _ _ _ hia hib, hidx1,
      kronecker_getD _ _ _ _ _ _ _ hb1 _ _ _ _ hra hrb hsa hsb,
      identity_matrix_getD _ _ _ hsa hsb]
    -- compare with the bit description
    have em : 2 * 2 ^ t = 2 ^ t * 2 := Nat.mul_comm _ _
    rw [em, Nat.mod_mul_right_mod, Nat.mod_mul_right_mod, mod_div_eq_testBit,
      mod_div_eq_testBit, toList_getD]
    by_cases h : and_not a (1 <<< t) = and_not b (1 <<< t)
    · obtain ⟨h1, h2⟩ := (and_not_eq_iff_div_mod a b t).1 h
      rw [if_pos h, if_pos h1, if_pos h2, one_mul, mul_one]
    · rw [if_neg h]
      by_cases h1 : a / (2 ^ t * 2) = b / (2 ^ t * 2)
      · have h2 : ¬ (a % 2 ^ t = b % 2 ^ t) :=
          fun h2 => h ((and_not_eq_iff_div_mod a b t).2 ⟨h1, h2⟩)
        rw [if_neg h2, mul_zero, mul_zero]
      · rw [if_neg h1, zero_mul]

/-- With `n ≤ target` the loops of either dense builder leave `g00` times the
identity, and the matrix-vector loops then scale every amplitude by `g00`. -/
theorem out_of_range_target_loops {α : Type} [DivisionRing α] (sqrt : α → α)
    (n target : Nat) (g : QuantumGate α) (v buf scratch : List α)
    (hnt : n ≤ target) (hv : v.length = 2 ^ n)
    (hbuf : buf.length = 2 ^ n * 2 ^ n) (hs : scratch.length = 2 ^ n) :
    (∀ i j, i < 2 ^ n → j < 2 ^ n →
      (MatrixMult.create_single_qubit_gate_matrix buf g.toList n target).getD (i * 2 ^ n + j) 0
        = (if i = j then g.e00 else 0) ∧
      (CMatrixMult.full_gate_matrix ⟨g.toList, 2⟩ (2 ^ n) target).data.getD (i * 2 ^ n + j) 0
        = (if i = j then g.e00 else 0)) ∧
    (∀ k, k < 2 ^ n →
      (MatrixMult.apply_matrix v
        (MatrixMult.create_single_qubit_gate_matrix buf g.toList n target) (1 <<< n) scratch
        ).getD k 0 = g.e00 * v.getD k 0 ∧
      (CMatrixMult.apply_matrix_to_statevector ⟨v, n, 1 <<< n⟩
        (CMatrixMult.full_gate_matrix ⟨g.toList, 2⟩ (1 <<< n) target)).data.getD k 0
        = g.e00 * v.getD k 0) ∧
    (∀ k, k < 2 ^ n →
      (MatrixMult.apply_matrix v
        (MatrixMult.create_single_qubit_gate_matrix buf [0, 1, 1, 0] n target) (1 <<< n) scratch
        ).getD k 0 = 0 ∧
      (CMatrixMult.apply_single_qubit_gate sqrt ⟨v, n, 1 <<< n⟩ .GATE_X target).data.getD k 0
        = 0) := by
  have hgen : ∀ (g : QuantumGate α) (k : Nat), k < 2 ^ n →
      (MatrixMult.apply_matrix v
        (MatrixMult.create_single_qubit_gate_matrix buf g.toList n target) (1 <<< n) scratch
        ).getD k 0 = g.e00 * v.getD k 0 ∧
      (CMatrixMult.apply_matrix_to_statevector ⟨v, n, 1 <<< n⟩
        (CMatrixMult.full_gate_matrix ⟨g.toList, 2⟩ (1 <<< n) target)).data.getD k 0
        = g.e00 * v.getD k 0 := by
    intro g k hk
    rw [Nat.one_shiftLeft n, apply_gate_matrix_eq n target g v buf scratch hv hbuf hs,
      apply_full_gate_eq n target 2 g ⟨v, n, 2 ^ n⟩ rfl hv,
      tensor_contract_getD_of_le v g target n hnt hv k hk]
    exact ⟨rfl, rfl⟩
  refine ⟨?_, hgen g, ?_⟩
  · intro i j hi hj
    rw [create_single_qubit_gate_matrix_getD buf g n target hbuf i j hi hj,
      full_gate_matrix_getD g 2 (2 ^ n) target i j hi hj,
      testBit_of_lt_of_le i n target hi hnt, testBit_of_lt_of_le j n target hj hnt]
    by_cases h : i = j
    · rw [if_pos ((and_not_eq_iff_of_le i j n target hi hj hnt).2 h), if_pos h]
      exact ⟨rfl, rfl⟩
    · rw [if_neg (fun h' => h ((and_not_eq_iff_of_le i j n target hi hj hnt).1 h')), if_neg h]
      exact ⟨rfl, rfl⟩
  · intro k hk
    have hx := hgen get_x_gate k hk
    unfold CMatrixMult.apply_single_qubit_gate
    rw [create_single_qubit_gate_x]
    have e00 : (get_x_gate : QuantumGate α).e00 = 0 := rfl
    have hl : (get_x_gate : QuantumGate α).toList = [0, 1, 1, 0] := rfl
    rw [hl, e00, zero_mul] at hx
    exact ⟨hx.1, by rw [hl]; exact hx.2⟩

end DenseLoops

/-! ## The claims -/

/-- **C1 (as stated, refuted).** At `n = 16` the dense engine has no result: its
matrix has `2 ^ 32` entries and the loop bound `dim * dim` of
`create_single_qubit_gate_matrix` overflows `int`, whereas `tensor_contract`
succeeds on the same state. -/
theorem tensor_contract_eq_dense_overflow :
    INT_MAX < (1 <<< 16) * (1 <<< 16) ∧
    (tensor_contract (List.replicate (2 ^ 16) (0 : ℤ)) ⟨0, 1, 1, 0⟩ 0 16).1 = true ∧
    (MatrixMult.create_single_qubit_gate_matrix_int (List.replicate (2 ^ 16 * 2 ^ 16) (0 : ℤ))
        (QuantumGate.toList ⟨0, 1, 1, 0⟩) 16 0).bind
      (fun matrix => MatrixMult.apply_matrix_int (List.replicate (2 ^ 16) 0) matrix (1 <<< 16)
        (List.replicate (2 ^ 16) 0)) = none := by
  refine ⟨by decide, tensor_contract_fst _ _ _ _, ?_⟩
  rw [create_single_qubit_gate_matrix_int_overflow _ _ 16 0 (by decide)]
  rfl

/-- **C1 (amended).** For `1 ≤ n ≤ 15`, `target < n`, every gate and every state of
length `2 ^ n`, `tensor_contract` succeeds and leaves exactly the vector that
the dense engine computes by building the full matrix with
`create_single_qubit_gate_matrix` and applying it with `apply_matrix`, both
within the range of `int` (whatever the initial content of the two `malloc`ed
buffers).  The bound `target < n` keeps every index that the C code touches
inside its buffer; the bound `n ≤ 15` keeps the `2 ^ n * 2 ^ n` matrix indices
inside `int`. -/
theorem tensor_contract_eq_dense {α : Type} [Semiring α] (n target : Nat) (g : QuantumGate α)
    (v buf scratch : List α) (hn : 1 ≤ n) (hn15 : n ≤ 15) (ht : target < n)
    (hv : v.length = 2 ^ n) (hbuf : buf.length = 2 ^ n * 2 ^ n)
    (hs : scratch.length = 2 ^ n) :
    (tensor_contract v g target n).1 = true ∧
    (MatrixMult.create_single_qubit_gate_matrix_int buf g.toList n target).bind
        (fun matrix => MatrixMult.apply_matrix_int v matrix (1 <<< n) scratch) =
      some (tensor_contract v g target n).2 := by
  have hd := matrix_size_le n hn15
  refine ⟨tensor_contract_fst v g target n, ?_⟩
  rw [create_single_qubit_gate_matrix_int_eq buf g.toList n target hd, Option.some_bind,
    apply_matrix_int_eq _ _ _ _ (by rw [Nat.one_shiftLeft]; exact hd)]
  congr 1
  symm
  apply list_ext_getD 0
  · rw [tensor_contract_length v g target n hv, apply_matrix_length, hv]
  · intro k hk
    rw [tensor_contract_length v g target n hv] at hk
    rw [tensor_contract_getD_sum v g target n hv k hk, Nat.one_shiftLeft n,
      apply_matrix_getD _ _ _ _ hv hs k hk]
    apply Finset.sum_congr rfl
    intro i hi
    rw [create_single_qubit_gate_matrix_getD buf g n target hbuf k i hk (Finset.mem_range.1 hi)]
    by_cases h : and_not i (1 <<< target) = and_not k (1 <<< target)
    · rw [if_pos h, if_pos h.symm]
    · rw [if_neg h, if_neg (fun h' => h h'.symm), zero_mul]

/-- Instance of C1 on two qubits with target 1. -/
theorem tensor_contract_eq_dense_witness :
    (tensor_contract [1, 2, 3, (4 : ℤ)] ⟨5, 6, 7, 8⟩ 1 2).1 = true ∧
    (MatrixMult.create_single_qubit_gate_matrix_int (List.replicate 16 (9 : ℤ))
        (QuantumGate.toList ⟨5, 6, 7, 8⟩) 2 1).bind
        (fun matrix => MatrixMult.apply_matrix_int [1, 2, 3, (4 : ℤ)] matrix (1 <<< 2)
          [0, 0, 0, 0]) =
      some (tensor_contract [1, 2, 3, (4 : ℤ)] ⟨5, 6, 7, 8⟩ 1 2).2 :=
  tensor_contract_eq_dense 2 1 ⟨5, 6, 7, 8⟩ [1, 2, 3, 4] (List.replicate 16 9) [0, 0, 0, 0]
    (by decide) (by decide) (by decide) (by decide) (by decide) (by decide)

/-- **C2 (the code at a failing input).** With `n = 2`, control 0 and target 1
the in-place `apply_cnot` returns the state `[0, 1, 0, 0]` unchanged: index 1
has its control bit set, yet its amplitude is not the old amplitude of index
`1 XOR 2 = 3`, and index 3 does not receive the old amplitude of index 1. -/
theorem apply_cnot_in_place_double_swap :
    QubitManipulation.apply_cnot [0, 1, 0, (0 : ℤ)] 2 0 1 = [0, 1, 0, 0] ∧
    (QubitManipulation.apply_cnot [0, 1, 0, (0 : ℤ)] 2 0 1).getD 1 0 ≠
      ([0, 1, 0, (0 : ℤ)]).getD (1 ^^^ (1 <<< 1)) 0 ∧
    (QubitManipulation.apply_cnot [0, 1, 0, (0 : ℤ)] 2 0 1).getD 3 0 ≠
      ([0, 1, 0, (0 : ℤ)]).getD (3 ^^^ (1 <<< 1)) 0 ∧
    apply_cnot_gate (some [0, 1, 0, (0 : ℤ)]) 2 0 1 = (true, some [0, 0, 0, 1]) := by
  decide

/-- **C3 (as stated, refuted).** At `n = 16` the dense engine has no result: the
loop bound `dim * dim` of `create_cnot_matrix` overflows `int`, whereas
`apply_cnot_gate` accepts the same call. -/
theorem apply_cnot_gate_eq_dense_overflow :
    INT_MAX < (1 <<< 16) * (1 <<< 16) ∧
    (apply_cnot_gate (some (List.replicate (2 ^ 16) (0 : ℤ))) 16 0 1).1 = true ∧
    (MatrixMult.create_cnot_matrix_int (List.replicate (2 ^ 16 * 2 ^ 16) (0 : ℤ)) 16 0 1).bind
      (fun matrix => MatrixMult.apply_matrix_int (List.replicate (2 ^ 16) 0) matrix (1 <<< 16)
        (List.replicate (2 ^ 16) 0)) = none := by
  refine ⟨by decide, ?_, ?_⟩
  · rw [apply_cnot_gate_fst]
    decide
  · rw [create_cnot_matrix_int_overflow _ 16 0 1 (by decide)]
    rfl

/-- **C3 (amended).** For `2 ≤ n ≤ 15` and distinct `control`, `target` below `n`,
on every state of length `2 ^ n` the routine `apply_cnot_gate` of the
tensor_mult engine succeeds and leaves exactly the vector that the dense engine
computes, within the range of `int`, by building `create_cnot_matrix` and
applying it with `apply_matrix`. -/
theorem apply_cnot_gate_eq_dense {α : Type} [Semiring α] (n control target : Nat)
    (v buf scratch : List α) (hn : 2 ≤ n) (hn15 : n ≤ 15) (hc : control < n) (ht : target < n)
    (hct : control ≠ target) (hv : v.length = 2 ^ n)
    (hbuf : buf.length = 2 ^ n * 2 ^ n) (hs : scratch.length = 2 ^ n) :
    ∃ w : List α,
      apply_cnot_gate (some v) (n : Int) (control : Int) (target : Int) = (true, some w) ∧
      (MatrixMult.create_cnot_matrix_int buf n control target).bind
        (fun matrix => MatrixMult.apply_matrix_int v matrix (1 <<< n) scratch) = some w := by
  have hd := matrix_size_le n hn15
  obtain ⟨w, hw, hlen, hget⟩ := apply_cnot_gate_valid v n control target hc ht hct hv
  refine ⟨w, hw, ?_⟩
  rw [create_cnot_matrix_int_eq buf n control target hd, Option.some_bind,
    apply_matrix_int_eq _ _ _ _ (by rw [Nat.one_shiftLeft]; exact hd)]
  congr 1
  symm
  apply list_ext_getD 0
  · rw [hlen, apply_matrix_length, hv]
  · intro k hk
    rw [hlen] at hk
    rw [hget k hk, Nat.one_shiftLeft n,
      apply_cnot_matrix_getD v buf scratch n control target ht hv hbuf hs k hk]

/-- Instance of C3 on two qubits with control 0 and target 1. -/
theorem apply_cnot_gate_eq_dense_witness :
    ∃ w : List ℤ,
      apply_cnot_gate (some [1, 2, 3, (4 : ℤ)]) ((2 : Nat) : Int) ((0 : Nat) : Int)
        ((1 : Nat) : Int) = (true, some w) ∧
      (MatrixMult.create_cnot_matrix_int (List.replicate 16 (9 : ℤ)) 2 0 1).bind
        (fun matrix => MatrixMult.apply_matrix_int [1, 2, 3, (4 : ℤ)] matrix (1 <<< 2)
          [7, 7, 7, 7]) = some w :=
  apply_cnot_gate_eq_dense 2 0 1 [1, 2, 3, 4] (List.replicate 16 9) [7, 7, 7, 7]
    (by decide) (by decide) (by decide) (by decide) (by decide) (by decide) (by decide)
    (by decide)

/-- **C4 (as stated, refuted).** After X on qubit 0 and H on qubit 1 the state is
`[0, 1/√2, 0, 1/√2]`; CNOT with control 0 and target 1 does not turn it into
`[0, 1/√2, 1/√2, 0]`. -/
theorem concrete_scenario_cnot_claimed_false :
    apply_cnot_gate (some [0, 1 / Real.sqrt 2, 0, 1 / Real.sqrt 2]) 2 0 1 ≠
      (true, some [0, 1 / Real.sqrt 2, 1 / Real.sqrt 2, 0]) := by
  rw [apply_cnot_gate_two_01]
  intro h
  have h2 : (0 : ℝ) = 1 / Real.sqrt 2 := by
    simpa using congrArg (fun r => (r.2.getD []).getD 2 0) h
  have hpos : (0 : ℝ) < 1 / Real.sqrt 2 := by positivity
  rw [← h2] at hpos
  exact lt_irrefl _ hpos

/-- **C4 (amended).** The concrete two-qubit scenario over the reals: from
`[1, 0, 0, 0]`, X on qubit 0 gives `[0, 1, 0, 0]`; then H on qubit 1 gives
`[0, 1/√2, 0, 1/√2]`; then CNOT with control 0 and target 1 exchanges the
amplitudes at indices 1 and 3 and so leaves `[0, 1/√2, 0, 1/√2]`.  Every call
reports success. -/
theorem concrete_scenario_two_qubits :
    apply_single_qubit_gate (some [1, 0, 0, (0 : ℝ)]) get_x_gate 2 0 =
      (true, some [0, 1, 0, 0]) ∧
    apply_single_qubit_gate (some [0, 1, 0, (0 : ℝ)]) (get_hadamard_gate Real.sqrt) 2 1 =
      (true, some [0, 1 / Real.sqrt 2, 0, 1 / Real.sqrt 2]) ∧
    apply_cnot_gate (some [0, 1 / Real.sqrt 2, 0, 1 / Real.sqrt 2]) 2 0 1 =
      (true, some [0, 1 / Real.sqrt 2, 0, 1 / Real.sqrt 2]) := by
  refine ⟨?_, ?_, ?_⟩
  · have hv : validate_single_qubit 2 0 = true := by decide
    have h0 : (0 : Int).toNat = 0 := rfl
    have h2 : (2 : Int).toNat = 2 := rfl
    simp only [apply_single_qubit_gate, hv, h0, h2, tensor_contract_two_target0]
    simp [get_x_gate]
  · have hv : validate_single_qubit 2 1 = true := by decide
    have h1 : (1 : Int).toNat = 1 := rfl
    have h2 : (2 : Int).toNat = 2 := rfl
    simp only [apply_single_qubit_gate, hv, h1, h2, tensor_contract_two_target1]
    simp [get_hadamard_gate]
  · exact apply_cnot_gate_two_01 (0 : ℝ) _ _ _

/-- **C5.** For `n ≥ 1`, every sequence of engine calls, each of them
`apply_single_qubit_gate` with the X or the H table on a target in `[0, n)` or
`apply_cnot_gate` with distinct control and target in `[0, n)`, run on the state
produced by `initialize_state_vector`, ends in a state whose sum of squared
amplitudes is exactly 1 over the reals. -/
theorem normalization_preserved (n : Nat) (ops : List GateOp) (buf : List ℝ) (hn : 1 ≤ n)
    (hops : ∀ op, op ∈ ops → op.valid (n : Int)) (hbuf : buf.length = 2 ^ n) :
    ∃ w : List ℝ,
      run_ops Real.sqrt (n : Int) ops (initialize_state_vector (some buf) n).2 = some w ∧
      norm_sq w = 1 := by
  obtain ⟨w0, h0, hl0, hn0⟩ := initialize_state_vector_norm_sq buf n hbuf
  rw [h0]
  dsimp only
  clear h0 hbuf
  induction ops generalizing w0 with
  | nil => exact ⟨w0, rfl, hn0⟩
  | cons op rest ih =>
    have hop := hops op (List.mem_cons_self op rest)
    have hrest : ∀ o, o ∈ rest → o.valid (n : Int) :=
      fun o ho => hops o (List.mem_cons_of_mem op ho)
    obtain ⟨w1, h1, hl1, hn1⟩ : ∃ w1 : List ℝ,
        (apply_op Real.sqrt (n : Int) (some w0) op).2 = some w1 ∧ w1.length = 2 ^ n ∧
          norm_sq w1 = 1 := by
      cases op with
      | X t =>
        obtain ⟨ht0, htn⟩ := hop
        have htt : t.toNat < n := by omega
        refine ⟨_, ?_, tensor_contract_length w0 get_x_gate t.toNat n hl0, ?_⟩
        · simp only [apply_op]
          rw [apply_single_qubit_gate_valid _ _ _ _
            ((validate_single_qubit_iff _ _).2 ⟨ht0, htn⟩), Int.toNat_ofNat]
        · rw [tensor_contract_norm_sq w0 _ _ _ htt hl0 get_x_gate_orthogonal, hn0]
      | H t =>
        obtain ⟨ht0, htn⟩ := hop
        have htt : t.toNat < n := by omega
        refine ⟨_, ?_, tensor_contract_length w0 (get_hadamard_gate Real.sqrt) t.toNat n hl0, ?_⟩
        · simp only [apply_op]
          rw [apply_single_qubit_gate_valid _ _ _ _
            ((validate_single_qubit_iff _ _).2 ⟨ht0, htn⟩), Int.toNat_ofNat]
        · rw [tensor_contract_norm_sq w0 _ _ _ htt hl0 get_hadamard_gate_orthogonal, hn0]
      | CNOT c t =>
        obtain ⟨⟨hc0, hcn⟩, ⟨ht0, htn⟩, hct⟩ := hop
        have hcc : c.toNat < n := by omega
        have htt : t.toNat < n := by omega
        have hne : c.toNat ≠ t.toNat := by omega
        obtain ⟨w, hw, hlen, hget⟩ := apply_cnot_gate_valid w0 n c.toNat t.toNat hcc htt hne hl0
        rw [Int.toNat_of_nonneg hc0, Int.toNat_of_nonneg ht0] at hw
        refine ⟨w, ?_, hlen, ?_⟩
        · simp only [apply_op]
          rw [hw]
        · rw [cnot_norm_sq w0 w n c.toNat t.toNat htt hne hl0 hlen hget, hn0]
    obtain ⟨w, hw, hnw⟩ := ih hrest w1 hl1 hn1
    refine ⟨w, ?_, hnw⟩
    rw [← hw]
    simp only [run_ops, List.foldl_cons, h1]

/-- Instance of C5: the circuit X 0, H 1, CNOT 0 1 on two qubits. -/
theorem normalization_preserved_witness :
    ∃ w : List ℝ,
      run_ops Real.sqrt ((2 : Nat) : Int) [GateOp.X 0, GateOp.H 1, GateOp.CNOT 0 1]
        (initialize_state_vector (some [5, 5, 5, 5]) 2).2 = some w ∧ norm_sq w = 1 :=
  normalization_preserved 2 [GateOp.X 0, GateOp.H 1, GateOp.CNOT 0 1] [5, 5, 5, 5] (by decide)
    (by decide) (by simp)

/-- **C6.** For `n ≥ 1`, `target < n` and every state of length `2 ^ n`, applying
the in-place `apply_x` to the same target twice returns the original vector. -/
theorem apply_x_involution {α : Type} [Zero α] (n target : Nat) (v : List α) (hn : 1 ≤ n)
    (ht : target < n) (hv : v.length = 2 ^ n) :
    QubitManipulation.apply_x (QubitManipulation.apply_x v n target) n target = v := by
  have hl1 := apply_x_length v n target ht hv
  apply list_ext_getD 0
  · rw [apply_x_length _ n target ht hl1, hv]
  · intro k hk
    rw [apply_x_length _ n target ht hl1] at hk
    rw [apply_x_getD _ n target ht hl1 k hk,
      apply_x_getD v n target ht hv _ (xor_mask_lt k target n hk ht), xor_mask_xor_mask]

/-- Instance of C6 on two qubits with target 1. -/
theorem apply_x_involution_witness :
    QubitManipulation.apply_x (QubitManipulation.apply_x [1, 2, 3, (4 : ℤ)] 2 1) 2 1
      = [1, 2, 3, 4] :=
  apply_x_involution 2 1 [1, 2, 3, 4] (by decide) (by decide) (by decide)

/-- **C8 (as stated, refuted).** With `n = 2`, control 0 and target 1 the indices
are valid, yet `apply_cnot_gate` returns `false` when its `calloc` call fails
(the state is left unchanged). -/
theorem apply_cnot_gate_allocation_failure :
    validate_qubit_indices 2 0 1 = true ∧
    apply_cnot_gate_alloc false (some [1, 0, 0, (0 : ℤ)]) 2 0 1 =
      (false, some [1, 0, 0, 0]) := by
  decide

/-- **C8 (amended).** For every `n ≤ 30` (the range in which `1 << n` is an
`int`), all `control`, `target`, every non-null state and either outcome of the
`calloc` call: `apply_cnot_gate` returns `false` exactly when `control` or
`target` lies outside `[0, n)`, or `control = target`, or the allocation fails;
whenever it returns `false` the state is left unchanged; with a successful
allocation it is the `apply_cnot_gate` of the other claims; and
`validate_qubit_indices n q1 q2` is `true` exactly when `0 ≤ q1 < n`,
`0 ≤ q2 < n` and `q1 ≠ q2`. -/
theorem apply_cnot_gate_failure {α : Type} [Zero α] (alloc_ok : Bool) (n control target : Int)
    (v : List α) (hn : n ≤ 30) :
    ((apply_cnot_gate_alloc alloc_ok (some v) n control target).1 = false ↔
      (¬ (0 ≤ control ∧ control < n) ∨ ¬ (0 ≤ target ∧ target < n) ∨ control = target ∨
        alloc_ok = false)) ∧
    ((apply_cnot_gate_alloc alloc_ok (some v) n control target).1 = false →
      (apply_cnot_gate_alloc alloc_ok (some v) n control target).2 = some v) ∧
    (alloc_ok = true → apply_cnot_gate_alloc alloc_ok (some v) n control target =
      apply_cnot_gate (some v) n control target) ∧
    (∀ q1 q2 : Int, validate_qubit_indices n q1 q2 = true ↔
      (0 ≤ q1 ∧ q1 < n) ∧ (0 ≤ q2 ∧ q2 < n) ∧ q1 ≠ q2) := by
  have hiff : validate_qubit_indices n control target = false ↔
      (¬ (0 ≤ control ∧ control < n) ∨ ¬ (0 ≤ target ∧ target < n) ∨ control = target) := by
    rw [← Bool.not_eq_true, validate_qubit_indices_iff]
    constructor
    · intro h
      by_cases h1 : 0 ≤ control ∧ control < n
      · by_cases h2 : 0 ≤ target ∧ target < n
        · right; right
          by_contra h3
          exact h ⟨h1, h2, h3⟩
        · right; left; exact h2
      · left; exact h1
    · rintro (h | h | h) ⟨h1, h2, h3⟩
      · exact h h1
      · exact h h2
      · exact h3 h
  cases alloc_ok
  · refine ⟨?_, ?_, ?_, fun q1 q2 => validate_qubit_indices_iff n q1 q2⟩
    · rw [apply_cnot_gate_alloc_false]
      simp
    · intro _
      rw [apply_cnot_gate_alloc_false]
    · intro h
      exact Bool.noConfusion h
  · refine ⟨?_, ?_, ?_, fun q1 q2 => validate_qubit_indices_iff n q1 q2⟩
    · rw [apply_cnot_gate_alloc_true, apply_cnot_gate_fst, hiff]
      simp
    · intro h
      rw [apply_cnot_gate_alloc_true] at h ⊢
      rw [apply_cnot_gate_fst] at h
      rw [apply_cnot_gate_invalid v n control target h]
    · intro _
      exact apply_cnot_gate_alloc_true (some v) n control target

/-- Instance of C8 (amended) on two qubits with control 0, target 1 and a
successful allocation. -/
theorem apply_cnot_gate_failure_witness :
    ((apply_cnot_gate_alloc true (some [1, 2, 3, (4 : ℤ)]) 2 0 1).1 = false ↔
      (¬ ((0 : Int) ≤ 0 ∧ (0 : Int) < 2) ∨ ¬ ((0 : Int) ≤ 1 ∧ (1 : Int) < 2) ∨
        (0 : Int) = 1 ∨ true = false)) ∧
    ((apply_cnot_gate_alloc true (some [1, 2, 3, (4 : ℤ)]) 2 0 1).1 = false →
      (apply_cnot_gate_alloc true (some [1, 2, 3, (4 : ℤ)]) 2 0 1).2 = some [1, 2, 3, 4]) ∧
    (true = true → apply_cnot_gate_alloc true (some [1, 2, 3, (4 : ℤ)]) 2 0 1 =
      apply_cnot_gate (some [1, 2, 3, (4 : ℤ)]) 2 0 1) ∧
    (∀ q1 q2 : Int, validate_qubit_indices 2 q1 q2 = true ↔
      (0 ≤ q1 ∧ q1 < 2) ∧ (0 ≤ q2 ∧ q2 < 2) ∧ q1 ≠ q2) :=
  apply_cnot_gate_failure true 2 0 1 [1, 2, 3, 4] (by decide)

/-- **C9 (as stated, refuted).** With `n = 2` the target 0 is in range, yet
`apply_single_qubit_gate` returns `false` when the `calloc` call of
`tensor_contract` fails (the state is left unchanged). -/
theorem apply_single_qubit_gate_allocation_failure :
    validate_single_qubit 2 0 = true ∧
    apply_single_qubit_gate_alloc false (some [1, 0, 0, (0 : ℤ)]) get_x_gate 2 0 =
      (false, some [1, 0, 0, 0]) := by
  decide

/-- **C9 (amended).** For every `n ≤ 30` (the range in which `1 << n` is an
`int`), every `target`, every gate, every non-null state and either outcome of
the `calloc` call of `tensor_contract`: `apply_single_qubit_gate` returns
`false` exactly when `target` is outside `[0, n)` or the allocation fails;
whenever it returns `false` the state is left unchanged; when `target` is in
`[0, n)` and the allocation succeeds it returns `true` and the state is the one
`tensor_contract` leaves. -/
theorem apply_single_qubit_gate_failure {α : Type} [Semiring α] (alloc_ok : Bool)
    (n target : Int) (g : QuantumGate α) (v : List α) (hn : n ≤ 30) :
    ((apply_single_qubit_gate_alloc alloc_ok (some v) g n target).1 = false ↔
      (¬ (0 ≤ target ∧ target < n) ∨ alloc_ok = false)) ∧
    ((apply_single_qubit_gate_alloc alloc_ok (some v) g n target).1 = false →
      apply_single_qubit_gate_alloc alloc_ok (some v) g n target = (false, some v)) ∧
    ((0 ≤ target ∧ target < n) → alloc_ok = true →
      apply_single_qubit_gate_alloc alloc_ok (some v) g n target =
        (true, some (tensor_contract v g target.toNat n.toNat).2)) := by
  have hinv : ¬ (0 ≤ target ∧ target < n) → validate_single_qubit n target = false := by
    intro h
    rw [← Bool.not_eq_true]
    exact fun h' => h ((validate_single_qubit_iff n target).1 h')
  cases alloc_ok
  · refine ⟨?_, ?_, ?_⟩
    · rw [apply_single_qubit_gate_alloc_false]
      simp
    · intro _
      exact apply_single_qubit_gate_alloc_false v g n target
    · intro _ h
      exact Bool.noConfusion h
  · rw [apply_single_qubit_gate_alloc_true]
    refine ⟨?_, ?_, ?_⟩
    · constructor
      · intro h
        left
        intro hr
        rw [apply_single_qubit_gate_valid v g n target
          ((validate_single_qubit_iff n target).2 hr)] at h
        exact Bool.noConfusion h
      · rintro (h | h)
        · rw [apply_single_qubit_gate_invalid v g n target (hinv h)]
        · exact Bool.noConfusion h
    · intro h
      by_cases hr : 0 ≤ target ∧ target < n
      · rw [apply_single_qubit_gate_valid v g n target
          ((validate_single_qubit_iff n target).2 hr)] at h
        exact Bool.noConfusion h
      · exact apply_single_qubit_gate_invalid v g n target (hinv hr)
    · intro h _
      exact apply_single_qubit_gate_valid v g n target ((validate_single_qubit_iff n target).2 h)

/-- Instance of C9 (amended) on two qubits with target 1, the gate
`[[5, 6], [7, 8]]` and a successful allocation. -/
theorem apply_single_qubit_gate_failure_witness :
    ((apply_single_qubit_gate_alloc true (some [1, 2, 3, (4 : ℤ)]) ⟨5, 6, 7, 8⟩ 2 1).1 = false ↔
      (¬ ((0 : Int) ≤ 1 ∧ (1 : Int) < 2) ∨ true = false)) ∧
    ((apply_single_qubit_gate_alloc true (some [1, 2, 3, (4 : ℤ)]) ⟨5, 6, 7, 8⟩ 2 1).1 = false →
      apply_single_qubit_gate_alloc true (some [1, 2, 3, (4 : ℤ)]) ⟨5, 6, 7, 8⟩ 2 1 =
        (false, some [1, 2, 3, 4])) ∧
    (((0 : Int) ≤ 1 ∧ (1 : Int) < 2) → true = true →
      apply_single_qubit_gate_alloc true (some [1, 2, 3, (4 : ℤ)]) ⟨5, 6, 7, 8⟩ 2 1 =
        (true, some (tensor_contract [1, 2, 3, (4 : ℤ)] ⟨5, 6, 7, 8⟩ (1 : Int).toNat
          (2 : Int).toNat).2)) :=
  apply_single_qubit_gate_failure true 2 1 ⟨5, 6, 7, 8⟩ [1, 2, 3, 4] (by decide)

/-- **C10 (as stated, refuted).** The cap `MAX_QUBITS` is 29, yet for `n = 30`
`initialize_state_vector` returns `true` on a buffer of `2 ^ 30` amplitudes
and `create_statevector` returns a state of dimension `2 ^ 30`. -/
theorem construction_above_cap_succeeds :
    MAX_QUBITS = 29 ∧
    (initialize_state_vector (some (List.replicate (2 ^ 30) (0 : ℤ))) 30).1 = true ∧
    ((CMatrixMult.create_statevector 30 : Option (CMatrixMult.Statevector ℤ)).map
      (fun sv => sv.dimension)) = some (2 ^ 30) := by
  refine ⟨rfl, rfl, ?_⟩
  simp only [CMatrixMult.create_statevector, calloc, Option.map, Nat.one_shiftLeft]

/-- **C10 (amended).** No constructor compares the qubit count with
`MAX_QUBITS`: for every `n ≤ 30` (the range in which `1 << n` fits an `int`)
`initialize_state_vector` returns `true` on every non-null buffer and `false`
only on a null one, and `create_statevector` returns a state with
`num_qubits = n` and `dimension = 2 ^ n`. -/
theorem construction_never_checks_cap {α : Type} [Zero α] [One α] (n : Nat) (v : List α)
    (hn : n ≤ 30) :
    (initialize_state_vector (some v) n).1 = true ∧
    (initialize_state_vector (none : Option (List α)) n) = (false, none) ∧
    ∃ sv : CMatrixMult.Statevector α, CMatrixMult.create_statevector n = some sv ∧
      sv.num_qubits = n ∧ sv.dimension = 2 ^ n ∧ sv.data.length = 2 ^ n := by
  refine ⟨rfl, rfl, ?_⟩
  refine ⟨_, rfl, rfl, Nat.one_shiftLeft n, ?_⟩
  simp [Nat.one_shiftLeft]

/-- Instance of the amended C10 on two qubits. -/
theorem construction_never_checks_cap_witness :
    (initialize_state_vector (some [7, 7, 7, (7 : ℤ)]) 2).1 = true ∧
    (initialize_state_vector (none : Option (List ℤ)) 2) = (false, none) ∧
    ∃ sv : CMatrixMult.Statevector ℤ, CMatrixMult.create_statevector 2 = some sv ∧
      sv.num_qubits = 2 ∧ sv.dimension = 2 ^ 2 ∧ sv.data.length = 2 ^ 2 :=
  construction_never_checks_cap 2 [7, 7, 7, 7] (by decide)

/-- **C11.** For every `n ≤ 29` each of the three constructors leaves the all-zero
basis state: `create_statevector`, `initialize_state_vector` (on a buffer of
`2 ^ n` doubles) and `initialize_statevector` (likewise) produce exactly
`2 ^ n` amplitudes, with amplitude 1 at index 0 and amplitude 0 at every index
`i` with `1 ≤ i < 2 ^ n`. -/
theorem constructed_state_is_basis_state {α : Type} [Zero α] [One α] (n : Nat) (buf : List α)
    (hn : n ≤ 29) (hbuf : buf.length = 2 ^ n) :
    (∃ sv : CMatrixMult.Statevector α, CMatrixMult.create_statevector n = some sv ∧
      sv.dimension = 2 ^ n ∧ sv.data.length = 2 ^ n ∧ sv.data.getD 0 0 = 1 ∧
      ∀ i, 1 ≤ i → i < 2 ^ n → sv.data.getD i 0 = 0) ∧
    (∃ w : List α, initialize_state_vector (some buf) n = (true, some w) ∧
      w.length = 2 ^ n ∧ w.getD 0 0 = 1 ∧ ∀ i, 1 ≤ i → i < 2 ^ n → w.getD i 0 = 0) ∧
    ((QubitManipulation.initialize_statevector buf n).length = 2 ^ n ∧
      (QubitManipulation.initialize_statevector buf n).getD 0 0 = 1 ∧
      ∀ i, 1 ≤ i → i < 2 ^ n → (QubitManipulation.initialize_statevector buf n).getD i 0 = 0) := by
  have hpos : 0 < 2 ^ n := Nat.pos_of_ne_zero (by positivity)
  refine ⟨⟨_, rfl, Nat.one_shiftLeft n, ?_, ?_, ?_⟩, ⟨_, rfl, ?_, ?_, ?_⟩, ?_, ?_, ?_⟩
  · simp [Nat.one_shiftLeft]
  · dsimp only
    rw [Nat.one_shiftLeft, getD_replicate_set_zero _ _ hpos, if_pos rfl]
  · intro i h1 _
    dsimp only
    rw [Nat.one_shiftLeft, getD_replicate_set_zero _ _ hpos, if_neg (by omega)]
  · rw [List.length_set, memset_zero_eq buf _ (by rw [hbuf, Nat.one_shiftLeft]),
      List.length_replicate, Nat.one_shiftLeft]
  · rw [memset_zero_eq buf _ (by rw [hbuf, Nat.one_shiftLeft]), Nat.one_shiftLeft,
      getD_replicate_set_zero _ _ hpos, if_pos rfl]
  · intro i h1 _
    rw [memset_zero_eq buf _ (by rw [hbuf, Nat.one_shiftLeft]), Nat.one_shiftLeft,
      getD_replicate_set_zero _ _ hpos, if_neg (by omega)]
  · rw [initialize_statevector_length, hbuf]
  · rw [initialize_statevector_getD buf n hbuf 0 hpos, if_pos rfl]
  · intro i h1 hi
    rw [initialize_statevector_getD buf n hbuf i hi, if_neg (by omega)]

/-- Instance of C11 on two qubits. -/
theorem constructed_state_is_basis_state_witness :
    (∃ sv : CMatrixMult.Statevector ℤ, CMatrixMult.create_statevector 2 = some sv ∧
      sv.dimension = 2 ^ 2 ∧ sv.data.length = 2 ^ 2 ∧ sv.data.getD 0 0 = 1 ∧
      ∀ i, 1 ≤ i → i < 2 ^ 2 → sv.data.getD i 0 = 0) ∧
    (∃ w : List ℤ, initialize_state_vector (some [7, 7, 7, 7]) 2 = (true, some w) ∧
      w.length = 2 ^ 2 ∧ w.getD 0 0 = 1 ∧ ∀ i, 1 ≤ i → i < 2 ^ 2 → w.getD i 0 = 0) ∧
    ((QubitManipulation.initialize_statevector [7, 7, 7, (7 : ℤ)] 2).length = 2 ^ 2 ∧
      (QubitManipulation.initialize_statevector [7, 7, 7, (7 : ℤ)] 2).getD 0 0 = 1 ∧
      ∀ i, 1 ≤ i → i < 2 ^ 2 →
        (QubitManipulation.initialize_statevector [7, 7, 7, (7 : ℤ)] 2).getD i 0 = 0) :=
  constructed_state_is_basis_state 2 [7, 7, 7, 7] (by decide) (by decide)

/-- **C12 (as stated, refuted).** With `n = 0` and target 0 the routines `apply_x`
and `apply_h` access index 1 of the one-element buffer. -/
theorem in_place_zero_qubits_out_of_bounds :
    QubitManipulation.apply_x_accesses 0 0 = [0, 1, 0, 1] ∧
    QubitManipulation.apply_h_accesses 0 0 = [0, 1, 0, 1] ∧
    ¬ (∀ idx, idx ∈ QubitManipulation.apply_x_accesses 0 0 → idx = 0) ∧
    ¬ (∀ idx, idx ∈ QubitManipulation.apply_h_accesses 0 0 → idx = 0) := by
  decide

/-- **C12 (amended).** With `n = 0`, for every control and target in `[0, 30]`
(the shift counts for which `1 << k` is an `int`), `apply_cnot` reads and
writes no element at all, while `apply_x` and `apply_h` access index 0 and
index `1 << target`, which is at least 1. -/
theorem in_place_zero_qubits_accesses (control target : Nat) (hc : control ≤ 30)
    (ht : target ≤ 30) :
    QubitManipulation.apply_cnot_accesses 0 control target = [] ∧
    QubitManipulation.apply_x_accesses 0 target = [0, 1 <<< target, 0, 1 <<< target] ∧
    QubitManipulation.apply_h_accesses 0 target = [0, 1 <<< target, 0, 1 <<< target] ∧
    1 ≤ 1 <<< target ∧ 1 <<< target ≤ INT_MAX := by
  refine ⟨?_, ?_, ?_, ?_, ?_⟩
  · simp [QubitManipulation.apply_cnot_accesses, forLoop]
  · simp [QubitManipulation.apply_x_accesses, forLoop]
  · simp [QubitManipulation.apply_h_accesses, forLoop]
  · rw [Nat.one_shiftLeft]
    exact Nat.one_le_two_pow
  · rw [Nat.one_shiftLeft]
    have h1 : 2 ^ target ≤ 2 ^ 30 := Nat.pow_le_pow_right (by decide) ht
    have h2 : 2 ^ 30 ≤ INT_MAX := by decide
    exact Nat.le_trans h1 h2

/-- Instance of C12 (amended) with control 1 and target 3: `apply_x` and
`apply_h` access indices 0 and 8 of the one-element buffer. -/
theorem in_place_zero_qubits_accesses_witness :
    QubitManipulation.apply_cnot_accesses 0 1 3 = [] ∧
    QubitManipulation.apply_x_accesses 0 3 = [0, 1 <<< 3, 0, 1 <<< 3] ∧
    QubitManipulation.apply_h_accesses 0 3 = [0, 1 <<< 3, 0, 1 <<< 3] ∧
    1 ≤ 1 <<< 3 ∧ 1 <<< 3 ≤ INT_MAX :=
  in_place_zero_qubits_accesses 1 3 (by decide) (by decide)

/-- **C13 (as stated, refuted).** At `n = 16` neither dense builder produces a
matrix: the loop bound `dim * dim` of `create_single_qubit_gate_matrix` and the
element count `dimension * dimension` of `create_matrix` are `2 ^ 32`, which
overflows `int`. -/
theorem dense_gate_matrix_overflow :
    INT_MAX < 2 ^ 16 * 2 ^ 16 ∧
    MatrixMult.create_single_qubit_gate_matrix_int (List.replicate (2 ^ 16 * 2 ^ 16) (0 : ℤ))
      (QuantumGate.toList ⟨0, 1, 1, 0⟩) 16 0 = none ∧
    CMatrixMult.full_gate_matrix_int ⟨QuantumGate.toList ⟨0, 1, 1, (0 : ℤ)⟩, 2⟩ (2 ^ 16) 0
      = none :=
  ⟨by decide, create_single_qubit_gate_matrix_int_overflow _ _ 16 0 (by decide),
    full_gate_matrix_int_overflow _ (2 ^ 16) 0 (by decide)⟩

/-- **C13 (amended).** For `1 ≤ n ≤ 15`, `target < n` and every 2×2 gate, both
dense builders (`create_single_qubit_gate_matrix`, which starts from the
identity, and the zero-initialised `full_gate` of `apply_single_qubit_gate`)
stay within the range of `int` and produce a `2 ^ n × 2 ^ n` matrix whose entry
`(i, j)` is `g[bit_target i][bit_target j]` when `i` and `j` agree on every bit
except `target`, and 0 otherwise. -/
theorem dense_gate_matrix_entries {α : Type} [Zero α] [One α] (n target : Nat)
    (g : QuantumGate α) (buf : List α) (hn : 1 ≤ n) (hn15 : n ≤ 15) (ht : target < n)
    (hbuf : buf.length = 2 ^ n * 2 ^ n) :
    ∃ (M : List α) (F : CMatrixMult.Matrix α),
      MatrixMult.create_single_qubit_gate_matrix_int buf g.toList n target = some M ∧
      CMatrixMult.full_gate_matrix_int { data := g.toList, dimension := 2 } (2 ^ n) target
        = some F ∧
      (M.length = 2 ^ n * 2 ^ n ∧ F.data.length = 2 ^ n * 2 ^ n) ∧
      ∀ i j, i < 2 ^ n → j < 2 ^ n →
        ((∀ b, b ≠ target → i.testBit b = j.testBit b) →
          M.getD (i * 2 ^ n + j) 0 = g.elements (i.testBit target) (j.testBit target) ∧
          F.data.getD (i * 2 ^ n + j) 0 = g.elements (i.testBit target) (j.testBit target)) ∧
        (¬ (∀ b, b ≠ target → i.testBit b = j.testBit b) →
          M.getD (i * 2 ^ n + j) 0 = 0 ∧ F.data.getD (i * 2 ^ n + j) 0 = 0) := by
  have hd := matrix_size_le n hn15
  refine ⟨_, _, create_single_qubit_gate_matrix_int_eq buf g.toList n target hd,
    full_gate_matrix_int_eq _ (2 ^ n) target hd, ⟨?_, full_gate_matrix_length _ _ _⟩, ?_⟩
  · rw [create_single_qubit_gate_matrix_length, hbuf]
  · intro i j hi hj
    rw [create_single_qubit_gate_matrix_getD buf g n target hbuf i j hi hj,
      full_gate_matrix_getD g 2 (2 ^ n) target i j hi hj]
    constructor
    · intro h
      rw [if_pos ((and_not_eq_and_not_iff i j target).2 h)]
      exact ⟨rfl, rfl⟩
    · intro h
      rw [if_neg (fun h' => h ((and_not_eq_and_not_iff i j target).1 h'))]
      exact ⟨rfl, rfl⟩

/-- Instance of C13 on two qubits with target 1. -/
theorem dense_gate_matrix_entries_witness :
    ∃ (M : List ℤ) (F : CMatrixMult.Matrix ℤ),
      MatrixMult.create_single_qubit_gate_matrix_int (List.replicate 16 (9 : ℤ))
        (QuantumGate.toList ⟨5, 6, 7, 8⟩) 2 1 = some M ∧
      CMatrixMult.full_gate_matrix_int
        { data := QuantumGate.toList ⟨5, 6, 7, (8 : ℤ)⟩, dimension := 2 } (2 ^ 2) 1 = some F ∧
      (M.length = 2 ^ 2 * 2 ^ 2 ∧ F.data.length = 2 ^ 2 * 2 ^ 2) ∧
      ∀ i j, i < 2 ^ 2 → j < 2 ^ 2 →
        ((∀ b, b ≠ 1 → i.testBit b = j.testBit b) →
          M.getD (i * 2 ^ 2 + j) 0
            = (⟨5, 6, 7, 8⟩ : QuantumGate ℤ).elements (i.testBit 1) (j.testBit 1) ∧
          F.data.getD (i * 2 ^ 2 + j) 0
            = (⟨5, 6, 7, 8⟩ : QuantumGate ℤ).elements (i.testBit 1) (j.testBit 1)) ∧
        (¬ (∀ b, b ≠ 1 → i.testBit b = j.testBit b) →
          M.getD (i * 2 ^ 2 + j) 0 = 0 ∧ F.data.getD (i * 2 ^ 2 + j) 0 = 0) :=
  dense_gate_matrix_entries 2 1 ⟨5, 6, 7, 8⟩ (List.replicate 16 9) (by decide) (by decide)
    (by decide) (by decide)

/-- **C14 (as stated, refuted).** At `n = 16` neither CNOT builder produces a
matrix: the loop bound `dim * dim` of `create_cnot_matrix` and the element
count `dimension * dimension` of `create_matrix` are `2 ^ 32`, which overflows
`int`. -/
theorem cnot_matrix_overflow :
    INT_MAX < 2 ^ 16 * 2 ^ 16 ∧
    MatrixMult.create_cnot_matrix_int (List.replicate (2 ^ 16 * 2 ^ 16) (0 : ℤ)) 16 0 1
      = none ∧
    (CMatrixMult.cnot_matrix_int (2 ^ 16) 0 1 : Option (CMatrixMult.Matrix ℤ)) = none :=
  ⟨by decide, create_cnot_matrix_int_overflow _ 16 0 1 (by decide),
    cnot_matrix_int_overflow (2 ^ 16) 0 1 (by decide)⟩

/-- **C14 (amended).** For `2 ≤ n ≤ 15` and distinct `control`, `target` below
`n`, both CNOT builders (`create_cnot_matrix` and the local `cnot` of
`apply_cnot`) stay within the range of `int` and produce the `2 ^ n × 2 ^ n`
permutation matrix whose row `i` has its single 1 at column
`i XOR (1 << target)` when the control bit of `i` is 1 and at column `i`
otherwise; every other entry is 0. -/
theorem cnot_matrix_entries {α : Type} [Zero α] [One α] (n control target : Nat)
    (buf : List α) (hn : 2 ≤ n) (hn15 : n ≤ 15) (hc : control < n) (ht : target < n)
    (hct : control ≠ target) (hbuf : buf.length = 2 ^ n * 2 ^ n) :
    ∃ (M : List α) (C : CMatrixMult.Matrix α),
      MatrixMult.create_cnot_matrix_int buf n control target = some M ∧
      CMatrixMult.cnot_matrix_int (2 ^ n) control target = some C ∧
      ∀ i j, i < 2 ^ n → j < 2 ^ n →
        M.getD (i * 2 ^ n + j) 0 =
          (if j = (if (i >>> control) &&& 1 = 1 then i ^^^ (1 <<< target) else i)
            then 1 else 0) ∧
        C.data.getD (i * 2 ^ n + j) 0 =
          (if j = (if (i >>> control) &&& 1 = 1 then i ^^^ (1 <<< target) else i)
            then 1 else 0) := by
  have hd := matrix_size_le n hn15
  refine ⟨_, _, create_cnot_matrix_int_eq buf n control target hd,
    cnot_matrix_int_eq (2 ^ n) control target hd, ?_⟩
  intro i j hi hj
  rw [create_cnot_matrix_getD buf n control target ht hbuf i j hi hj,
    cnot_matrix_getD n control target ht i j hi hj, shift_and_one]
  cases hb : i.testBit control <;> simp

/-- Instance of C14 on two qubits with control 0 and target 1. -/
theorem cnot_matrix_entries_witness :
    ∃ (M : List ℤ) (C : CMatrixMult.Matrix ℤ),
      MatrixMult.create_cnot_matrix_int (List.replicate 16 (9 : ℤ)) 2 0 1 = some M ∧
      CMatrixMult.cnot_matrix_int (2 ^ 2) 0 1 = some C ∧
      ∀ i j, i < 2 ^ 2 → j < 2 ^ 2 →
        M.getD (i * 2 ^ 2 + j) 0 =
          (if j = (if (i >>> 0) &&& 1 = 1 then i ^^^ (1 <<< 1) else i) then 1 else 0) ∧
        C.data.getD (i * 2 ^ 2 + j) 0 =
          (if j = (if (i >>> 0) &&& 1 = 1 then i ^^^ (1 <<< 1) else i) then 1 else 0) :=
  cnot_matrix_entries 2 0 1 (List.replicate 16 9) (by decide) (by decide) (by decide)
    (by decide) (by decide) (by decide)

/-- **C15.** For `n ≥ 1`, `target < n`, every gate and every state `v` of length
`2 ^ n`: after `tensor_contract` every index `i` with target bit 0 and its
partner `j = i | (1 << target)` hold `g00 * v[i] + g01 * v[j]` and
`g10 * v[i] + g11 * v[j]`, both in terms of the old values, and every index
below `2 ^ n` is the `i` or the `j` of exactly one such pair. -/
theorem tensor_contract_pairs {α : Type} [Semiring α] (n target : Nat) (g : QuantumGate α)
    (v : List α) (hn : 1 ≤ n) (ht : target < n) (hv : v.length = 2 ^ n) :
    (∀ i, i < 2 ^ n → i &&& (1 <<< target) = 0 →
      (tensor_contract v g target n).2.getD i 0 =
        g.e00 * v.getD i 0 + g.e01 * v.getD (i ||| (1 <<< target)) 0 ∧
      (tensor_contract v g target n).2.getD (i ||| (1 <<< target)) 0 =
        g.e10 * v.getD i 0 + g.e11 * v.getD (i ||| (1 <<< target)) 0) ∧
    (∀ k, k < 2 ^ n → ∃! i, (i < 2 ^ n ∧ i &&& (1 <<< target) = 0) ∧
      (k = i ∨ k = i ||| (1 <<< target))) ∧
    (∀ i, i &&& (1 <<< target) = 0 → i ≠ i ||| (1 <<< target)) := by
  refine ⟨?_, ?_, ?_⟩
  · intro i hi hz
    have hb : i.testBit target = false := (and_mask_eq_zero i target).1 hz
    have hj : i ||| (1 <<< target) < 2 ^ n := or_mask_lt i target n hi ht
    rw [tensor_contract_getD v g target n ht hv i hi,
      tensor_contract_getD v g target n ht hv _ hj, hb, testBit_or_mask_self,
      and_not_eq_self i target hb, and_not_or_mask, and_not_eq_self i target hb,
      or_mask_eq_self _ target (testBit_or_mask_self i target)]
    simp [QuantumGate.elements]
  · intro k hk
    refine ⟨and_not k (1 <<< target), ⟨⟨and_not_lt k target n hk,
      (and_mask_eq_zero _ target).2 (testBit_and_not_self k target)⟩, ?_⟩, ?_⟩
    · cases hb : k.testBit target
      · left; exact (and_not_eq_self k target hb).symm
      · right; rw [or_mask_and_not, or_mask_eq_self k target hb]
    · rintro i ⟨⟨_, hz⟩, hki⟩
      have hb : i.testBit target = false := (and_mask_eq_zero i target).1 hz
      rcases hki with h | h
      · rw [h, and_not_eq_self i target hb]
      · rw [h, and_not_or_mask, and_not_eq_self i target hb]
  · intro i hz h
    have hb : i.testBit target = false := (and_mask_eq_zero i target).1 hz
    have := testBit_or_mask_self i target
    rw [← h, hb] at this
    exact Bool.noConfusion this

/-- Instance of C15 on two qubits with target 1. -/
theorem tensor_contract_pairs_witness :
    (∀ i, i < 2 ^ 2 → i &&& (1 <<< 1) = 0 →
      (tensor_contract [1, 2, 3, (4 : ℤ)] ⟨5, 6, 7, 8⟩ 1 2).2.getD i 0 =
        5 * ([1, 2, 3, (4 : ℤ)]).getD i 0 + 6 * ([1, 2, 3, (4 : ℤ)]).getD (i ||| (1 <<< 1)) 0 ∧
      (tensor_contract [1, 2, 3, (4 : ℤ)] ⟨5, 6, 7, 8⟩ 1 2).2.getD (i ||| (1 <<< 1)) 0 =
        7 * ([1, 2, 3, (4 : ℤ)]).getD i 0 + 8 * ([1, 2, 3, (4 : ℤ)]).getD (i ||| (1 <<< 1)) 0) ∧
    (∀ k, k < 2 ^ 2 → ∃! i, (i < 2 ^ 2 ∧ i &&& (1 <<< 1) = 0) ∧
      (k = i ∨ k = i ||| (1 <<< 1))) ∧
    (∀ i, i &&& (1 <<< 1) = 0 → i ≠ i ||| (1 <<< 1)) :=
  tensor_contract_pairs 2 1 ⟨5, 6, 7, 8⟩ [1, 2, 3, 4] (by decide) (by decide) (by decide)

/-- **C16.** For `n ≥ 1`, `target < n` and every state of length `2 ^ n`, the
in-place `apply_x` leaves the state that `tensor_contract` leaves with the X
table, and the in-place `apply_h` leaves the state that `tensor_contract`
leaves with the Hadamard table, in exact arithmetic (any field, any value of
`sqrt 2`). -/
theorem in_place_eq_tensor_contract {α : Type} [Field α] (sqrt : α → α) (n target : Nat)
    (v : List α) (hn : 1 ≤ n) (ht : target < n) (hv : v.length = 2 ^ n) :
    QubitManipulation.apply_x v n target = (tensor_contract v get_x_gate target n).2 ∧
    QubitManipulation.apply_h sqrt v n target =
      (tensor_contract v (get_hadamard_gate sqrt) target n).2 := by
  constructor
  · apply list_ext_getD 0
    · rw [apply_x_length v n target ht hv, tensor_contract_length v _ target n hv]
    · intro k hk
      rw [apply_x_length v n target ht hv] at hk
      rw [apply_x_getD v n target ht hv k hk, tensor_contract_getD v _ target n ht hv k hk]
      cases hb : k.testBit target
      · rw [xor_mask_of_clear k target hb]
        simp [QuantumGate.elements, get_x_gate]
      · rw [xor_mask_of_set k target hb]
        simp [QuantumGate.elements, get_x_gate]
  · apply list_ext_getD 0
    · rw [apply_h_length sqrt v n target ht hv, tensor_contract_length v _ target n hv]
    · intro k hk
      rw [apply_h_length sqrt v n target ht hv] at hk
      rw [apply_h_getD sqrt v n target ht hv k hk, tensor_contract_getD v _ target n ht hv k hk]
      cases hb : k.testBit target
      · rw [and_not_eq_self k target hb]
        simp only [QuantumGate.elements, get_hadamard_gate, Bool.false_eq_true, ↓reduceIte]
        ring
      · rw [or_mask_eq_self k target hb]
        simp only [QuantumGate.elements, get_hadamard_gate, Bool.false_eq_true, ↓reduceIte]
        ring

/-- Instance of C16 on two qubits with target 1, over the rationals with
`1` standing in for `sqrt 2`. -/
theorem in_place_eq_tensor_contract_witness :
    QubitManipulation.apply_x [1, 2, 3, (4 : ℚ)] 2 1 =
      (tensor_contract [1, 2, 3, (4 : ℚ)] get_x_gate 1 2).2 ∧
    QubitManipulation.apply_h (fun _ => (1 : ℚ)) [1, 2, 3, (4 : ℚ)] 2 1 =
      (tensor_contract [1, 2, 3, (4 : ℚ)] (get_hadamard_gate (fun _ => (1 : ℚ))) 1 2).2 :=
  in_place_eq_tensor_contract (fun _ => (1 : ℚ)) 2 1 [1, 2, 3, 4] (by decide) (by decide)
    (by decide)

/-- **C17 (as stated, refuted).** At `n = 16` no matrix is built:
`create_single_qubit_gate_matrix` overflows `int` in its loop bound
`dim * dim = 2 ^ 32`, and so does the outer `kronecker` call in the last index
of its result. -/
theorem gate_matrix_eq_kronecker_overflow :
    INT_MAX < 2 ^ 16 * 2 ^ 16 ∧
    MatrixMult.create_single_qubit_gate_matrix_int (List.replicate (2 ^ 16 * 2 ^ 16) (0 : ℤ))
      (QuantumGate.toList ⟨0, 1, 1, 0⟩) 16 0 = none ∧
    MatrixMult.kronecker_int (MatrixMult.identity_matrix ℤ (2 ^ (16 - 1 - 0)))
      (2 ^ (16 - 1 - 0)) (2 ^ (16 - 1 - 0)) (QuantumGate.toList ⟨0, 1, 1, 0⟩)
      (2 * 2 ^ 0) (2 * 2 ^ 0) (List.replicate (2 ^ 16 * 2 ^ 16) 0) = none := by
  refine ⟨by decide, create_single_qubit_gate_matrix_int_overflow _ _ 16 0 (by decide), ?_⟩
  unfold MatrixMult.kronecker_int
  rw [if_pos (by decide)]

/-- **C17 (amended).** For `1 ≤ n ≤ 15`, `t < n` and every 2×2 gate, the matrix
built by `create_single_qubit_gate_matrix` is the Kronecker product
`I_(2^(n-1-t)) ⊗ g ⊗ I_(2^t)` as the repository's `kronecker` computes it:
`kronecker(I_(2^(n-1-t)), kronecker(g, I_(2^t)))`, all three calls staying
within the range of `int`, whatever the initial content of the result
buffers. -/
theorem gate_matrix_eq_kronecker {α : Type} [Semiring α] (n t : Nat) (g : QuantumGate α)
    (buf b1 b2 : List α) (hn : 1 ≤ n) (hn15 : n ≤ 15) (ht : t < n)
    (hbuf : buf.length = 2 ^ n * 2 ^ n)
    (hb1 : b1.length = (2 * 2 ^ t) * (2 * 2 ^ t)) (hb2 : b2.length = 2 ^ n * 2 ^ n) :
    ∃ M : List α,
      MatrixMult.create_single_qubit_gate_matrix_int buf g.toList n t = some M ∧
      (MatrixMult.kronecker_int g.toList 2 2 (MatrixMult.identity_matrix α (2 ^ t))
          (2 ^ t) (2 ^ t) b1).bind
        (fun inner => MatrixMult.kronecker_int (MatrixMult.identity_matrix α (2 ^ (n - 1 - t)))
          (2 ^ (n - 1 - t)) (2 ^ (n - 1 - t)) inner (2 * 2 ^ t) (2 * 2 ^ t) b2) = some M := by
  have hd := matrix_size_le n hn15
  have hsplit := pow_split n t ht
  have hpos : 0 < 2 ^ (n - 1 - t) := Nat.pos_of_ne_zero (by positivity)
  have hle : 2 * 2 ^ t ≤ 2 ^ n := by
    rw [← hsplit]
    exact Nat.le_mul_of_pos_left _ hpos
  have hinner : (2 * 2 ^ t) * (2 * 2 ^ t) ≤ INT_MAX :=
    Nat.le_trans (Nat.mul_le_mul hle hle) hd
  have houter : (2 ^ (n - 1 - t) * (2 * 2 ^ t)) * (2 ^ (n - 1 - t) * (2 * 2 ^ t)) ≤ INT_MAX := by
    rw [hsplit]
    exact hd
  refine ⟨_, create_single_qubit_gate_matrix_int_eq buf g.toList n t hd, ?_⟩
  rw [kronecker_int_eq _ _ _ _ _ _ _ hinner, Option.some_bind,
    kronecker_int_eq _ _ _ _ _ _ _ houter,
    gate_matrix_eq_kronecker_loops n t g buf b1 b2 ht hbuf hb1 hb2]

/-- Instance of C17 on two qubits with target 1. -/
theorem gate_matrix_eq_kronecker_witness :
    ∃ M : List ℤ,
      MatrixMult.create_single_qubit_gate_matrix_int (List.replicate 16 (9 : ℤ))
        (QuantumGate.toList ⟨5, 6, 7, 8⟩) 2 1 = some M ∧
      (MatrixMult.kronecker_int (QuantumGate.toList ⟨5, 6, 7, 8⟩) 2 2
          (MatrixMult.identity_matrix ℤ (2 ^ 1)) (2 ^ 1) (2 ^ 1) (List.replicate 16 3)).bind
        (fun inner => MatrixMult.kronecker_int (MatrixMult.identity_matrix ℤ (2 ^ (2 - 1 - 1)))
          (2 ^ (2 - 1 - 1)) (2 ^ (2 - 1 - 1)) inner (2 * 2 ^ 1) (2 * 2 ^ 1)
          (List.replicate 16 4)) = some M :=
  gate_matrix_eq_kronecker 2 1 ⟨5, 6, 7, 8⟩ (List.replicate 16 9) (List.replicate 16 3)
    (List.replicate 16 4) (by decide) (by decide) (by decide) (by decide) (by decide)
    (by decide)

/-- **C18.** Over the reals `create_single_qubit_gate` returns, row-major, the
tables X = `[0, 1, 1, 0]`, H = `[1/√2, 1/√2, 1/√2, -1/√2]` and
T = `[1, 0, 0, cos (π/4)]`, the last entry being stored as `√2 / 2`; its X and
H tables are the tables of `get_x_gate` and `get_hadamard_gate`. -/
theorem gate_tables :
    (CMatrixMult.create_single_qubit_gate Real.sqrt .GATE_X).data = [0, 1, 1, 0] ∧
    (CMatrixMult.create_single_qubit_gate Real.sqrt .GATE_H).data =
      [1 / Real.sqrt 2, 1 / Real.sqrt 2, 1 / Real.sqrt 2, -(1 / Real.sqrt 2)] ∧
    (CMatrixMult.create_single_qubit_gate Real.sqrt .GATE_T).data =
      [1, 0, 0, Real.sqrt 2 / 2] ∧
    Real.sqrt 2 / 2 = Real.cos (Real.pi / 4) ∧
    (CMatrixMult.create_single_qubit_gate Real.sqrt .GATE_X).data =
      (get_x_gate : QuantumGate ℝ).toList ∧
    (CMatrixMult.create_single_qubit_gate Real.sqrt .GATE_H).data =
      (get_hadamard_gate Real.sqrt).toList := by
  refine ⟨?_, ?_, ?_, Real.cos_pi_div_four.symm, ?_, ?_⟩
  · rw [create_single_qubit_gate_x]; rfl
  · rw [create_single_qubit_gate_h]; rfl
  · rw [create_single_qubit_gate_t]; rfl
  · rw [create_single_qubit_gate_x]
  · rw [create_single_qubit_gate_h]

/-- **C19 (as stated, refuted).** At `n = 16` the tensor_mult driver ends in a
state, but neither dense driver does: the size `dim * dim = 2 ^ 32` of their
gate matrices overflows `int` (in `malloc(dim * dim * sizeof(double))` of
`run_test` and in `create_matrix` of the struct-based engine). -/
theorem demo_circuit_dense_overflow :
    INT_MAX < 2 ^ 16 * 2 ^ 16 ∧
    (∃ w : List ℝ, run_quantum_circuit_test Real.sqrt ((16 : Nat) : Int) = some w) ∧
    MatrixMult.run_test_int Real.sqrt (fun k => List.replicate k 0) 16 = none ∧
    (CMatrixMult.run_circuit_test_int Real.sqrt 16 : Option (CMatrixMult.Statevector ℝ))
      = none := by
  refine ⟨by decide, ?_, run_test_int_overflow _ _ 16 (by decide),
    run_circuit_test_int_overflow _ 16 (by decide)⟩
  obtain ⟨w, hw, _⟩ := run_quantum_circuit_test_getD Real.sqrt 16 (by decide)
  exact ⟨w, hw⟩

/-- **C19 (amended).** For `2 ≤ n ≤ 15` the demo circuit of the drivers (from the
all-zero basis state: X on qubit `n - 1`, then H on qubit 0, then CNOT with
control 0 and target `n - 1`) ends in the state with amplitude `1/√2` at index
1 and at index `2 ^ (n - 1)` and amplitude 0 at every other index, and the
tensor_mult engine and both dense engines, which stay within the range of
`int`, end in the same state. -/
theorem demo_circuit_final_state (n : Nat) (heap : Nat → List ℝ) (hn : 2 ≤ n) (hn15 : n ≤ 15)
    (hheap : ∀ k, (heap k).length = k) :
    ∃ w : List ℝ, w.length = 2 ^ n ∧
      (∀ k, k < 2 ^ n → w.getD k 0 = if k = 1 ∨ k = 2 ^ (n - 1) then 1 / Real.sqrt 2 else 0) ∧
      run_quantum_circuit_test Real.sqrt (n : Int) = some w ∧
      MatrixMult.run_test_int Real.sqrt heap n = some w ∧
      (CMatrixMult.run_circuit_test_int Real.sqrt n).map (fun sv => sv.data) = some w := by
  obtain ⟨w, hw, hlen, hget⟩ := run_quantum_circuit_test_getD Real.sqrt n hn
  obtain ⟨hl2, hg2⟩ := run_test_getD Real.sqrt heap hheap n hn
  obtain ⟨sv, hsv, hl3, hg3⟩ := run_circuit_test_getD Real.sqrt n hn
  refine ⟨w, hlen, hget, hw, ?_, ?_⟩
  · rw [run_test_int_eq Real.sqrt heap n hn15]
    congr 1
    apply list_ext_getD 0
    · rw [hl2, hlen]
    · intro k hk
      rw [hl2] at hk
      rw [hg2 k hk, hget k hk]
  · rw [run_circuit_test_int_eq Real.sqrt n hn15, hsv, Option.map_some']
    congr 1
    apply list_ext_getD 0
    · rw [hl3, hlen]
    · intro k hk
      rw [hl3] at hk
      rw [hg3 k hk, hget k hk]

/-- Instance of C19 on two qubits, the `malloc`ed buffers holding sevens. -/
theorem demo_circuit_final_state_witness :
    ∃ w : List ℝ, w.length = 2 ^ 2 ∧
      (∀ k, k < 2 ^ 2 → w.getD k 0 = if k = 1 ∨ k = 2 ^ (2 - 1) then 1 / Real.sqrt 2 else 0) ∧
      run_quantum_circuit_test Real.sqrt ((2 : Nat) : Int) = some w ∧
      MatrixMult.run_test_int Real.sqrt (fun k => List.replicate k 7) 2 = some w ∧
      (CMatrixMult.run_circuit_test_int Real.sqrt 2).map (fun sv => sv.data) = some w :=
  demo_circuit_final_state 2 (fun k => List.replicate k 7) (by decide) (by decide)
    (fun k => List.length_replicate k 7)

/-- **C20 (as stated, refuted).** With `n = 16` and the out-of-range target 16
(`n ≤ target ≤ 30`) neither dense builder produces a matrix: its `2 ^ 32`
entries overflow `int`. -/
theorem dense_out_of_range_target_overflow :
    INT_MAX < 2 ^ 16 * 2 ^ 16 ∧
    MatrixMult.create_single_qubit_gate_matrix_int (List.replicate (2 ^ 16 * 2 ^ 16) (0 : ℤ))
      (QuantumGate.toList ⟨0, 1, 1, 0⟩) 16 16 = none ∧
    CMatrixMult.full_gate_matrix_int ⟨QuantumGate.toList ⟨0, 1, 1, (0 : ℤ)⟩, 2⟩ (2 ^ 16) 16
      = none ∧
    CMatrixMult.apply_single_qubit_gate_int (fun _ => (1 : ℚ))
      ⟨List.replicate (2 ^ 16) 0, 16, 1 <<< 16⟩ .GATE_X 16 = none :=
  ⟨by decide, create_single_qubit_gate_matrix_int_overflow _ _ 16 16 (by decide),
    full_gate_matrix_int_overflow _ (2 ^ 16) 16 (by decide),
    apply_single_qubit_gate_int_overflow _ _ _ 16 (by decide)⟩

/-- **C20 (amended).** The dense engines do not reject an out-of-range target.
For every `n ≤ 15`, every `target` with `n ≤ target ≤ 30` and every gate, both
builders stay within the range of `int` and the full matrix of either is `g00`
times the `2 ^ n × 2 ^ n` identity, so applying it multiplies every amplitude
by `g00`; with the X table (`g00 = 0`) the whole state becomes zero, as in the
first gate of `test_runtime(1)` and `test_runtime(2)`, which is X on qubit 2. -/
theorem dense_out_of_range_target {α : Type} [DivisionRing α] (sqrt : α → α)
    (n target : Nat) (g : QuantumGate α) (v buf scratch : List α)
    (hn15 : n ≤ 15) (hnt : n ≤ target) (ht : target ≤ 30) (hv : v.length = 2 ^ n)
    (hbuf : buf.length = 2 ^ n * 2 ^ n) (hs : scratch.length = 2 ^ n) :
    (∃ (M : List α) (F : CMatrixMult.Matrix α),
      MatrixMult.create_single_qubit_gate_matrix_int buf g.toList n target = some M ∧
      CMatrixMult.full_gate_matrix_int ⟨g.toList, 2⟩ (2 ^ n) target = some F ∧
      ∀ i j, i < 2 ^ n → j < 2 ^ n →
        M.getD (i * 2 ^ n + j) 0 = (if i = j then g.e00 else 0) ∧
        F.data.getD (i * 2 ^ n + j) 0 = (if i = j then g.e00 else 0)) ∧
    (∃ (w : List α) (sv : CMatrixMult.Statevector α),
      (MatrixMult.create_single_qubit_gate_matrix_int buf g.toList n target).bind
        (fun matrix => MatrixMult.apply_matrix_int v matrix (1 <<< n) scratch) = some w ∧
      (CMatrixMult.full_gate_matrix_int ⟨g.toList, 2⟩ (1 <<< n) target).bind
        (fun full_gate => CMatrixMult.apply_matrix_to_statevector_int ⟨v, n, 1 <<< n⟩ full_gate)
        = some sv ∧
      ∀ k, k < 2 ^ n →
        w.getD k 0 = g.e00 * v.getD k 0 ∧ sv.data.getD k 0 = g.e00 * v.getD k 0) ∧
    (∃ (w : List α) (sv : CMatrixMult.Statevector α),
      (MatrixMult.create_single_qubit_gate_matrix_int buf [0, 1, 1, 0] n target).bind
        (fun matrix => MatrixMult.apply_matrix_int v matrix (1 <<< n) scratch) = some w ∧
      CMatrixMult.apply_single_qubit_gate_int sqrt ⟨v, n, 1 <<< n⟩ .GATE_X target = some sv ∧
      ∀ k, k < 2 ^ n → w.getD k 0 = 0 ∧ sv.data.getD k 0 = 0) := by
  have hd := matrix_size_le n hn15
  have hd1 : (1 <<< n) * (1 <<< n) ≤ INT_MAX := by rw [Nat.one_shiftLeft]; exact hd
  obtain ⟨h1, h2, h3⟩ := out_of_range_target_loops sqrt n target g v buf scratch hnt hv hbuf hs
  refine ⟨⟨_, _, create_single_qubit_gate_matrix_int_eq buf g.toList n target hd,
      full_gate_matrix_int_eq _ (2 ^ n) target hd, h1⟩,
    ⟨_, _, ?_, ?_, h2⟩, ⟨_, _, ?_, apply_single_qubit_gate_int_eq sqrt _ _ target hd1, h3⟩⟩
  · rw [create_single_qubit_gate_matrix_int_eq buf g.toList n target hd, Option.some_bind,
      apply_matrix_int_eq _ _ _ _ hd1]
  · rw [full_gate_matrix_int_eq _ (1 <<< n) target hd1, Option.some_bind,
      apply_matrix_to_statevector_int_eq _ _ hd1]
  · rw [create_single_qubit_gate_matrix_int_eq buf _ n target hd, Option.some_bind,
      apply_matrix_int_eq _ _ _ _ hd1]

/-- Instance of C20: one qubit and target 2, the first gate of
`test_runtime(1)`. -/
theorem dense_out_of_range_target_witness :
    (∃ (M : List ℚ) (F : CMatrixMult.Matrix ℚ),
      MatrixMult.create_single_qubit_gate_matrix_int [9, 9, 9, (9 : ℚ)]
        (QuantumGate.toList ⟨5, 6, 7, 8⟩) 1 2 = some M ∧
      CMatrixMult.full_gate_matrix_int ⟨QuantumGate.toList ⟨5, 6, 7, (8 : ℚ)⟩, 2⟩ (2 ^ 1) 2
        = some F ∧
      ∀ i j, i < 2 ^ 1 → j < 2 ^ 1 →
        M.getD (i * 2 ^ 1 + j) 0 = (if i = j then 5 else 0) ∧
        F.data.getD (i * 2 ^ 1 + j) 0 = (if i = j then 5 else 0)) ∧
    (∃ (w : List ℚ) (sv : CMatrixMult.Statevector ℚ),
      (MatrixMult.create_single_qubit_gate_matrix_int [9, 9, 9, (9 : ℚ)]
          (QuantumGate.toList ⟨5, 6, 7, 8⟩) 1 2).bind
        (fun matrix => MatrixMult.apply_matrix_int [1, (0 : ℚ)] matrix (1 <<< 1) [9, 9])
        = some w ∧
      (CMatrixMult.full_gate_matrix_int ⟨QuantumGate.toList ⟨5, 6, 7, (8 : ℚ)⟩, 2⟩
          (1 <<< 1) 2).bind
        (fun full_gate =>
          CMatrixMult.apply_matrix_to_statevector_int ⟨[1, (0 : ℚ)], 1, 1 <<< 1⟩ full_gate)
        = some sv ∧
      ∀ k, k < 2 ^ 1 →
        w.getD k 0 = 5 * ([1, (0 : ℚ)]).getD k 0 ∧
        sv.data.getD k 0 = 5 * ([1, (0 : ℚ)]).getD k 0) ∧
    (∃ (w : List ℚ) (sv : CMatrixMult.Statevector ℚ),
      (MatrixMult.create_single_qubit_gate_matrix_int [9, 9, 9, (9 : ℚ)] [0, 1, 1, 0] 1 2).bind
        (fun matrix => MatrixMult.apply_matrix_int [1, (0 : ℚ)] matrix (1 <<< 1) [9, 9])
        = some w ∧
      CMatrixMult.apply_single_qubit_gate_int (fun _ => (1 : ℚ)) ⟨[1, (0 : ℚ)], 1, 1 <<< 1⟩
        .GATE_X 2 = some sv ∧
      ∀ k, k < 2 ^ 1 → w.getD k 0 = 0 ∧ sv.data.getD k 0 = 0) :=
  dense_out_of_range_target (fun _ => (1 : ℚ)) 1 2 ⟨5, 6, 7, 8⟩ [1, 0] [9, 9, 9, 9] [9, 9]
    (by decide) (by decide) (by decide) (by decide) (by decide) (by decide)

/-- **C21.** For `n ≥ 2`, distinct `control`, `target` below `n` and every state
of length `2 ^ n`, the in-place `apply_cnot` of the qubit_manipulation engine
returns the state unchanged: each pair with the control bit set is swapped once
from each of its two members. -/
theorem apply_cnot_in_place_identity {α : Type} [Zero α] (n control target : Nat) (v : List α)
    (hn : 2 ≤ n) (hc : control < n) (ht : target < n) (hct : control ≠ target)
    (hv : v.length = 2 ^ n) :
    QubitManipulation.apply_cnot v n control target = v := by
  unfold QubitManipulation.apply_cnot
  dsimp only
  rw [Nat.one_shiftLeft n]
  obtain ⟨hl, hval⟩ := apply_cnot_loop v n control target ht hct hv (2 ^ n) (Nat.le_refl _)
  apply list_ext_getD 0
  · rw [hl, hv]
  · intro p hp
    rw [hl] at hp
    rw [hval p hp]
    have : ¬ (p.testBit control = true ∧ and_not p (1 <<< target) < 2 ^ n ∧
        2 ^ n ≤ p ||| (1 <<< target)) := by
      rintro ⟨_, _, h⟩
      exact absurd (or_mask_lt p target n hp ht) (Nat.not_lt.2 h)
    rw [if_neg this]

/-- Instance of C21 on two qubits with control 0 and target 1. -/
theorem apply_cnot_in_place_identity_witness :
    QubitManipulation.apply_cnot [1, 2, 3, (4 : ℤ)] 2 0 1 = [1, 2, 3, 4] :=
  apply_cnot_in_place_identity 2 0 1 [1, 2, 3, 4] (by decide) (by decide) (by decide)
    (by decide) (by decide)

/-- **C22.** For `1 ≤ n ≤ 30` and `target` (and `control`) below `n`, every index
that `apply_x`, `apply_h` and `apply_cnot` of the in-place engine and
`tensor_contract` and `apply_cnot_gate` read or write lies in `[0, 2 ^ n)`. -/
theorem accesses_in_bounds (n control target : Nat) (hn1 : 1 ≤ n) (hn30 : n ≤ 30)
    (hc : control < n) (ht : target < n) :
    (∀ idx, idx ∈ QubitManipulation.apply_x_accesses n target → idx < 2 ^ n) ∧
    (∀ idx, idx ∈ QubitManipulation.apply_h_accesses n target → idx < 2 ^ n) ∧
    (∀ idx, idx ∈ QubitManipulation.apply_cnot_accesses n control target → idx < 2 ^ n) ∧
    (∀ idx, idx ∈ tensor_contract_accesses target n → idx < 2 ^ n) ∧
    (∀ idx, idx ∈ apply_cnot_gate_accesses (n : Int) (control : Int) (target : Int) →
      idx < 2 ^ n) := by
  have hpair : ∀ (c : Nat → Prop) [DecidablePred c] (f : Nat → List Nat),
      (fun (i : Nat) (accesses : List Nat) => if c i then accesses ++ f i else accesses) =
      (fun i accesses => accesses ++ (if c i then f i else [])) := by
    intro c _ f
    funext i accesses
    by_cases h : c i
    · simp [h]
    · simp [h]
  refine ⟨?_, ?_, ?_, ?_, ?_⟩
  · unfold QubitManipulation.apply_x_accesses
    dsimp only
    rw [Nat.one_shiftLeft n,
      hpair (fun i => i &&& (1 <<< target) = 0)
        (fun i => [i, i ||| (1 <<< target), i, i ||| (1 <<< target)])]
    apply forLoop_append_all
    intro i hi x hx
    have h1 := or_mask_lt i target n hi ht
    split at hx
    · simp only [List.mem_cons, List.mem_singleton, List.not_mem_nil, or_false] at hx
      rcases hx with h | h | h | h <;> (rw [h]; assumption)
    · exact absurd hx (List.not_mem_nil x)
  · unfold QubitManipulation.apply_h_accesses
    dsimp only
    rw [Nat.one_shiftLeft n,
      hpair (fun i => i &&& (1 <<< target) = 0)
        (fun i => [i, i ||| (1 <<< target), i, i ||| (1 <<< target)])]
    apply forLoop_append_all
    intro i hi x hx
    have h1 := or_mask_lt i target n hi ht
    split at hx
    · simp only [List.mem_cons, List.mem_singleton, List.not_mem_nil, or_false] at hx
      rcases hx with h | h | h | h <;> (rw [h]; assumption)
    · exact absurd hx (List.not_mem_nil x)
  · unfold QubitManipulation.apply_cnot_accesses
    dsimp only
    rw [Nat.one_shiftLeft n,
      hpair (fun i => i &&& (1 <<< control) ≠ 0)
        (fun i => [and_not i (1 <<< target), i ||| (1 <<< target), and_not i (1 <<< target),
          i ||| (1 <<< target)])]
    apply forLoop_append_all
    intro i hi x hx
    have h0 := and_not_lt i target n hi
    have h1 := or_mask_lt i target n hi ht
    split at hx
    · simp only [List.mem_cons, List.mem_singleton, List.not_mem_nil, or_false] at hx
      rcases hx with h | h | h | h <;> (rw [h]; assumption)
    · exact absurd hx (List.not_mem_nil x)
  · unfold tensor_contract_accesses
    dsimp only
    rw [Nat.one_shiftLeft n]
    intro x hx
    rcases List.mem_append.1 hx with h | h
    · refine forLoop_append_all (fun y => y < 2 ^ n) (2 ^ n) _ ?_ x h
      clear hx h x
      intro i hi x hx
      have h0 := and_not_lt i target n hi
      have h1 := or_mask_lt i target n hi ht
      simp only [List.mem_cons, List.mem_singleton, List.not_mem_nil, or_false] at hx
      rcases hx with h | h | h | h | h | h <;> (rw [h]; assumption)
    · exact List.mem_range.1 h
  · have hval : validate_qubit_indices (n : Int) (control : Int) (target : Int) = true ∨
        validate_qubit_indices (n : Int) (control : Int) (target : Int) = false := by
      cases validate_qubit_indices (n : Int) (control : Int) (target : Int) <;> simp
    unfold apply_cnot_gate_accesses
    rcases hval with hv | hv
    · simp only [hv, Bool.not_true, Bool.false_eq_true, if_false, Int.toNat_ofNat]
      rw [Nat.one_shiftLeft n]
      have hbody : (fun (i : Nat) (accesses : List Nat) =>
          if (i >>> control) &&& 1 = 1 then accesses ++ [i ^^^ (1 <<< target), i]
          else accesses ++ [i, i]) =
          (fun i accesses => accesses ++
            (if (i >>> control) &&& 1 = 1 then [i ^^^ (1 <<< target), i] else [i, i])) := by
        funext i accesses
        split <;> rfl
      rw [hbody]
      intro x hx
      rcases List.mem_append.1 hx with h | h
      · refine forLoop_append_all (fun y => y < 2 ^ n) (2 ^ n) _ ?_ x h
        clear hx h x
        intro i hi x hx
        have h1 := xor_mask_lt i target n hi ht
        split at hx
        · simp only [List.mem_cons, List.mem_singleton, List.not_mem_nil, or_false] at hx
          rcases hx with h | h <;> (rw [h]; assumption)
        · simp only [List.mem_cons, List.mem_singleton, List.not_mem_nil, or_false] at hx
          rcases hx with h | h <;> (rw [h]; assumption)
      · exact List.mem_range.1 h
    · simp only [hv, Bool.not_false, if_true]
      intro x hx
      exact absurd hx (List.not_mem_nil x)

/-- Instance of C22 on two qubits with control 0 and target 1. -/
theorem accesses_in_bounds_witness :
    (∀ idx, idx ∈ QubitManipulation.apply_x_accesses 2 1 → idx < 2 ^ 2) ∧
    (∀ idx, idx ∈ QubitManipulation.apply_h_accesses 2 1 → idx < 2 ^ 2) ∧
    (∀ idx, idx ∈ QubitManipulation.apply_cnot_accesses 2 0 1 → idx < 2 ^ 2) ∧
    (∀ idx, idx ∈ tensor_contract_accesses 1 2 → idx < 2 ^ 2) ∧
    (∀ idx, idx ∈ apply_cnot_gate_accesses ((2 : Nat) : Int) ((0 : Nat) : Int) ((1 : Nat) : Int) →
      idx < 2 ^ 2) :=
  accesses_in_bounds 2 0 1 (by decide) (by decide) (by decide) (by decide)

/-- **C23.** For `n ≥ 2`, distinct targets `t1`, `t2` below `n`, gates `g1`, `g2`
and every state of length `2 ^ n`, `tensor_contract` with `(g1, t1)` followed
by `tensor_contract` with `(g2, t2)` leaves the same vector as the two calls in
the opposite order, in exact commutative arithmetic. -/
theorem tensor_contract_commute {α : Type} [CommSemiring α] (n t1 t2 : Nat)
    (g1 g2 : QuantumGate α) (v : List α) (hn : 2 ≤ n) (h1 : t1 < n) (h2 : t2 < n)
    (h12 : t1 ≠ t2) (hv : v.length = 2 ^ n) :
    tensor_contract (tensor_contract v g1 t1 n).2 g2 t2 n =
      tensor_contract (tensor_contract v g2 t2 n).2 g1 t1 n := by
  apply Prod.ext
  · rw [tensor_contract_fst, tensor_contract_fst]
  · apply list_ext_getD 0
    · rw [tensor_contract_length _ g2 t2 n (tensor_contract_length v g1 t1 n hv),
        tensor_contract_length _ g1 t1 n (tensor_contract_length v g2 t2 n hv)]
    · intro k hk
      rw [tensor_contract_length _ g2 t2 n (tensor_contract_length v g1 t1 n hv)] at hk
      rw [tensor_contract_twice_getD v g1 g2 t1 t2 n h1 h2 h12 hv k hk,
        tensor_contract_twice_getD v g2 g1 t2 t1 n h2 h1 (fun h => h12 h.symm) hv k hk,
        and_not_and_not_comm k t2 t1, and_not_or_mask_comm k t2 t1 (fun h => h12 h.symm),
        ← and_not_or_mask_comm k t1 t2 h12, or_mask_or_mask_comm k t2 t1]
      ring

/-- Instance of C23 on two qubits with targets 0 and 1. -/
theorem tensor_contract_commute_witness :
    tensor_contract (tensor_contract [1, 2, 3, (4 : ℤ)] ⟨5, 6, 7, 8⟩ 0 2).2 ⟨1, 2, 3, 5⟩ 1 2 =
      tensor_contract (tensor_contract [1, 2, 3, (4 : ℤ)] ⟨1, 2, 3, 5⟩ 1 2).2 ⟨5, 6, 7, 8⟩ 0 2 :=
  tensor_contract_commute 2 0 1 ⟨5, 6, 7, 8⟩ ⟨1, 2, 3, 5⟩ [1, 2, 3, 4] (by decide) (by decide)
    (by decide) (by decide) (by decide)

/-- **C24.** For `n ≥ 2`, distinct `control`, `target` below `n` and every state
of length `2 ^ n`, calling `apply_cnot_gate` twice with the same control and
target succeeds both times and returns exactly the original state. -/
theorem apply_cnot_gate_involution {α : Type} [Zero α] (n control target : Nat) (v : List α)
    (hn : 2 ≤ n) (hc : control < n) (ht : target < n) (hct : control ≠ target)
    (hv : v.length = 2 ^ n) :
    (apply_cnot_gate (some v) (n : Int) (control : Int) (target : Int)).1 = true ∧
    apply_cnot_gate (apply_cnot_gate (some v) (n : Int) (control : Int) (target : Int)).2
      (n : Int) (control : Int) (target : Int) = (true, some v) := by
  obtain ⟨w, hw, hlen, hget⟩ := apply_cnot_gate_valid v n control target hc ht hct hv
  obtain ⟨u, hu, hlen2, hget2⟩ := apply_cnot_gate_valid w n control target hc ht hct hlen
  rw [hw]
  refine ⟨rfl, ?_⟩
  dsimp only
  rw [hu]
  congr 2
  apply list_ext_getD 0
  · rw [hlen2, hv]
  · intro k hk
    rw [hlen2] at hk
    rw [hget2 k hk]
    by_cases hb : k.testBit control = true
    · rw [if_pos hb, hget _ (xor_mask_lt k target n hk ht),
        testBit_xor_mask_of_ne k control target hct, if_pos hb, xor_mask_xor_mask]
    · rw [if_neg hb, hget k hk, if_neg hb]

/-- Instance of C24 on two qubits with control 0 and target 1. -/
theorem apply_cnot_gate_involution_witness :
    (apply_cnot_gate (some [1, 2, 3, (4 : ℤ)]) ((2 : Nat) : Int) ((0 : Nat) : Int)
      ((1 : Nat) : Int)).1 = true ∧
    apply_cnot_gate (apply_cnot_gate (some [1, 2, 3, (4 : ℤ)]) ((2 : Nat) : Int)
      ((0 : Nat) : Int) ((1 : Nat) : Int)).2 ((2 : Nat) : Int) ((0 : Nat) : Int)
      ((1 : Nat) : Int) = (true, some [1, 2, 3, 4]) :=
  apply_cnot_gate_involution 2 0 1 [1, 2, 3, 4] (by decide) (by decide) (by decide) (by decide)
    (by decide)

/-- **C25.** Over the reals, for `n ≥ 1`, `target < n` and every state of length
`2 ^ n`, applying the in-place `apply_h` to the same target twice returns the
original state, because `(1/√2)² · 2 = 1`. -/
theorem apply_h_involution (n target : Nat) (v : List ℝ) (hn : 1 ≤ n) (ht : target < n)
    (hv : v.length = 2 ^ n) :
    QubitManipulation.apply_h Real.sqrt (QubitManipulation.apply_h Real.sqrt v n target)
      n target = v := by
  have hs : (1 / Real.sqrt 2) * (1 / Real.sqrt 2) * 2 = 1 := by
    have h2 : Real.sqrt 2 * Real.sqrt 2 = 2 := Real.mul_self_sqrt (by norm_num)
    have hne : Real.sqrt 2 ≠ 0 := by
      intro h; rw [h] at h2; norm_num at h2
    field_simp
  have hl1 := apply_h_length Real.sqrt v n target ht hv
  apply list_ext_getD 0
  · rw [apply_h_length Real.sqrt _ n target ht hl1, hv]
  · intro k hk
    rw [apply_h_length Real.sqrt _ n target ht hl1] at hk
    rw [apply_h_getD Real.sqrt _ n target ht hl1 k hk,
      apply_h_getD Real.sqrt v n target ht hv k hk,
      apply_h_getD Real.sqrt v n target ht hv _ (and_not_lt k target n hk),
      apply_h_getD Real.sqrt v n target ht hv _ (or_mask_lt k target n hk ht)]
    cases hb : k.testBit target
    · simp only [testBit_or_mask_self, testBit_and_not_self, and_not_or_mask,
        and_not_eq_self k target hb, Bool.false_eq_true, if_false, if_true]
      linear_combination (v.getD k 0) * hs
    · simp only [testBit_or_mask_self, testBit_and_not_self, or_mask_and_not,
        or_mask_eq_self k target hb, Bool.false_eq_true, if_false, if_true]
      linear_combination (v.getD k 0) * hs

/-- Instance of C25 on two qubits with target 1. -/
theorem apply_h_involution_witness :
    QubitManipulation.apply_h Real.sqrt (QubitManipulation.apply_h Real.sqrt [1, 2, 3, 4] 2 1)
      2 1 = [1, 2, 3, 4] :=
  apply_h_involution 2 1 [1, 2, 3, 4] (by decide) (by decide) (by simp)

end QcSim
